import Mathlib

/-!
Verification of the contraction-core utilities of the TensorNetwork repository
(`tensornetwork/contractors/opt_einsum_paths/utils.py`).

The Python module is embedded shallowly:

* Node and edge objects become records addressed by natural-number identifiers
  held in association lists; Python object mutation becomes functional update of
  a `Network` record.
* The backend's `einsum` is an opaque function `String → Nat → Nat → Nat` on
  opaque tensor identifiers.
* The exhausted 62-character subscript iterator (Python `StopIteration`) is an
  explicit `Err.rankExceedsAlphabet` error; other fatal paths map to the other
  `Err` constructors.
* Operations of `network.py` / `network_components.py` (which are not part of
  the given sources) are modelled from the specification; their doc comments
  say so explicitly.

Python iterates over `set(...)` objects in an unspecified order; the embedding
fixes list order.  All iteration orders fixed this way are over actions whose
results the theorems below do not distinguish, or are noted at the definition.
-/

set_option maxHeartbeats 1000000

namespace TN

/-- Failure modes of the contraction core (the spec's error taxonomy; in the
Python source these surface as `NotImplementedError`, `StopIteration` from the
exhausted subscript iterator, `KeyError`, and `ValueError`). -/
inductive Err where
  | notImplemented
  | rankExceedsAlphabet
  | keyError
  | dimensionMismatch
  | valueError
deriving DecidableEq, Repr

/-! ### `multi_remove` (utils.py lines 24-26)

`return [i for j, i in enumerate(elems) if j not in indices]` -/

/-- `multi_remove(elems, indices)` from the source: keep the elements whose
enumeration index does not occur in `indices`. -/
def multi_remove {α : Type} (elems : List α) (indices : List Nat) : List α :=
  (elems.enum.filter (fun p => decide (p.1 ∉ indices))).map Prod.snd

/-- Reference recursion: walk the list with a position counter, dropping the
elements whose position is listed. -/
def removeAtFrom {α : Type} : Nat → List α → List Nat → List α
  | _, [], _ => []
  | j, a :: l, idxs =>
    if j ∈ idxs then removeAtFrom (j + 1) l idxs
    else a :: removeAtFrom (j + 1) l idxs

theorem enumFrom_filter_map  {α : Type} (indices : List Nat) :
    ∀ (j : Nat) (elems : List α),
      ((elems.enumFrom j).filter (fun p => decide (p.1 ∉ indices))).map Prod.snd
        = removeAtFrom j elems indices := by
  intro j elems
  induction elems generalizing j with
  | nil => simp [removeAtFrom]
  | cons a l ih =>
    have ih2 := ih (j + 1)
    by_cases h : j ∈ indices
    · simp only [List.enumFrom, removeAtFrom, h, List.filter_cons, decide_not,
        decide_eq_true_eq, if_pos] at ih2 ⊢
      simpa [h] using ih2
    · simp only [List.enumFrom, removeAtFrom, h, List.filter_cons, decide_not,
        decide_eq_true_eq, if_neg] at ih2 ⊢
      simpa [h] using ih2

theorem removeAtFrom_congr {α : Type} (elems : List α) :
    ∀ (j : Nat) (idxs idxs2 : List Nat),
      (∀ k, j ≤ k → k < j + elems.length → (k ∈ idxs ↔ k ∈ idxs2)) →
      removeAtFrom j elems idxs = removeAtFrom j elems idxs2 := by
  induction elems with
  | nil => intro j idxs idxs2 _; rfl
  | cons a l ih =>
    intro j idxs idxs2 h
    have hj : j ∈ idxs ↔ j ∈ idxs2 := by
      refine h j le_rfl ?_
      simp [Nat.lt_add_of_pos_right, Nat.succ_pos]
    have htail : removeAtFrom (j + 1) l idxs = removeAtFrom (j + 1) l idxs2 := by
      refine ih (j + 1) idxs idxs2 ?_
      intro k hk1 hk2
      refine h k (Nat.le_of_succ_le hk1) ?_
      simpa [Nat.add_right_comm, Nat.add_comm, Nat.add_left_comm, List.length_cons] using
        (by omega : k < j + (l.length + 1))
    by_cases hc : j ∈ idxs
    · have hc2 : j ∈ idxs2 := hj.mp hc
      simp [removeAtFrom, hc, hc2, htail]
    · have hc2 : j ∉ idxs2 := fun hx => hc (hj.mpr hx)
      simp [removeAtFrom, hc, hc2, htail]

/-- C10: `multi_remove(elems, indices)` returns a new list containing, in their
original relative order, exactly those elements of `elems` whose position does
not occur in `indices`; positions in `indices` that are out of range for
`elems` are silently ignored.  (The embedding is a pure function of `elems`,
mirroring that the Python list comprehension builds a fresh list and leaves the
input list unmodified.) -/
theorem multi_remove_correct {α : Type} (elems : List α) (indices : List Nat) :
    multi_remove elems indices = removeAtFrom 0 elems indices ∧
    multi_remove elems indices
      = multi_remove elems (indices.filter (fun j => decide (j < elems.length))) := by
  have h1 : ∀ idxs : List Nat, multi_remove elems idxs = removeAtFrom 0 elems idxs := by
    intro idxs
    simpa [multi_remove, List.enum] using enumFrom_filter_map idxs 0 elems
  refine ⟨h1 indices, ?_⟩
  rw [h1, h1]
  refine removeAtFrom_congr elems 0 _ _ ?_
  intro k _ hk2
  have hk3 : k < elems.length := by simpa using hk2
  simp [List.mem_filter, hk3]

/-! ### Graph data model

`Node`, `Edge` and the network container of `network_components.py` /
`network.py`, shallowly embedded with identifiers in place of Python object
references.  A dangling edge has `node2 = none`; the Python source stores
`None` there likewise. -/

/-- An edge: endpoint 1 `(node1, axis1)`, optional endpoint 2
`(node2, axis2)`, and a dimension. -/
structure Edge where
  node1 : Nat
  axis1 : Nat
  node2 : Option Nat
  axis2 : Option Nat
  dim : Nat
deriving DecidableEq, Repr

/-- `edge.is_dangling()`: no second endpoint. -/
def Edge.isDangling (e : Edge) : Bool := e.node2.isNone

/-- `edge` touches node `n`: one of its endpoints is `n`. -/
def Edge.touches (e : Edge) (n : Nat) : Bool :=
  e.node1 == n || e.node2 == some n

/-- A node: its axis slots (edge identifiers, position `i` = axis `i`), a
copy-node flag, an opaque tensor identifier, and the disabled flag. -/
structure Node where
  slots : List Nat
  isCopy : Bool
  tensor : Nat
  disabled : Bool
deriving DecidableEq, Repr

/-- The network: node and edge stores (association lists keyed by identifier),
the live node set, and fresh-identifier counters. -/
structure Network where
  nodes : List (Nat × Node)
  edges : List (Nat × Edge)
  nodesSet : List Nat
  nextNodeId : Nat
  nextEdgeId : Nat
deriving DecidableEq, Repr

/-- First-match association lookup. -/
def lookupA {α : Type} (l : List (Nat × α)) (k : Nat) : Option α :=
  (l.find? (fun p => p.1 == k)).map Prod.snd

/-- Association update: replace the first binding of `k`, or append one. -/
def setA {α : Type} : List (Nat × α) → Nat → α → List (Nat × α)
  | [], k, v => [(k, v)]
  | (k2, v2) :: rest, k, v =>
    if k2 == k then (k, v) :: rest else (k2, v2) :: setA rest k v

@[simp] theorem lookupA_nil {α : Type} (k : Nat) : lookupA ([] : List (Nat × α)) k = none := rfl

@[simp] theorem lookupA_cons {α : Type} (k2 : Nat) (v2 : α) (rest : List (Nat × α)) (k : Nat) :
    lookupA ((k2, v2) :: rest) k = if k2 = k then some v2 else lookupA rest k := by
  by_cases h : k2 = k
  · subst h
    simp [lookupA, List.find?_cons_of_pos]
  · rw [lookupA, List.find?_cons_of_neg _ (by simpa using h), if_neg h]
    rfl

theorem lookupA_setA_self {α : Type} (l : List (Nat × α)) (k : Nat) (v : α) :
    lookupA (setA l k v) k = some v := by
  induction l with
  | nil => simp [setA]
  | cons p rest ih =>
    obtain ⟨k2, v2⟩ := p
    by_cases h : k2 = k <;> simp [setA, h, ih]

theorem lookupA_setA_ne {α : Type} (l : List (Nat × α)) (k k3 : Nat) (v : α)
    (h : k3 ≠ k) : lookupA (setA l k v) k3 = lookupA l k3 := by
  induction l with
  | nil => simp [setA, Ne.symm h]
  | cons p rest ih =>
    obtain ⟨k2, v2⟩ := p
    by_cases h2 : k2 = k
    · subst h2
      simp [setA, Ne.symm h, h]
    · by_cases h3 : k2 = k3 <;> simp [setA, h2, h3, h, ih]

theorem lookupA_mem {α : Type} {l : List (Nat × α)} {k : Nat} {v : α}
    (h : lookupA l k = some v) : (k, v) ∈ l := by
  induction l with
  | nil => simp [lookupA] at h
  | cons p rest ih =>
    obtain ⟨k2, v2⟩ := p
    by_cases h2 : k2 = k
    · subst h2
      simp_all
    · simp [h2] at h
      exact List.mem_cons_of_mem _ (ih h)

theorem lookupA_isSome_of_mem {α : Type} {l : List (Nat × α)} {k : Nat} {v : α}
    (h : (k, v) ∈ l) : (lookupA l k).isSome := by
  induction l with
  | nil => simp at h
  | cons p rest ih =>
    obtain ⟨k2, v2⟩ := p
    rcases List.mem_cons.mp h with h1 | h1
    · obtain ⟨h2, h3⟩ := Prod.mk.injEq .. ▸ h1
      simp [← h2]
    · by_cases h2 : k2 = k <;> simp [h2, ih h1]

/-- Default node used when an identifier is absent (Python would raise; the
theorems below carry well-formedness hypotheses that rule this out). -/
def defaultNode : Node := ⟨[], false, 0, false⟩

/-- Default edge used when an identifier is absent. -/
def defaultEdge : Edge := ⟨0, 0, none, none, 0⟩

def Network.getNode (net : Network) (n : Nat) : Option Node := lookupA net.nodes n

def Network.getNodeD (net : Network) (n : Nat) : Node := (net.getNode n).getD defaultNode

def Network.getEdge (net : Network) (e : Nat) : Option Edge := lookupA net.edges e

def Network.getEdgeD (net : Network) (e : Nat) : Edge := (net.getEdge e).getD defaultEdge

def Network.setNode (net : Network) (n : Nat) (v : Node) : Network :=
  { net with nodes := setA net.nodes n v }

def Network.setEdge (net : Network) (e : Nat) (v : Edge) : Network :=
  { net with edges := setA net.edges e v }

/-- Overwrite axis slot `a` of node `n` with edge `e`. -/
def Network.setSlot (net : Network) (n a e : Nat) : Network :=
  net.setNode n { net.getNodeD n with slots := (net.getNodeD n).slots.set a e }

/-- Number of axis slots of node `n` (the node's rank). -/
def Network.rankOf (net : Network) (n : Nat) : Nat := (net.getNodeD n).slots.length

/-- Edge identifier in axis slot `a` of node `n`. -/
def Network.slotOf (net : Network) (n a : Nat) : Nat := (net.getNodeD n).slots.getD a 0

/-- The neighbor of node `n` along its slot edge `eid`, exactly as the source
computes it (`edge.node2 if edge.node1 is n else edge.node1`); `none` when the
edge dangles from `n`. -/
def Network.neighborOf (net : Network) (n eid : Nat) : Option Nat :=
  let e := net.getEdgeD eid
  if e.node1 == n then e.node2 else some e.node1

/-! ### Network operations modelled from the spec

`network.py` and `network_components.py` are not part of the given sources;
the operations below are modelled from the specification (§4.1), which is the
authority for them. -/

/-- Modelled from the spec: `TensorNetwork.disconnect` (`network.py`, not under
`src/`): the inverse of connect, producing two fresh dangling edges — the first
anchored on the edge's first endpoint, the second on its second endpoint — and
updating each endpoint node's axis slot to its new dangling edge.  The old edge
record is left in the store, mirroring that the Python `Edge` object persists
(stale) after disconnection. -/
def Network.disconnect (net : Network) (eid : Nat) : Network × Nat × Nat :=
  let e := net.getEdgeD eid
  let d1 := net.nextEdgeId
  let d2 := net.nextEdgeId + 1
  let n2 := e.node2.getD 0
  let a2 := e.axis2.getD 0
  let net1 := { net with nextEdgeId := net.nextEdgeId + 2 }
  let net2 := net1.setEdge d1 ⟨e.node1, e.axis1, none, none, e.dim⟩
  let net3 := net2.setEdge d2 ⟨n2, a2, none, none, e.dim⟩
  let net4 := net3.setSlot e.node1 e.axis1 d1
  let net5 := net4.setSlot n2 a2 d2
  (net5, d1, d2)

/-- Modelled from the spec: `connect` (the `^` operator): requires two dangling
edges of equal dimension and fuses them into one standard (or trace) edge; on a
dimension mismatch the operation fails with `DimensionMismatch`. -/
def Network.connect (net : Network) (ea eb : Nat) : Except Err (Network × Nat) :=
  let e1 := net.getEdgeD ea
  let e2 := net.getEdgeD eb
  if ¬e1.isDangling ∨ ¬e2.isDangling then .error .valueError
  else if e1.dim ≠ e2.dim then .error .dimensionMismatch
  else
    let f := net.nextEdgeId
    let net1 := { net with nextEdgeId := net.nextEdgeId + 1 }
    let net2 := net1.setEdge f ⟨e1.node1, e1.axis1, some e2.node1, some e2.axis1, e1.dim⟩
    let net3 := net2.setSlot e1.node1 e1.axis1 f
    let net4 := net3.setSlot e2.node1 e2.axis1 f
    .ok (net4, f)

/-- One step of `remove_node`: disconnect the non-dangling slot edges that are
endpointed on `n`, collecting the freshly dangling partner edges keyed by `n`'s
axis. -/
def removeNodeAux (n : Nat) : Network → List (Nat × Nat) → Network × List (Nat × Nat)
  | net, [] => (net, [])
  | net, (i, eid) :: rest =>
    let e := net.getEdgeD eid
    if ¬e.isDangling ∧ e.touches n then
      let r := net.disconnect eid
      let partner := if e.node1 == n then r.2.2 else r.2.1
      let rec2 := removeNodeAux n r.1 rest
      (rec2.1, (i, partner) :: rec2.2)
    else removeNodeAux n net rest

/-- Modelled from the spec: `remove_node` (`network.py`, not under `src/`):
disconnects every non-dangling edge of `n` (those still endpointed on `n`),
returns the freshly dangling partner edges keyed by `n`'s axis, removes `n`
from the node set and marks it disabled. -/
def Network.removeNode (net : Network) (n : Nat) : Network × List (Nat × Nat) :=
  let r := removeNodeAux n net (net.getNodeD n).slots.enum
  let net2 := r.1.setNode n { r.1.getNodeD n with disabled := true }
  ({ net2 with nodesSet := net2.nodesSet.erase n }, r.2)

/-- Modelled from the spec: `add_node` as used for the contractor's result: a
fresh node of the given rank whose axis slots are filled with fresh dangling
placeholder edges (of unknown dimension, as the tensor is opaque); the caller
rewires every slot immediately afterwards. -/
def Network.addNode (net : Network) (tensor rank : Nat) : Network × Nat :=
  let ν := net.nextNodeId
  let slotIds := (List.range rank).map (fun i => net.nextEdgeId + i)
  let net1 := { net with nextNodeId := ν + 1, nextEdgeId := net.nextEdgeId + rank }
  let net2 := (List.range rank).foldl
    (fun acc i => acc.setEdge (net.nextEdgeId + i) ⟨ν, i, none, none, 0⟩) net1
  let net3 := net2.setNode ν ⟨slotIds, false, tensor, false⟩
  ({ net3 with nodesSet := net3.nodesSet ++ [ν] }, ν)

/-- Modelled from the spec: `Edge.update_axis(old_node, old_axis, new_axis,
new_node)` (`network_components.py`, not under `src/`): the endpoint of the
edge that was attached to `old_node` is re-attached to `(new_node, new_axis)`.
The contractor passes, for an exposed copy edge, `node1`'s axis rather than the
copy's own axis as `old_axis`, and the repository's tests require that rewiring
to succeed, so the endpoint is matched by node. -/
def Network.updateAxis (net : Network) (eid oldNode newNode newAxis : Nat) : Network :=
  let e := net.getEdgeD eid
  if e.node1 == oldNode then
    net.setEdge eid { e with node1 := newNode, axis1 := newAxis }
  else if e.node2 == some oldNode then
    net.setEdge eid { e with node2 := some newNode, axis2 := some newAxis }
  else net

/-! ### `find_copy_nodes` (utils.py lines 29-61) and friends -/

/-- Inner loop of `find_copy_nodes` over one copy node's edges: thread the
optional representative edge, the global `edge_map`, and the copy's neighbor
set (a list with set-insertion). -/
def findCopyAux (net : Network) (copy : Nat) :
    Option Nat → List Nat → List (Nat × Nat) → List Nat →
      (List (Nat × Nat)) × List Nat
  | _, [], edgeMap, neighbors => (edgeMap, neighbors)
  | rep, eid :: rest, edgeMap, neighbors =>
    let e := net.getEdgeD eid
    if e.isDangling then findCopyAux net copy rep rest edgeMap neighbors
    else
      let rep2 := rep.getD eid
      let nb := if e.node2 == some copy then e.node1 else e.node2.getD 0
      let neighbors2 := if nb ∈ neighbors then neighbors else neighbors ++ [nb]
      findCopyAux net copy (some rep2) rest (setA edgeMap eid rep2) neighbors2

/-- Outer loop of `find_copy_nodes` over the node set (Python iterates the set
`net.nodes_set` in unspecified order; the embedding fixes list order). -/
def findCopyNodesAux (net : Network) :
    List Nat → List (Nat × List Nat) → List (Nat × Nat) →
      List (Nat × List Nat) × List (Nat × Nat)
  | [], copyNeighbors, edgeMap => (copyNeighbors, edgeMap)
  | c :: rest, copyNeighbors, edgeMap =>
    if (net.getNodeD c).isCopy then
      let r := findCopyAux net c none (net.getNodeD c).slots edgeMap []
      findCopyNodesAux net rest (copyNeighbors ++ [(c, r.2)]) r.1
    else findCopyNodesAux net rest copyNeighbors edgeMap

/-- `find_copy_nodes(net)`: returns `(copy_neighbors, edge_map)`. -/
def find_copy_nodes (net : Network) : List (Nat × List Nat) × List (Nat × Nat) :=
  findCopyNodesAux net net.nodesSet [] []

/-- `find_copy_neighbors(net, node)`: the copy nodes connected to `node`
(Python builds a set; the embedding deduplicates the list). -/
def find_copy_neighbors (net : Network) (node : Nat) : List Nat :=
  ((net.getNodeD node).slots.filterMap (fun eid =>
    let e := net.getEdgeD eid
    if e.isDangling then none
    else
      let nb := if e.node1 == node then e.node2.getD 0 else e.node1
      if (net.getNodeD nb).isCopy then some nb else none)).dedup

/-! ### `disconnect_copy_edge` (utils.py lines 77-85) -/

/-- `disconnect_copy_edge(net, edge, node)`: disconnect, then orient the two
fresh dangling edges so that the first is the one anchored on `node`. -/
def disconnect_copy_edge (net : Network) (eid node : Nat) : Network × Nat × Nat :=
  let r := net.disconnect eid
  if (r.1.getEdgeD r.2.1).node1 == node then r
  else (r.1, r.2.2, r.2.1)

/-! ### `get_path` (utils.py lines 216-238) -/

/-- `net.get_all_edges()`: every edge reachable from a live node's slots
(Python builds a set; the embedding deduplicates keeping first occurrence). -/
def Network.allEdges (net : Network) : List Nat :=
  ((net.nodesSet.map (fun n => (net.getNodeD n).slots)).flatten).dedup

/-- `net.get_all_nondangling()`. -/
def Network.allNondangling (net : Network) : List Nat :=
  net.allEdges.filter (fun e => ¬(net.getEdgeD e).isDangling)

/-- The `input_sets` argument `get_path` passes to the algorithm: per node the
set of its slot edges, each replaced by `edge_map[edge]` when present (Python
skips the substitution entirely when `edge_map` is empty or `None`). -/
def gpInputSets (net : Network) (sortedNodes : List Nat) (edgeMap : List (Nat × Nat)) :
    List (List Nat) :=
  if edgeMap.isEmpty then
    sortedNodes.map (fun n => (net.getNodeD n).slots.dedup)
  else
    sortedNodes.map (fun n =>
      ((net.getNodeD n).slots.map (fun e => (lookupA edgeMap e).getD e)).dedup)

/-- The `output_set` argument: all edges minus the non-dangling ones. -/
def gpOutputSet (net : Network) : List Nat :=
  net.allEdges.filter (fun e => ¬net.allNondangling.contains e)

/-- The `size_dict` argument: every edge mapped to its dimension. -/
def gpSizeDict (net : Network) : List (Nat × Nat) :=
  net.allEdges.map (fun e => (e, (net.getEdgeD e).dim))

/-- `get_path(net, algorithm, sorted_nodes, edge_map)`: build the three
arguments and return the algorithm's pair list unchanged. -/
def get_path (net : Network)
    (algorithm : List (List Nat) → List Nat → List (Nat × Nat) → List (Nat × Nat))
    (sortedNodes : List Nat) (edgeMap : List (Nat × Nat)) : List (Nat × Nat) :=
  algorithm (gpInputSets net sortedNodes edgeMap) (gpOutputSet net) (gpSizeDict net)

/-! ### `contract_between_with_copies` (utils.py lines 115-213)

Subscript characters are embedded as indices `0, 1, 2, …` into the fixed
62-character alphabet; `next(_VALID_SUBSCRIPTS)` becomes `allocChar`, which
fails with `Err.rankExceedsAlphabet` (Python: `StopIteration`) once the 62
characters are exhausted. -/

/-- The 62-character einsum alphabet of the source, in order. -/
def alphabetChars : List Char :=
  "abcdefghijklmnopqrstuvwxyzABCDEFGHIJKLMNOPQRSTUVWXYZ0123456789".toList

/-- The subscript character with the given allocation index. -/
def subscriptChar (i : Nat) : Char := alphabetChars.getD i '?'

/-- Mutable state of the einsum-expression construction: the network, the
number of subscripts consumed so far, the `edge_char` dictionary, the three
token character lists, and the output-edge plan `(edge, old_node, old_axis)`. -/
structure BuildSt where
  net : Network
  counter : Nat
  edgeChar : List (Nat × Nat)
  node1Expr : List Nat
  node2Expr : List Nat
  outputExpr : List Nat
  outputEdges : List (Nat × Nat × Nat)
deriving DecidableEq, Repr

/-- `next(_VALID_SUBSCRIPTS)`: the next of the 62 subscripts, or failure. -/
def allocChar (st : BuildSt) : Except Err (Nat × BuildSt) :=
  if st.counter < 62 then .ok (st.counter, { st with counter := st.counter + 1 })
  else .error .rankExceedsAlphabet

/-- Body of the inner loop over a shared copy node's edges (utils.py lines
162-176): disconnect the edges touching `node1`; disconnect the edges touching
`node2` and bind their `node2`-side halves to the current character; append any
remaining edge of the copy to the output with the current character and
`node1`'s axis as recorded position. -/
def processCopyEdge (node1 node2 c ch oldAxis : Nat) (st : BuildSt) (ce : Nat) : BuildSt :=
  let e := st.net.getEdgeD ce
  if e.node1 == node1 || e.node2 == some node1 then
    { st with net := (st.net.disconnect ce).1 }
  else if e.node1 == node2 then
    let r := st.net.disconnect ce
    { st with net := r.1, edgeChar := setA st.edgeChar r.2.1 ch }
  else if e.node2 == some node2 then
    let r := st.net.disconnect ce
    { st with net := r.1, edgeChar := setA st.edgeChar r.2.2 ch }
  else
    { st with outputExpr := st.outputExpr ++ [ch],
              outputEdges := st.outputEdges ++ [(ce, c, oldAxis)] }

/-- One iteration of the loop over `node1.edges` (utils.py lines 144-180),
reading axis slot `i` from the live network. -/
def walk1Step (node1 node2 : Nat) (cs : List Nat) (st : BuildSt) (i : Nat) :
    Except Err BuildSt :=
  match allocChar st with
  | .error err => .error err
  | .ok (ch, st1) =>
    let eid := (st1.net.getNodeD node1).slots.getD i 0
    let st2 := { st1 with node1Expr := st1.node1Expr ++ [ch] }
    let e := st2.net.getEdgeD eid
    let oldAxis := if e.node1 == node1 then e.axis1 else e.axis2.getD 0
    let neighborOpt := if e.node1 == node1 then e.node2 else some e.node1
    match neighborOpt with
    | none =>
      .ok { st2 with outputExpr := st2.outputExpr ++ [ch],
                     outputEdges := st2.outputEdges ++ [(eid, node1, oldAxis)] }
    | some nb =>
      if nb == node2 then .ok { st2 with edgeChar := setA st2.edgeChar eid ch }
      else if nb ∈ cs then
        .ok (((st2.net.getNodeD nb).slots.dedup).foldl
              (processCopyEdge node1 node2 nb ch oldAxis) st2)
      else
        .ok { st2 with outputExpr := st2.outputExpr ++ [ch],
                       outputEdges := st2.outputEdges ++ [(eid, node1, oldAxis)] }

/-- The loop over `node1.edges` (axis indices are fixed up front; slot contents
are read live at each step, as in Python). -/
def walk1 (node1 node2 : Nat) (cs : List Nat) : List Nat → BuildSt → Except Err BuildSt
  | [], st => .ok st
  | i :: rest, st =>
    match walk1Step node1 node2 cs st i with
    | .error err => .error err
    | .ok st2 => walk1 node1 node2 cs rest st2

/-- One iteration of the loop over `node2.edges` (utils.py lines 183-191). -/
def walk2Step (node2 : Nat) (st : BuildSt) (i : Nat) : Except Err BuildSt :=
  let eid := (st.net.getNodeD node2).slots.getD i 0
  match lookupA st.edgeChar eid with
  | some ch => .ok { st with node2Expr := st.node2Expr ++ [ch] }
  | none =>
    match allocChar st with
    | .error err => .error err
    | .ok (ch, st1) =>
      let e := st1.net.getEdgeD eid
      let oldAxis := if e.node1 == node2 then e.axis1 else e.axis2.getD 0
      .ok { st1 with node2Expr := st1.node2Expr ++ [ch],
                     outputExpr := st1.outputExpr ++ [ch],
                     outputEdges := st1.outputEdges ++ [(eid, node2, oldAxis)] }

/-- The loop over `node2.edges`. -/
def walk2 (node2 : Nat) : List Nat → BuildSt → Except Err BuildSt
  | [], st => .ok st
  | i :: rest, st =>
    match walk2Step node2 st i with
    | .error err => .error err
    | .ok st2 => walk2 node2 rest st2

/-- `"node1_expr,node2_expr->output_expr"` (utils.py lines 193-194). -/
def mkEinsumExpr (st : BuildSt) : String :=
  String.mk (st.node1Expr.map subscriptChar) ++ "," ++
    String.mk (st.node2Expr.map subscriptChar) ++ "->" ++
    String.mk (st.outputExpr.map subscriptChar)

/-- The rewiring loop (utils.py lines 199-207): for plan position `k`, move the
edge's endpoint from its old node onto axis `k` of the new node `ν`, record it
in `ν`'s slot `k`, and remove the old node when it is a shared copy. -/
def rewireAux (ν : Nat) : Network → List Nat → Nat → List (Nat × Nat × Nat) →
    Network × List Nat
  | net, csR, _, [] => (net, csR)
  | net, csR, k, (eid, oldNode, _) :: rest =>
    let net1 := net.updateAxis eid oldNode ν k
    let net2 := net1.setSlot ν k eid
    if oldNode ∈ csR then
      rewireAux ν (net2.removeNode oldNode).1 (csR.erase oldNode) (k + 1) rest
    else rewireAux ν net2 csR (k + 1) rest

/-- Result of `contract_between_with_copies`.  When the trivialization empties
`shared_copies`, the source delegates to `node1 @ node2`
(`TensorNetwork.contract_between`, which lives in `network.py`, outside the
given sources); that branch is returned as the `plain` marker.  The extended
branch carries the final network, the new node, the einsum expression, the
output-edge plan and the full builder state. -/
inductive MergeResult where
  | plain (net : Network) (node1 node2 : Nat)
  | extended (net : Network) (newNode : Nat) (expr : String)
      (plan : List (Nat × Nat × Nat)) (build : BuildSt)
deriving DecidableEq, Repr

/-- One iteration of the trivialization loop (utils.py lines 126-133): a copy
with exactly two edges is removed and its two broken partner edges reconnected;
a copy whose edge count is not 3 at this point raises `NotImplementedError`. -/
def trivializeStep (net : Network) (cs : List Nat) (c : Nat) :
    Except Err (Network × List Nat) :=
  if (net.getNodeD c).slots.length = 2 then
    let cs2 := cs.erase c
    let r := net.removeNode c
    match lookupA r.2 0, lookupA r.2 1 with
    | some b0, some b1 =>
      match r.1.connect b0 b1 with
      | .error err => .error err
      | .ok p => .ok (p.1, cs2)
    | _, _ => .error .keyError
  else if (net.getNodeD c).slots.length ≠ 3 then .error .notImplemented
  else .ok (net, cs)

/-- The trivialization loop, iterating over the snapshot `set(shared_copies)`
(the embedding fixes list order) while threading the live network and the live
`shared_copies`. -/
def trivialize : Network → List Nat → List Nat → Except Err (Network × List Nat)
  | net, cs, [] => .ok (net, cs)
  | net, cs, c :: rest =>
    match trivializeStep net cs c with
    | .error err => .error err
    | .ok p => trivialize p.1 p.2 rest

/-- The tail of the non-trivial branch (utils.py lines 193-213) after both
walks have succeeded with builder state `st`: build the expression string,
call the backend, add the result node, run the rewiring loop, and remove and
disable `node1` and `node2`. -/
def buildTail (backend : String → Nat → Nat → Nat) (st : BuildSt)
    (node1 node2 : Nat) (cs : List Nat) : Except Err MergeResult :=
  let expr := mkEinsumExpr st
  let newTensor := backend expr (st.net.getNodeD node1).tensor
    (st.net.getNodeD node2).tensor
  let p := st.net.addNode newTensor st.outputEdges.length
  let q := rewireAux p.2 p.1 cs 0 st.outputEdges
  let netA := { q.1 with nodesSet := (q.1.nodesSet.erase node1).erase node2 }
  let netB := netA.setNode node1 { netA.getNodeD node1 with disabled := true }
  let netC := netB.setNode node2 { netB.getNodeD node2 with disabled := true }
  .ok (.extended netC p.2 expr st.outputEdges st)

/-- The non-trivial branch (utils.py lines 137-213): build the einsum
expression by the two walks, then run the tail above. -/
def buildPhase (backend : String → Nat → Nat → Nat) (net : Network)
    (node1 node2 : Nat) (cs : List Nat) : Except Err MergeResult :=
  match walk1 node1 node2 cs (List.range (net.rankOf node1))
      ⟨net, 0, [], [], [], [], []⟩ with
  | .error err => .error err
  | .ok stA =>
    match walk2 node2 (List.range (stA.net.rankOf node2)) stA with
    | .error err => .error err
    | .ok st => buildTail backend st node1 node2 cs

/-- `contract_between_with_copies(net, node1, node2, shared_copies)`. -/
def contract_between_with_copies (backend : String → Nat → Nat → Nat)
    (net : Network) (node1 node2 : Nat) (cs : List Nat) : Except Err MergeResult :=
  if node1 = node2 then .error .notImplemented
  else
    match trivialize net cs cs with
    | .error err => .error err
    | .ok p =>
      if p.2.isEmpty then .ok (.plain p.1 node1 node2)
      else buildPhase backend p.1 node1 node2 p.2

/-! ### Basic lemmas about the store operations -/

@[simp] theorem getEdge_setNode (net : Network) (n : Nat) (v : Node) (e : Nat) :
    (net.setNode n v).getEdge e = net.getEdge e := rfl

@[simp] theorem getNode_setEdge (net : Network) (e : Nat) (v : Edge) (n : Nat) :
    (net.setEdge e v).getNode n = net.getNode n := rfl

@[simp] theorem getEdge_setSlot (net : Network) (n a e2 e : Nat) :
    (net.setSlot n a e2).getEdge e = net.getEdge e := rfl

@[simp] theorem nodesSet_setNode (net : Network) (n : Nat) (v : Node) :
    (net.setNode n v).nodesSet = net.nodesSet := rfl

@[simp] theorem nodesSet_setEdge (net : Network) (e : Nat) (v : Edge) :
    (net.setEdge e v).nodesSet = net.nodesSet := rfl

@[simp] theorem nodesSet_setSlot (net : Network) (n a e : Nat) :
    (net.setSlot n a e).nodesSet = net.nodesSet := rfl

@[simp] theorem nextEdgeId_setNode (net : Network) (n : Nat) (v : Node) :
    (net.setNode n v).nextEdgeId = net.nextEdgeId := rfl

@[simp] theorem nextEdgeId_setEdge (net : Network) (e : Nat) (v : Edge) :
    (net.setEdge e v).nextEdgeId = net.nextEdgeId := rfl

@[simp] theorem nextEdgeId_setSlot (net : Network) (n a e : Nat) :
    (net.setSlot n a e).nextEdgeId = net.nextEdgeId := rfl

@[simp] theorem nextNodeId_setNode (net : Network) (n : Nat) (v : Node) :
    (net.setNode n v).nextNodeId = net.nextNodeId := rfl

@[simp] theorem nextNodeId_setEdge (net : Network) (e : Nat) (v : Edge) :
    (net.setEdge e v).nextNodeId = net.nextNodeId := rfl

@[simp] theorem getNode_setNode_self (net : Network) (n : Nat) (v : Node) :
    (net.setNode n v).getNode n = some v := by
  simp [Network.setNode, Network.getNode, lookupA_setA_self]

theorem getNode_setNode_ne (net : Network) (n m : Nat) (v : Node) (h : m ≠ n) :
    (net.setNode n v).getNode m = net.getNode m := by
  simp [Network.setNode, Network.getNode, lookupA_setA_ne _ _ _ _ h]

@[simp] theorem getEdge_setEdge_self (net : Network) (e : Nat) (v : Edge) :
    (net.setEdge e v).getEdge e = some v := by
  simp [Network.setEdge, Network.getEdge, lookupA_setA_self]

theorem getEdge_setEdge_ne (net : Network) (e f : Nat) (v : Edge) (h : f ≠ e) :
    (net.setEdge e v).getEdge f = net.getEdge f := by
  simp [Network.setEdge, Network.getEdge, lookupA_setA_ne _ _ _ _ h]

theorem getNodeD_setSlot_ne (net : Network) (n a e m : Nat) (h : m ≠ n) :
    (net.setSlot n a e).getNodeD m = net.getNodeD m := by
  simp [Network.setSlot, Network.getNodeD, getNode_setNode_ne _ _ _ _ h]

@[simp] theorem getNodeD_setSlot_self (net : Network) (n a e : Nat) :
    (net.setSlot n a e).getNodeD n
      = { net.getNodeD n with slots := (net.getNodeD n).slots.set a e } := by
  simp [Network.setSlot, Network.getNodeD]

/-! ### C9: `disconnect_copy_edge` orientation -/

/-- C9: for every non-dangling edge with `node` among its two endpoint nodes,
`disconnect_copy_edge(net, e, node)` returns a pair of fresh dangling edges in
which the first is anchored on `node` at `node`'s former axis and the second is
anchored on the other endpoint node at its former axis.  (`net.disconnect` is
modelled from the spec, `network.py` being outside the given sources.) -/
theorem disconnect_copy_edge_orients (net : Network) (eid node : Nat) (e : Edge)
    (m a2 : Nat) (he : net.getEdge eid = some e) (h2 : e.node2 = some m)
    (ha : e.axis2 = some a2) (htouch : e.node1 = node ∨ m = node) :
    ((disconnect_copy_edge net eid node).1.getEdgeD
        (disconnect_copy_edge net eid node).2.1).node1 = node ∧
    ((disconnect_copy_edge net eid node).1.getEdgeD
        (disconnect_copy_edge net eid node).2.1).isDangling = true ∧
    ((disconnect_copy_edge net eid node).1.getEdgeD
        (disconnect_copy_edge net eid node).2.1).axis1
      = (if e.node1 = node then e.axis1 else a2) ∧
    ((disconnect_copy_edge net eid node).1.getEdgeD
        (disconnect_copy_edge net eid node).2.2).node1
      = (if e.node1 = node then m else e.node1) ∧
    ((disconnect_copy_edge net eid node).1.getEdgeD
        (disconnect_copy_edge net eid node).2.2).isDangling = true ∧
    ((disconnect_copy_edge net eid node).1.getEdgeD
        (disconnect_copy_edge net eid node).2.2).axis1
      = (if e.node1 = node then a2 else e.axis1) := by
  have hge : net.getEdgeD eid = e := by simp [Network.getEdgeD, he]
  have hne : net.nextEdgeId ≠ net.nextEdgeId + 1 := by omega
  have hd1 : ((net.disconnect eid).1.getEdgeD (net.disconnect eid).2.1)
      = ⟨e.node1, e.axis1, none, none, e.dim⟩ := by
    simp [Network.disconnect, he, Network.getEdgeD,
      getEdge_setEdge_ne _ _ _ _ hne]
  have hd2 : ((net.disconnect eid).1.getEdgeD (net.disconnect eid).2.2)
      = ⟨m, a2, none, none, e.dim⟩ := by
    simp [Network.disconnect, he, Network.getEdgeD, h2, ha]
  by_cases hcase : e.node1 = node
  · have : disconnect_copy_edge net eid node = (net.disconnect eid) := by
      simp [disconnect_copy_edge, hd1, hcase]
    rw [this]
    simp [hd1, hd2, hcase, Edge.isDangling]
  · have hm : m = node := htouch.resolve_left hcase
    have : disconnect_copy_edge net eid node
        = ((net.disconnect eid).1, (net.disconnect eid).2.2, (net.disconnect eid).2.1) := by
      simp [disconnect_copy_edge, hd1, hcase]
    rw [this]
    simp [hd1, hd2, hcase, hm, Edge.isDangling]

/-- Witness for C9 on a concrete network: a standard edge `10` between node `0`
(axis 0) and node `1` (axis 0), disconnected from node `1`'s side. -/
theorem disconnect_copy_edge_orients_witness :
    ((disconnect_copy_edge
        { nodes := [(0, ⟨[10], false, 5, false⟩), (1, ⟨[10], false, 6, false⟩)],
          edges := [(10, ⟨0, 0, some 1, some 0, 2⟩)],
          nodesSet := [0, 1], nextNodeId := 2, nextEdgeId := 11 } 10 1).1.getEdgeD
      (disconnect_copy_edge
        { nodes := [(0, ⟨[10], false, 5, false⟩), (1, ⟨[10], false, 6, false⟩)],
          edges := [(10, ⟨0, 0, some 1, some 0, 2⟩)],
          nodesSet := [0, 1], nextNodeId := 2, nextEdgeId := 11 } 10 1).2.1).node1 = 1 := by
  exact (disconnect_copy_edge_orients
    { nodes := [(0, ⟨[10], false, 5, false⟩), (1, ⟨[10], false, 6, false⟩)],
      edges := [(10, ⟨0, 0, some 1, some 0, 2⟩)],
      nodesSet := [0, 1], nextNodeId := 2, nextEdgeId := 11 } 10 1
    ⟨0, 0, some 1, some 0, 2⟩ 1 0 (by rfl) (by rfl) (by rfl) (by right; rfl)).1

/-! ### C7: `get_path` -/

theorem lookupA_map_pair (f : Nat → Nat) (l : List Nat) (x : Nat) (hx : x ∈ l) :
    lookupA (l.map (fun e => (e, f e))) x = some (f x) := by
  induction l with
  | nil => simp at hx
  | cons a rest ih =>
    rcases List.mem_cons.mp hx with h | h
    · subst h; simp
    · by_cases h2 : a = x
      · subst h2; simp
      · simp [h2, ih h]

theorem gpInputSets_eq (net : Network) (sortedNodes : List Nat)
    (edgeMap : List (Nat × Nat)) :
    gpInputSets net sortedNodes edgeMap
      = sortedNodes.map (fun n =>
          ((net.getNodeD n).slots.map (fun e => (lookupA edgeMap e).getD e)).dedup) := by
  unfold gpInputSets
  by_cases h : edgeMap.isEmpty
  · have h2 : edgeMap = [] := List.isEmpty_iff.mp h
    subst h2
    simp
  · simp [h]

/-- C7: `get_path` builds `input_sets[k]` as the set of the slot edges of
`sorted_nodes[k]` with each edge replaced by `edge_map[edge]` whenever
`edge_map` contains it, builds `output_set` as exactly the dangling edges of
the network, builds `size_dict` mapping every edge of the network to that
edge's dimension, and returns the pair list produced by the algorithm
unchanged. -/
theorem get_path_correct (net : Network)
    (algorithm : List (List Nat) → List Nat → List (Nat × Nat) → List (Nat × Nat))
    (sortedNodes : List Nat) (edgeMap : List (Nat × Nat)) :
    (∀ k, k < sortedNodes.length → ∀ x,
      (x ∈ (gpInputSets net sortedNodes edgeMap).getD k [] ↔
        ∃ eid ∈ (net.getNodeD (sortedNodes.getD k 0)).slots,
          x = (lookupA edgeMap eid).getD eid)) ∧
    (∀ x, x ∈ gpOutputSet net ↔ x ∈ net.allEdges ∧ (net.getEdgeD x).isDangling) ∧
    (∀ x ∈ net.allEdges, lookupA (gpSizeDict net) x = some (net.getEdgeD x).dim) ∧
    get_path net algorithm sortedNodes edgeMap
      = algorithm (gpInputSets net sortedNodes edgeMap) (gpOutputSet net)
          (gpSizeDict net) := by
  refine ⟨?_, ?_, ?_, rfl⟩
  · intro k hk x
    rw [gpInputSets_eq]
    have hget : ((sortedNodes.map (fun n =>
        ((net.getNodeD n).slots.map (fun e => (lookupA edgeMap e).getD e)).dedup)).getD k [])
        = ((net.getNodeD (sortedNodes.getD k 0)).slots.map
            (fun e => (lookupA edgeMap e).getD e)).dedup := by
      rw [List.getD_eq_getElem?_getD, List.getElem?_map,
        List.getElem?_eq_getElem hk]
      simp [List.getD_eq_getElem?_getD, List.getElem?_eq_getElem hk]
    rw [hget, List.mem_dedup, List.mem_map]
    constructor
    · rintro ⟨eid, hmem, heq⟩
      exact ⟨eid, hmem, heq.symm⟩
    · rintro ⟨eid, hmem, heq⟩
      exact ⟨eid, hmem, heq.symm⟩
  · intro x
    constructor
    · intro hx
      have h := List.mem_filter.mp hx
      refine ⟨h.1, ?_⟩
      by_contra h3
      have hnd : x ∈ net.allNondangling := by
        refine List.mem_filter.mpr ⟨h.1, ?_⟩
        simp [h3]
      have h2 := h.2
      simp [hnd] at h2
    · rintro ⟨h1, h2⟩
      refine List.mem_filter.mpr ⟨h1, ?_⟩
      have hnd : x ∉ net.allNondangling := by
        intro hc
        have := (List.mem_filter.mp hc).2
        simp [h2] at this
      simp [hnd]
  · intro x hx
    exact lookupA_map_pair _ _ _ hx

/-! ### C8: `find_copy_nodes` -/

/-- The first non-dangling edge of a slot list: the representative
`find_copy_nodes` picks. -/
def firstND (net : Network) (l : List Nat) : Option Nat :=
  l.find? (fun eid => ¬(net.getEdgeD eid).isDangling)

theorem findCopyAux_lookup_skip (net : Network) (c : Nat) :
    ∀ (todo : List Nat) (rep : Option Nat) (M : List (Nat × Nat)) (nbs : List Nat)
      (k : Nat), (k ∉ todo ∨ (net.getEdgeD k).isDangling) →
      lookupA (findCopyAux net c rep todo M nbs).1 k = lookupA M k := by
  intro todo
  induction todo with
  | nil => intro rep M nbs k _; rfl
  | cons eid rest ih =>
    intro rep M nbs k hk
    have hk2 : k ∉ rest ∨ (net.getEdgeD k).isDangling := by
      rcases hk with h | h
      · exact Or.inl (fun hx => h (List.mem_cons_of_mem _ hx))
      · exact Or.inr h
    by_cases hd : (net.getEdgeD eid).isDangling
    · simp only [findCopyAux, hd, if_pos]
      exact ih rep M nbs k hk2
    · have hne : k ≠ eid := by
        rcases hk with h | h
        · exact fun he => h (he ▸ List.mem_cons_self _ _)
        · exact fun he => hd (he ▸ h)
      simp only [findCopyAux, hd, if_neg, Bool.not_eq_true]
      rw [ih _ _ _ k hk2, lookupA_setA_ne _ _ _ _ hne]

theorem findCopyAux_lookup_mem (net : Network) (c : Nat) :
    ∀ (todo : List Nat) (r : Nat) (M : List (Nat × Nat)) (nbs : List Nat)
      (k : Nat), k ∈ todo → ¬(net.getEdgeD k).isDangling →
      lookupA (findCopyAux net c (some r) todo M nbs).1 k = some r := by
  intro todo
  induction todo with
  | nil => intro r M nbs k hk; simp at hk
  | cons eid rest ih =>
    intro r M nbs k hk hnd
    by_cases hd : (net.getEdgeD eid).isDangling
    · have hk2 : k ∈ rest := by
        rcases List.mem_cons.mp hk with h | h
        · exact absurd (h ▸ hd) hnd
        · exact h
      simp only [findCopyAux, hd, if_pos]
      exact ih r M nbs k hk2 hnd
    · simp only [findCopyAux, hd, if_neg, Bool.not_eq_true]
      by_cases hk2 : k ∈ rest
      · exact ih r _ _ k hk2 hnd
      · have hke : k = eid := by
          rcases List.mem_cons.mp hk with h | h
          · exact h
          · exact absurd h hk2
        rw [findCopyAux_lookup_skip net c rest _ _ _ k (Or.inl hk2)]
        subst hke
        simp [Option.getD, lookupA_setA_self]

theorem findCopyAux_lookup_none_case (net : Network) (c : Nat) :
    ∀ (todo : List Nat) (M : List (Nat × Nat)) (nbs : List Nat)
      (e0 : Nat), firstND net todo = some e0 →
      ∀ k ∈ todo, ¬(net.getEdgeD k).isDangling →
      lookupA (findCopyAux net c none todo M nbs).1 k = some e0 := by
  intro todo
  induction todo with
  | nil => intro M nbs e0 h; simp [firstND] at h
  | cons eid rest ih =>
    intro M nbs e0 hfirst k hk hnd
    by_cases hd : (net.getEdgeD eid).isDangling
    · have hfirst2 : firstND net rest = some e0 := by
        simpa [firstND, List.find?, hd] using hfirst
      have hk2 : k ∈ rest := by
        rcases List.mem_cons.mp hk with h | h
        · exact absurd (h ▸ hd) hnd
        · exact h
      simp only [findCopyAux, hd, if_pos]
      exact ih M nbs e0 hfirst2 k hk2 hnd
    · have he0 : e0 = eid := by
        have : some eid = some e0 := by
          simpa [firstND, List.find?, hd] using hfirst
        exact (Option.some.injEq .. ▸ this).symm
      subst he0
      simp only [findCopyAux, hd, if_neg, Bool.not_eq_true]
      by_cases hk2 : k ∈ rest
      · exact findCopyAux_lookup_mem net c rest _ _ _ k hk2 hnd
      · have hke : k = e0 := by
          rcases List.mem_cons.mp hk with h | h
          · exact h
          · exact absurd h hk2
        rw [findCopyAux_lookup_skip net c rest _ _ _ k (Or.inl hk2)]
        subst hke
        simp [Option.getD, lookupA_setA_self]

theorem findCopyNodesAux_lookup_skip (net : Network) :
    ∀ (ns : List Nat) (CN : List (Nat × List Nat)) (M : List (Nat × Nat)) (k : Nat),
      (∀ c ∈ ns, (net.getNodeD c).isCopy → k ∉ (net.getNodeD c).slots
        ∨ (net.getEdgeD k).isDangling) →
      lookupA (findCopyNodesAux net ns CN M).2 k = lookupA M k := by
  intro ns
  induction ns with
  | nil => intro CN M k _; rfl
  | cons c rest ih =>
    intro CN M k hk
    by_cases hc : (net.getNodeD c).isCopy
    · simp only [findCopyNodesAux, hc, if_pos]
      rw [ih _ _ k (fun d hd hcd => hk d (List.mem_cons_of_mem _ hd) hcd)]
      exact findCopyAux_lookup_skip net c _ _ _ _ k (hk c (List.mem_cons_self _ _) hc)
    · simp only [findCopyNodesAux, hc, if_neg, Bool.not_eq_true]
      exact ih _ _ k (fun d hd hcd => hk d (List.mem_cons_of_mem _ hd) hcd)

/-- Keys of the returned `edge_map` are never dangling edges: unconditional. -/
theorem find_copy_nodes_no_dangling_key (net : Network) (k : Nat)
    (hk : (net.getEdgeD k).isDangling) :
    lookupA (find_copy_nodes net).2 k = none := by
  unfold find_copy_nodes
  rw [findCopyNodesAux_lookup_skip net _ _ _ k (fun c _ _ => Or.inr hk)]
  rfl

theorem findCopyNodesAux_lookup_target (net : Network) :
    ∀ (ns : List Nat) (CN : List (Nat × List Nat)) (M : List (Nat × Nat)) (c : Nat),
      c ∈ ns → (net.getNodeD c).isCopy →
      (∀ c2 ∈ ns, (net.getNodeD c2).isCopy → c2 ≠ c →
         ∀ k ∈ (net.getNodeD c).slots, k ∉ (net.getNodeD c2).slots) →
      ∀ e0, firstND net (net.getNodeD c).slots = some e0 →
      ∀ k ∈ (net.getNodeD c).slots, ¬(net.getEdgeD k).isDangling →
      lookupA (findCopyNodesAux net ns CN M).2 k = some e0 := by
  intro ns
  induction ns with
  | nil => intro CN M c hc; simp at hc
  | cons d rest ih =>
    intro CN M c hc hcopy hdisj e0 hfirst k hk hnd
    have hdisj2 : ∀ c2 ∈ rest, (net.getNodeD c2).isCopy → c2 ≠ c →
        ∀ k2 ∈ (net.getNodeD c).slots, k2 ∉ (net.getNodeD c2).slots :=
      fun c2 h2 => hdisj c2 (List.mem_cons_of_mem _ h2)
    by_cases hdc : d = c
    · subst hdc
      simp only [findCopyNodesAux, hcopy, if_pos]
      by_cases hrest : d ∈ rest
      · exact ih _ _ d hrest hcopy hdisj2 e0 hfirst k hk hnd
      · rw [findCopyNodesAux_lookup_skip net rest _ _ k ?_]
        · exact findCopyAux_lookup_none_case net d _ _ _ e0 hfirst k hk hnd
        · intro c2 h2 hc2
          by_cases he : c2 = d
          · exact absurd (he ▸ h2) hrest
          · exact Or.inl (hdisj2 c2 h2 hc2 he k hk)
    · have hc2 : c ∈ rest := by
        rcases List.mem_cons.mp hc with h | h
        · exact absurd h.symm hdc
        · exact h
      by_cases hdcopy : (net.getNodeD d).isCopy
      · simp only [findCopyNodesAux, hdcopy, if_pos]
        exact ih _ _ c hc2 hcopy hdisj2 e0 hfirst k hk hnd
      · simp only [findCopyNodesAux, hdcopy, if_neg, Bool.not_eq_true]
        exact ih _ _ c hc2 hcopy hdisj2 e0 hfirst k hk hnd

/-- C8 (amended): for every copy node none of whose edges is shared with
another copy node, the `edge_map` returned by `find_copy_nodes` maps each of
that copy node's non-dangling edges to one and the same non-dangling edge of
that copy node (its first non-dangling edge), and no dangling edge appears as
a key of `edge_map`.  (The unrestricted claim fails when an edge connects two
copy nodes; see the counterexample.) -/
theorem find_copy_nodes_single_rep (net : Network) (c : Nat)
    (hc : c ∈ net.nodesSet) (hcopy : (net.getNodeD c).isCopy = true)
    (hdisj : ∀ c2 ∈ net.nodesSet, (net.getNodeD c2).isCopy = true → c2 ≠ c →
       ∀ k ∈ (net.getNodeD c).slots, k ∉ (net.getNodeD c2).slots)
    (e0 : Nat) (hfirst : firstND net (net.getNodeD c).slots = some e0) :
    e0 ∈ (net.getNodeD c).slots ∧ (net.getEdgeD e0).isDangling = false ∧
    (∀ k ∈ (net.getNodeD c).slots, (net.getEdgeD k).isDangling = false →
      lookupA (find_copy_nodes net).2 k = some e0) ∧
    (∀ k, (net.getEdgeD k).isDangling = true →
      lookupA (find_copy_nodes net).2 k = none) := by
  refine ⟨List.mem_of_find?_eq_some hfirst, ?_, ?_, ?_⟩
  · have := List.find?_some hfirst
    simpa using this
  · intro k hk hnd
    exact findCopyNodesAux_lookup_target net net.nodesSet [] [] c hc hcopy hdisj
      e0 hfirst k hk (by simp [hnd])
  · intro k hk
    exact find_copy_nodes_no_dangling_key net k hk

/-- Witness network for C8: one rank-2 copy node `2` between two normal
nodes. -/
def wit8net : Network :=
  { nodes := [(0, ⟨[10], false, 5, false⟩), (1, ⟨[11], false, 6, false⟩),
              (2, ⟨[10, 11], true, 0, false⟩)],
    edges := [(10, ⟨0, 0, some 2, some 0, 2⟩), (11, ⟨1, 0, some 2, some 1, 2⟩)],
    nodesSet := [0, 1, 2], nextNodeId := 3, nextEdgeId := 12 }

theorem find_copy_nodes_single_rep_witness :
    lookupA (find_copy_nodes wit8net).2 11 = some 10 :=
  ((find_copy_nodes_single_rep wit8net 2 (by decide) (by decide)
    (by decide) 10 (by decide)).2.2.1) 11 (by decide) (by decide)

/-- Counterexample network for C8: copy `0` (slots `[10, 11]`) and copy `1`
(slots `[11, 12]`) share edge `11`; processing copy `1` overwrites the binding
of `11`, so copy `0`'s non-dangling edges map to two different representatives. -/
def cex8net : Network :=
  { nodes := [(0, ⟨[10, 11], true, 0, false⟩), (1, ⟨[11, 12], true, 0, false⟩),
              (2, ⟨[10, 12], false, 7, false⟩)],
    edges := [(10, ⟨0, 0, some 2, some 0, 2⟩), (11, ⟨0, 1, some 1, some 0, 2⟩),
              (12, ⟨1, 1, some 2, some 1, 2⟩)],
    nodesSet := [0, 1, 2], nextNodeId := 3, nextEdgeId := 13 }

/-- The property C8 claims of every copy node, at a fixed copy node `c`:
some single representative non-dangling edge of `c` receives all of `c`'s
non-dangling edges under `edge_map`. -/
def singleRepFor (net : Network) (c : Nat) : Prop :=
  ∃ rep ∈ (net.getNodeD c).slots, (net.getEdgeD rep).isDangling = false ∧
    ∀ eid ∈ (net.getNodeD c).slots, (net.getEdgeD eid).isDangling = false →
      lookupA (find_copy_nodes net).2 eid = some rep

/-- C8 counterexample: in `cex8net`, copy node `0` is a copy node of the
network but its two non-dangling edges are mapped to two different
representatives (`10 ↦ 10` and `11 ↦ 11`), so no single representative
exists. -/
theorem find_copy_nodes_counterexample :
    (cex8net.getNodeD 0).isCopy = true ∧ 0 ∈ cex8net.nodesSet ∧
    ¬ singleRepFor cex8net 0 := by
  refine ⟨by decide, by decide, ?_⟩
  intro ⟨rep, hmem, hnd, hall⟩
  have h10 := hall 10 (by decide) (by decide)
  have h11 := hall 11 (by decide) (by decide)
  have e10 : lookupA (find_copy_nodes cex8net).2 10 = some 10 := by decide
  have e11 : lookupA (find_copy_nodes cex8net).2 11 = some 11 := by decide
  rw [e10] at h10
  rw [e11] at h11
  cases h10
  cases h11

/-! ### Frame and effect lemmas for the network operations -/

theorem getNodeD_setNode_self (net : Network) (n : Nat) (v : Node) :
    (net.setNode n v).getNodeD n = v := by
  simp [Network.getNodeD]

theorem getNodeD_setNode_ne (net : Network) (n m : Nat) (v : Node) (h : m ≠ n) :
    (net.setNode n v).getNodeD m = net.getNodeD m := by
  simp [Network.getNodeD, getNode_setNode_ne _ _ _ _ h]

@[simp] theorem rankOf_setEdge (net : Network) (e : Nat) (v : Edge) (m : Nat) :
    (net.setEdge e v).rankOf m = net.rankOf m := rfl

@[simp] theorem rankOf_setSlot (net : Network) (n a e m : Nat) :
    (net.setSlot n a e).rankOf m = net.rankOf m := by
  by_cases h : m = n
  · subst h
    simp [Network.rankOf]
  · simp [Network.rankOf, getNodeD_setSlot_ne _ _ _ _ _ h]

@[simp] theorem slotOf_setEdge (net : Network) (e : Nat) (v : Edge) (m b : Nat) :
    (net.setEdge e v).slotOf m b = net.slotOf m b := rfl

theorem slotOf_setSlot_self (net : Network) (n a e : Nat) (h : a < net.rankOf n) :
    (net.setSlot n a e).slotOf n a = e := by
  have h2 : a < (net.getNodeD n).slots.length := h
  simp only [Network.slotOf, getNodeD_setSlot_self]
  simp [List.getD_eq_getElem?_getD, List.getElem?_set_self, h2]

theorem slotOf_setSlot_ne (net : Network) (n a e m b : Nat)
    (h : m ≠ n ∨ a ≠ b) : (net.setSlot n a e).slotOf m b = net.slotOf m b := by
  by_cases h2 : m = n
  · subst h2
    have h3 : a ≠ b := h.resolve_left (by simp)
    simp only [Network.slotOf, getNodeD_setSlot_self]
    simp [List.getD_eq_getElem?_getD, List.getElem?_set_ne h3]
  · simp [Network.slotOf, getNodeD_setSlot_ne _ _ _ _ _ h2]

theorem tensor_setSlot (net : Network) (n a e m : Nat) :
    ((net.setSlot n a e).getNodeD m).tensor = (net.getNodeD m).tensor := by
  by_cases h : m = n
  · subst h; simp
  · simp [getNodeD_setSlot_ne _ _ _ _ _ h]

theorem isCopy_setSlot (net : Network) (n a e m : Nat) :
    ((net.setSlot n a e).getNodeD m).isCopy = (net.getNodeD m).isCopy := by
  by_cases h : m = n
  · subst h; simp
  · simp [getNodeD_setSlot_ne _ _ _ _ _ h]

theorem disabled_setSlot (net : Network) (n a e m : Nat) :
    ((net.setSlot n a e).getNodeD m).disabled = (net.getNodeD m).disabled := by
  by_cases h : m = n
  · subst h; simp
  · simp [getNodeD_setSlot_ne _ _ _ _ _ h]

section DisconnectSpec

variable (net : Network) (eid : Nat) (e : Edge) (m a2 : Nat)

theorem disconnect_ids : (net.disconnect eid).2.1 = net.nextEdgeId ∧
    (net.disconnect eid).2.2 = net.nextEdgeId + 1 ∧
    (net.disconnect eid).1.nextEdgeId = net.nextEdgeId + 2 ∧
    (net.disconnect eid).1.nextNodeId = net.nextNodeId ∧
    (net.disconnect eid).1.nodesSet = net.nodesSet := by
  unfold Network.disconnect
  exact ⟨rfl, rfl, rfl, rfl, rfl⟩

theorem disconnect_getEdge_new1 (he : net.getEdge eid = some e) :
    (net.disconnect eid).1.getEdge net.nextEdgeId
      = some ⟨e.node1, e.axis1, none, none, e.dim⟩ := by
  have hge : net.getEdgeD eid = e := by simp [Network.getEdgeD, he]
  unfold Network.disconnect
  simp only [hge, getEdge_setSlot]
  rw [getEdge_setEdge_ne _ _ _ _ (by omega : net.nextEdgeId ≠ net.nextEdgeId + 1)]
  simp

theorem disconnect_getEdge_new2 (he : net.getEdge eid = some e)
    (h2 : e.node2 = some m) (ha : e.axis2 = some a2) :
    (net.disconnect eid).1.getEdge (net.nextEdgeId + 1)
      = some ⟨m, a2, none, none, e.dim⟩ := by
  have hge : net.getEdgeD eid = e := by simp [Network.getEdgeD, he]
  unfold Network.disconnect
  simp [hge, h2, ha]

theorem disconnect_getEdge_old (k : Nat) (hk1 : k ≠ net.nextEdgeId)
    (hk2 : k ≠ net.nextEdgeId + 1) :
    (net.disconnect eid).1.getEdge k = net.getEdge k := by
  unfold Network.disconnect
  simp only [getEdge_setSlot]
  rw [getEdge_setEdge_ne _ _ _ _ hk2, getEdge_setEdge_ne _ _ _ _ hk1]
  rfl

theorem disconnect_node_fields (n : Nat) :
    ((net.disconnect eid).1.getNodeD n).tensor = (net.getNodeD n).tensor ∧
    ((net.disconnect eid).1.getNodeD n).isCopy = (net.getNodeD n).isCopy ∧
    ((net.disconnect eid).1.getNodeD n).disabled = (net.getNodeD n).disabled ∧
    (net.disconnect eid).1.rankOf n = net.rankOf n := by
  unfold Network.disconnect
  refine ⟨?_, ?_, ?_, ?_⟩
  · rw [tensor_setSlot, tensor_setSlot]; rfl
  · rw [isCopy_setSlot, isCopy_setSlot]; rfl
  · rw [disabled_setSlot, disabled_setSlot]; rfl
  · rw [rankOf_setSlot, rankOf_setSlot]; rfl

theorem disconnect_slot_other (he : net.getEdge eid = some e)
    (h2 : e.node2 = some m) (ha : e.axis2 = some a2) (n b : Nat)
    (hb1 : ¬(n = e.node1 ∧ b = e.axis1)) (hb2 : ¬(n = m ∧ b = a2)) :
    (net.disconnect eid).1.slotOf n b = net.slotOf n b := by
  have hge : net.getEdgeD eid = e := by simp [Network.getEdgeD, he]
  unfold Network.disconnect
  simp only [hge, h2, ha, Option.getD_some]
  rw [slotOf_setSlot_ne _ _ _ _ _ _ (by tauto), slotOf_setSlot_ne _ _ _ _ _ _ (by tauto)]
  rfl

theorem disconnect_slot_first (he : net.getEdge eid = some e)
    (h2 : e.node2 = some m) (ha : e.axis2 = some a2)
    (hb : e.axis1 < net.rankOf e.node1) (hdist : ¬(m = e.node1 ∧ a2 = e.axis1)) :
    (net.disconnect eid).1.slotOf e.node1 e.axis1 = net.nextEdgeId := by
  have hge : net.getEdgeD eid = e := by simp [Network.getEdgeD, he]
  unfold Network.disconnect
  simp only [hge, h2, ha, Option.getD_some]
  rw [slotOf_setSlot_ne _ _ _ _ _ _ (by tauto)]
  have hb2 : e.axis1 < (Network.setEdge (Network.setEdge
      { net with nextEdgeId := net.nextEdgeId + 2 } net.nextEdgeId
        ⟨e.node1, e.axis1, none, none, e.dim⟩) (net.nextEdgeId + 1)
        ⟨m, a2, none, none, e.dim⟩).rankOf e.node1 := by
    simpa using hb
  rw [slotOf_setSlot_self _ _ _ _ hb2]

theorem disconnect_slot_second (he : net.getEdge eid = some e)
    (h2 : e.node2 = some m) (ha : e.axis2 = some a2) (hb : a2 < net.rankOf m) :
    (net.disconnect eid).1.slotOf m a2 = net.nextEdgeId + 1 := by
  have hge : net.getEdgeD eid = e := by simp [Network.getEdgeD, he]
  unfold Network.disconnect
  simp only [hge, h2, ha, Option.getD_some]
  have hb2 : a2 < (Network.setSlot (Network.setEdge (Network.setEdge
      { net with nextEdgeId := net.nextEdgeId + 2 } net.nextEdgeId
        ⟨e.node1, e.axis1, none, none, e.dim⟩) (net.nextEdgeId + 1)
        ⟨m, a2, none, none, e.dim⟩) e.node1 e.axis1 net.nextEdgeId).rankOf m := by
    simpa using hb
  rw [slotOf_setSlot_self _ _ _ _ hb2]

end DisconnectSpec

/-- The two endpoints of a non-dangling edge: one on `(c, i)`, the other on
`(q, b)`, in either storage orientation. -/
def EdgeEnds (e : Edge) (c i q b : Nat) : Prop :=
  (e.node1 = c ∧ e.axis1 = i ∧ e.node2 = some q ∧ e.axis2 = some b) ∨
  (e.node2 = some c ∧ e.axis2 = some i ∧ e.node1 = q ∧ e.axis1 = b)

/-- The identifier of the partner-side dangling edge produced when
disconnecting an edge of node `c` at fresh-id counter `nid`, as `remove_node`
computes it. -/
def partnerIdOf (e : Edge) (c nid : Nat) : Nat :=
  if e.node1 = c then nid + 1 else nid

theorem disconnect_c_spec (net : Network) (c i s : Nat) (e : Edge) (q b : Nat)
    (he : net.getEdge s = some e) (hE : EdgeEnds e c i q b) (hq : q ≠ c)
    (hbq : b < net.rankOf q) :
    ((if e.node1 == c then (net.disconnect s).2.2 else (net.disconnect s).2.1)
        = partnerIdOf e c net.nextEdgeId) ∧
    (net.disconnect s).1.getEdge (partnerIdOf e c net.nextEdgeId)
        = some ⟨q, b, none, none, e.dim⟩ ∧
    (net.disconnect s).1.slotOf q b = partnerIdOf e c net.nextEdgeId ∧
    (∀ n β, ¬(n = c ∧ β = i) → ¬(n = q ∧ β = b) →
      (net.disconnect s).1.slotOf n β = net.slotOf n β) ∧
    (∀ k, k ≠ net.nextEdgeId → k ≠ net.nextEdgeId + 1 →
      (net.disconnect s).1.getEdge k = net.getEdge k) ∧
    (∀ n, ((net.disconnect s).1.getNodeD n).tensor = (net.getNodeD n).tensor ∧
      ((net.disconnect s).1.getNodeD n).isCopy = (net.getNodeD n).isCopy ∧
      ((net.disconnect s).1.getNodeD n).disabled = (net.getNodeD n).disabled ∧
      (net.disconnect s).1.rankOf n = net.rankOf n) ∧
    (net.disconnect s).1.nextEdgeId = net.nextEdgeId + 2 ∧
    (net.disconnect s).1.nextNodeId = net.nextNodeId ∧
    (net.disconnect s).1.nodesSet = net.nodesSet := by
  rcases hE with ⟨h1, h2, h3, h4⟩ | ⟨h1, h2, h3, h4⟩
  · have hne : ¬(q = e.node1 ∧ b = e.axis1) := by
      rw [h1, h2]
      rintro ⟨hq2, -⟩
      exact hq hq2
    refine ⟨?_, ?_, ?_, ?_, ?_, ?_, ?_, ?_, ?_⟩
    · simp [partnerIdOf, h1, (disconnect_ids net s).2.1]
    · rw [partnerIdOf, if_pos h1]
      simpa using disconnect_getEdge_new2 net s e q b he h3 h4
    · rw [partnerIdOf, if_pos h1]
      exact disconnect_slot_second net s e q b he h3 h4 hbq
    · intro n β hn1 hn2
      refine disconnect_slot_other net s e q b he h3 h4 n β ?_ ?_
      · rw [h1, h2]; tauto
      · tauto
    · exact fun k hk1 hk2 => disconnect_getEdge_old net s k hk1 hk2
    · exact fun n => disconnect_node_fields net s n
    · exact (disconnect_ids net s).2.2.1
    · exact (disconnect_ids net s).2.2.2.1
    · exact (disconnect_ids net s).2.2.2.2
  · have hn1c : e.node1 ≠ c := by
      rw [h3]; exact hq
    have hbeq : (e.node1 == c) = false := by
      simp [h3, hq]
    refine ⟨?_, ?_, ?_, ?_, ?_, ?_, ?_, ?_, ?_⟩
    · simp [partnerIdOf, hbeq, h3, hq, (disconnect_ids net s).1]
    · rw [partnerIdOf, if_neg (h3 ▸ hq)]
      have := disconnect_getEdge_new1 net s e he
      rw [h3, h4] at this
      exact this
    · rw [partnerIdOf, if_neg (h3 ▸ hq)]
      have := disconnect_slot_first net s e c i he h1 h2 (h3 ▸ h4 ▸ hbq) ?_
      · rw [h3, h4] at this
        exact this
      · rw [h3, h4]
        rintro ⟨hc, -⟩
        exact hq hc.symm
    · intro n β hn1 hn2
      refine disconnect_slot_other net s e c i he h1 h2 n β ?_ ?_
      · rw [h3, h4]; tauto
      · tauto
    · exact fun k hk1 hk2 => disconnect_getEdge_old net s k hk1 hk2
    · exact fun n => disconnect_node_fields net s n
    · exact (disconnect_ids net s).2.2.1
    · exact (disconnect_ids net s).2.2.2.1
    · exact (disconnect_ids net s).2.2.2.2

theorem slotOf_setNode_ne (net : Network) (n : Nat) (v : Node) (m b : Nat) (h : m ≠ n) :
    (net.setNode n v).slotOf m b = net.slotOf m b := by
  simp [Network.slotOf, getNodeD_setNode_ne _ _ _ _ h]

theorem rankOf_setNode_ne (net : Network) (n : Nat) (v : Node) (m : Nat) (h : m ≠ n) :
    (net.setNode n v).rankOf m = net.rankOf m := by
  simp [Network.rankOf, getNodeD_setNode_ne _ _ _ _ h]

/-- `remove_node` on a rank-2 node: full description of the result. -/
theorem removeNode_two_spec (net : Network) (c s0 s1 : Nat) (e0 e1 : Edge)
    (q0 b0 q1 b1 : Nat)
    (hslots : (net.getNodeD c).slots = [s0, s1])
    (he0 : net.getEdge s0 = some e0) (he1 : net.getEdge s1 = some e1)
    (hE0 : EdgeEnds e0 c 0 q0 b0) (hE1 : EdgeEnds e1 c 1 q1 b1)
    (hq0 : q0 ≠ c) (hq1 : q1 ≠ c)
    (hb0 : b0 < net.rankOf q0) (hb1 : b1 < net.rankOf q1)
    (hs1 : s1 < net.nextEdgeId)
    (hqq : ¬(q0 = q1 ∧ b0 = b1)) :
    (net.removeNode c).2
        = [(0, partnerIdOf e0 c net.nextEdgeId),
           (1, partnerIdOf e1 c (net.nextEdgeId + 2))] ∧
    (net.removeNode c).1.getEdge (partnerIdOf e0 c net.nextEdgeId)
        = some ⟨q0, b0, none, none, e0.dim⟩ ∧
    (net.removeNode c).1.getEdge (partnerIdOf e1 c (net.nextEdgeId + 2))
        = some ⟨q1, b1, none, none, e1.dim⟩ ∧
    (net.removeNode c).1.slotOf q0 b0 = partnerIdOf e0 c net.nextEdgeId ∧
    (net.removeNode c).1.slotOf q1 b1 = partnerIdOf e1 c (net.nextEdgeId + 2) ∧
    (∀ k, k < net.nextEdgeId → (net.removeNode c).1.getEdge k = net.getEdge k) ∧
    (∀ n β, n ≠ c → ¬(n = q0 ∧ β = b0) → ¬(n = q1 ∧ β = b1) →
      (net.removeNode c).1.slotOf n β = net.slotOf n β) ∧
    (∀ n, n ≠ c → ((net.removeNode c).1.getNodeD n).tensor = (net.getNodeD n).tensor ∧
      ((net.removeNode c).1.getNodeD n).isCopy = (net.getNodeD n).isCopy ∧
      ((net.removeNode c).1.getNodeD n).disabled = (net.getNodeD n).disabled) ∧
    ((net.removeNode c).1.getNodeD c).disabled = true ∧
    (∀ n, (net.removeNode c).1.rankOf n = net.rankOf n) ∧
    (net.removeNode c).1.nextEdgeId = net.nextEdgeId + 4 ∧
    (net.removeNode c).1.nextNodeId = net.nextNodeId ∧
    (net.removeNode c).1.nodesSet = net.nodesSet.erase c := by
  have D0 := disconnect_c_spec net c 0 s0 e0 q0 b0 he0 hE0 hq0 hb0
  set netA := (net.disconnect s0).1 with hnetA
  have he1A : netA.getEdge s1 = some e1 := by
    rw [D0.2.2.2.2.1 s1 (by omega) (by omega)]
    exact he1
  have hb1A : b1 < netA.rankOf q1 := by
    rw [(D0.2.2.2.2.2.1 q1).2.2.2]
    exact hb1
  have D1 := disconnect_c_spec netA c 1 s1 e1 q1 b1 he1A hE1 hq1 hb1A
  have hnidA : netA.nextEdgeId = net.nextEdgeId + 2 := D0.2.2.2.2.2.2.1
  set netB := (netA.disconnect s1).1 with hnetB
  have hnd0 : e0.isDangling = false := by
    rcases hE0 with ⟨-, -, h3, -⟩ | ⟨h3, -, -, -⟩ <;> simp [Edge.isDangling, h3]
  have hnd1 : e1.isDangling = false := by
    rcases hE1 with ⟨-, -, h3, -⟩ | ⟨h3, -, -, -⟩ <;> simp [Edge.isDangling, h3]
  have ht0 : e0.touches c = true := by
    rcases hE0 with ⟨h1, -, -, -⟩ | ⟨h1, -, -, -⟩ <;> simp [Edge.touches, h1]
  have ht1 : e1.touches c = true := by
    rcases hE1 with ⟨h1, -, -, -⟩ | ⟨h1, -, -, -⟩ <;> simp [Edge.touches, h1]
  have haux : removeNodeAux c net [(0, s0), (1, s1)]
      = (netB, [(0, partnerIdOf e0 c net.nextEdgeId),
                (1, partnerIdOf e1 c (net.nextEdgeId + 2))]) := by
    have hg0 : net.getEdgeD s0 = e0 := by simp [Network.getEdgeD, he0]
    have hg1 : netA.getEdgeD s1 = e1 := by simp [Network.getEdgeD, he1A]
    rw [removeNodeAux]
    simp only [hg0, hnd0, ht0, Bool.not_eq_true, and_self, if_pos,
      Bool.false_eq_true, not_false_eq_true, true_and]
    rw [removeNodeAux]
    simp only [hg1, hnd1, ht1, Bool.false_eq_true, not_false_eq_true, true_and, if_pos]
    rw [removeNodeAux]
    have hp0 : (if e0.node1 == c then (net.disconnect s0).2.2
        else (net.disconnect s0).2.1) = partnerIdOf e0 c net.nextEdgeId := D0.1
    have hp1 : (if e1.node1 == c then (netA.disconnect s1).2.2
        else (netA.disconnect s1).2.1) = partnerIdOf e1 c (net.nextEdgeId + 2) := by
      rw [D1.1, partnerIdOf, partnerIdOf, hnidA]
    by_cases hc0 : e0.node1 = c
    · by_cases hc1 : e1.node1 = c
      · simp only [hc0, hc1, beq_self_eq_true, if_pos] at hp0 hp1 ⊢
        rw [hp0, hp1]
      · simp only [hc0, beq_self_eq_true, if_pos] at hp0 ⊢
        have hb1 : (e1.node1 == c) = false := by simp [hc1]
        simp only [hb1, Bool.false_eq_true, if_neg, if_false] at hp1 ⊢
        rw [hp0, hp1]
    · by_cases hc1 : e1.node1 = c
      · have hb0x : (e0.node1 == c) = false := by simp [hc0]
        simp only [hb0x, Bool.false_eq_true, if_false] at hp0 ⊢
        simp only [hc1, beq_self_eq_true, if_pos] at hp1 ⊢
        rw [hp0, hp1]
      · have hb0x : (e0.node1 == c) = false := by simp [hc0]
        have hb1x : (e1.node1 == c) = false := by simp [hc1]
        simp only [hb0x, hb1x, Bool.false_eq_true, if_false] at hp0 hp1 ⊢
        rw [hp0, hp1]
  have henum : (net.getNodeD c).slots.enum = [(0, s0), (1, s1)] := by
    rw [hslots]
    rfl
  have hrn : net.removeNode c
      = ({ netB.setNode c { netB.getNodeD c with disabled := true } with
            nodesSet := (netB.setNode c { netB.getNodeD c with disabled := true }).nodesSet.erase c },
         [(0, partnerIdOf e0 c net.nextEdgeId),
          (1, partnerIdOf e1 c (net.nextEdgeId + 2))]) := by
    unfold Network.removeNode
    rw [henum, haux]
  set netC := netB.setNode c { netB.getNodeD c with disabled := true } with hnetC
  have hp0small : partnerIdOf e0 c net.nextEdgeId = net.nextEdgeId ∨
      partnerIdOf e0 c net.nextEdgeId = net.nextEdgeId + 1 := by
    unfold partnerIdOf
    by_cases h : e0.node1 = c <;> simp [h]
  have hRE : ∀ k, (net.removeNode c).1.getEdge k = netB.getEdge k := by
    intro k
    rw [hrn]
    rfl
  have hRslot : ∀ n β, n ≠ c → (net.removeNode c).1.slotOf n β = netB.slotOf n β := by
    intro n β hn
    rw [hrn]
    show netC.slotOf n β = netB.slotOf n β
    exact slotOf_setNode_ne _ _ _ _ _ hn
  have hRnodeD : ∀ n, n ≠ c → (net.removeNode c).1.getNodeD n = netB.getNodeD n := by
    intro n hn
    rw [hrn]
    show netC.getNodeD n = netB.getNodeD n
    exact getNodeD_setNode_ne _ _ _ _ hn
  have hBE : ∀ k, k < net.nextEdgeId → netB.getEdge k = net.getEdge k := by
    intro k hk
    rw [D1.2.2.2.2.1 k (by omega) (by omega), D0.2.2.2.2.1 k (by omega) (by omega)]
  refine ⟨by rw [hrn], ?_, ?_, ?_, ?_, ?_, ?_, ?_, ?_, ?_, ?_, ?_, ?_⟩
  · rw [hRE]
    have h1 : netB.getEdge (partnerIdOf e0 c net.nextEdgeId)
        = netA.getEdge (partnerIdOf e0 c net.nextEdgeId) := by
      refine D1.2.2.2.2.1 _ ?_ ?_ <;> rcases hp0small with h | h <;> omega
    rw [h1, D0.2.1]
  · have h1 : partnerIdOf e1 c (net.nextEdgeId + 2)
        = partnerIdOf e1 c netA.nextEdgeId := by rw [hnidA]
    rw [hRE, h1, D1.2.1]
  · rw [hRslot _ _ hq0]
    have h1 : netB.slotOf q0 b0 = netA.slotOf q0 b0 := by
      refine D1.2.2.2.1 q0 b0 ?_ ?_
      · rintro ⟨h, -⟩; exact hq0 h
      · exact hqq
    rw [h1, D0.2.2.1]
  · rw [hRslot _ _ hq1]
    have h1 : partnerIdOf e1 c (net.nextEdgeId + 2)
        = partnerIdOf e1 c netA.nextEdgeId := by rw [hnidA]
    rw [h1, D1.2.2.1]
  · intro k hk
    rw [hRE]
    exact hBE k hk
  · intro n β hn hnq0 hnq1
    rw [hRslot _ _ hn]
    rw [D1.2.2.2.1 n β (by rintro ⟨h, -⟩; exact hn h) hnq1]
    rw [D0.2.2.2.1 n β (by rintro ⟨h, -⟩; exact hn h) hnq0]
  · intro n hn
    rw [hRnodeD n hn]
    refine ⟨?_, ?_, ?_⟩
    · rw [(D1.2.2.2.2.2.1 n).1, (D0.2.2.2.2.2.1 n).1]
    · rw [(D1.2.2.2.2.2.1 n).2.1, (D0.2.2.2.2.2.1 n).2.1]
    · rw [(D1.2.2.2.2.2.1 n).2.2.1, (D0.2.2.2.2.2.1 n).2.2.1]
  · rw [hrn]
    show (netC.getNodeD c).disabled = true
    rw [hnetC, getNodeD_setNode_self]
  · intro n
    have hrB : netB.rankOf n = net.rankOf n := by
      rw [(D1.2.2.2.2.2.1 n).2.2.2, (D0.2.2.2.2.2.1 n).2.2.2]
    by_cases hn : n = c
    · subst hn
      rw [hrn]
      show netC.rankOf n = net.rankOf n
      rw [hnetC]
      unfold Network.rankOf
      rw [getNodeD_setNode_self]
      exact hrB
    · rw [hrn]
      show netC.rankOf n = net.rankOf n
      rw [hnetC, rankOf_setNode_ne _ _ _ _ hn]
      exact hrB
  · rw [hrn]
    show netC.nextEdgeId = net.nextEdgeId + 4
    rw [hnetC]
    show netB.nextEdgeId = net.nextEdgeId + 4
    rw [D1.2.2.2.2.2.2.1, hnidA]
  · rw [hrn]
    show netC.nextNodeId = net.nextNodeId
    rw [hnetC]
    show netB.nextNodeId = net.nextNodeId
    rw [D1.2.2.2.2.2.2.2.1, D0.2.2.2.2.2.2.2.1]
  · rw [hrn]
    show netC.nodesSet.erase c = net.nodesSet.erase c
    rw [hnetC]
    show netB.nodesSet.erase c = net.nodesSet.erase c
    rw [D1.2.2.2.2.2.2.2.2, D0.2.2.2.2.2.2.2.2]

/-- `connect` on two dangling edges of equal dimension: full description. -/
theorem connect_spec (net : Network) (pa pb : Nat) (ra rb : Edge)
    (hea : net.getEdge pa = some ra) (heb : net.getEdge pb = some rb)
    (hda : ra.isDangling = true) (hdb : rb.isDangling = true)
    (hdim : ra.dim = rb.dim)
    (hba : ra.axis1 < net.rankOf ra.node1) (hbb : rb.axis1 < net.rankOf rb.node1) :
    ∃ netF, net.connect pa pb = .ok (netF, net.nextEdgeId) ∧
      netF.getEdge net.nextEdgeId
        = some ⟨ra.node1, ra.axis1, some rb.node1, some rb.axis1, ra.dim⟩ ∧
      netF.slotOf ra.node1 ra.axis1 = net.nextEdgeId ∧
      netF.slotOf rb.node1 rb.axis1 = net.nextEdgeId ∧
      (∀ k, k ≠ net.nextEdgeId → netF.getEdge k = net.getEdge k) ∧
      (∀ n β, ¬(n = ra.node1 ∧ β = ra.axis1) → ¬(n = rb.node1 ∧ β = rb.axis1) →
        netF.slotOf n β = net.slotOf n β) ∧
      (∀ n, (netF.getNodeD n).tensor = (net.getNodeD n).tensor ∧
        (netF.getNodeD n).isCopy = (net.getNodeD n).isCopy ∧
        (netF.getNodeD n).disabled = (net.getNodeD n).disabled ∧
        netF.rankOf n = net.rankOf n) ∧
      netF.nextEdgeId = net.nextEdgeId + 1 ∧
      netF.nextNodeId = net.nextNodeId ∧
      netF.nodesSet = net.nodesSet := by
  have hga : net.getEdgeD pa = ra := by simp [Network.getEdgeD, hea]
  have hgb : net.getEdgeD pb = rb := by simp [Network.getEdgeD, heb]
  unfold Network.connect
  simp only [hga, hgb, hda, hdb]
  rw [if_neg (by simp), if_neg (by simp [hdim])]
  set net1 := { net with nextEdgeId := net.nextEdgeId + 1 } with hnet1
  set net2 := net1.setEdge net.nextEdgeId
      ⟨ra.node1, ra.axis1, some rb.node1, some rb.axis1, ra.dim⟩ with hnet2
  set net3 := net2.setSlot ra.node1 ra.axis1 net.nextEdgeId with hnet3
  set netF := net3.setSlot rb.node1 rb.axis1 net.nextEdgeId with hnetF
  refine ⟨netF, rfl, ?_, ?_, ?_, ?_, ?_, ?_, ?_, ?_, ?_⟩
  · show netF.getEdge net.nextEdgeId = _
    rw [hnetF, hnet3]
    simp only [getEdge_setSlot]
    rw [hnet2]
    exact getEdge_setEdge_self _ _ _
  · by_cases hsame : rb.node1 = ra.node1 ∧ rb.axis1 = ra.axis1
    · rw [hnetF, hsame.1, hsame.2]
      have : ra.axis1 < net3.rankOf ra.node1 := by simp [hnet3, hnet2, hnet1]; exact hba
      rw [slotOf_setSlot_self _ _ _ _ this]
    · rw [hnetF, slotOf_setSlot_ne _ _ _ _ _ _ (by tauto), hnet3]
      have : ra.axis1 < net2.rankOf ra.node1 := by simp [hnet2, hnet1]; exact hba
      rw [slotOf_setSlot_self _ _ _ _ this]
  · rw [hnetF]
    have : rb.axis1 < net3.rankOf rb.node1 := by simp [hnet3, hnet2, hnet1]; exact hbb
    rw [slotOf_setSlot_self _ _ _ _ this]
  · intro k hk
    rw [hnetF, hnet3]
    simp only [getEdge_setSlot]
    rw [hnet2, getEdge_setEdge_ne _ _ _ _ hk]
    rfl
  · intro n β h1 h2
    rw [hnetF, slotOf_setSlot_ne _ _ _ _ _ _ (by tauto), hnet3,
      slotOf_setSlot_ne _ _ _ _ _ _ (by tauto)]
    rfl
  · intro n
    rw [hnetF, hnet3]
    refine ⟨?_, ?_, ?_, ?_⟩
    · rw [tensor_setSlot, tensor_setSlot]; rfl
    · rw [isCopy_setSlot, isCopy_setSlot]; rfl
    · rw [disabled_setSlot, disabled_setSlot]; rfl
    · rw [rankOf_setSlot, rankOf_setSlot]; rfl
  · rfl
  · rfl
  · rfl

/-- All edge identifiers in the store are below the fresh counter. -/
def EdgeStoreBound (net : Network) : Prop :=
  ∀ p ∈ net.edges, p.1 < net.nextEdgeId

instance (net : Network) : Decidable (EdgeStoreBound net) := by
  unfold EdgeStoreBound
  infer_instance

theorem mem_setA {α : Type} {l : List (Nat × α)} {k : Nat} {v : α} {p : Nat × α}
    (h : p ∈ setA l k v) : p = (k, v) ∨ p ∈ l := by
  induction l with
  | nil => simpa [setA] using h
  | cons q rest ih =>
    obtain ⟨k2, v2⟩ := q
    by_cases h2 : k2 = k
    · subst h2
      simp only [setA, if_pos, beq_self_eq_true] at h
      rcases List.mem_cons.mp h with h3 | h3
      · exact Or.inl h3
      · exact Or.inr (List.mem_cons_of_mem _ h3)
    · simp only [setA, beq_iff_eq, if_neg h2] at h
      rcases List.mem_cons.mp h with h3 | h3
      · exact Or.inr (h3 ▸ List.mem_cons_self _ _)
      · rcases ih h3 with h4 | h4
        · exact Or.inl h4
        · exact Or.inr (List.mem_cons_of_mem _ h4)

theorem getEdge_lt_of_bound {net : Network} {k : Nat} {v : Edge}
    (h : EdgeStoreBound net) (he : net.getEdge k = some v) : k < net.nextEdgeId :=
  h _ (lookupA_mem he)

theorem storeBound_disconnect {net : Network} (eid : Nat) (h : EdgeStoreBound net) :
    EdgeStoreBound (net.disconnect eid).1 := by
  unfold Network.disconnect EdgeStoreBound
  intro p hp
  simp only [Network.setSlot, Network.setNode, Network.setEdge] at hp ⊢
  rcases mem_setA hp with h1 | h1
  · subst h1; simp
  · rcases mem_setA h1 with h2 | h2
    · subst h2; simp
    · have := h p h2
      simp
      omega

theorem storeBound_removeNodeAux {c : Nat} :
    ∀ (l : List (Nat × Nat)) (net : Network), EdgeStoreBound net →
      EdgeStoreBound (removeNodeAux c net l).1 := by
  intro l
  induction l with
  | nil => intro net h; exact h
  | cons p rest ih =>
    intro net h
    obtain ⟨i, eid⟩ := p
    unfold removeNodeAux
    by_cases hc : ¬(net.getEdgeD eid).isDangling = true ∧ (net.getEdgeD eid).touches c = true
    · rw [if_pos hc]
      exact ih _ (storeBound_disconnect eid h)
    · rw [if_neg hc]
      exact ih _ h

theorem storeBound_removeNode {net : Network} (c : Nat) (h : EdgeStoreBound net) :
    EdgeStoreBound (net.removeNode c).1 := by
  intro p hp
  exact storeBound_removeNodeAux _ net h p hp

theorem storeBound_connect {net : Network} {pa pb : Nat} {p : Network × Nat}
    (hok : net.connect pa pb = .ok p) (h : EdgeStoreBound net) :
    EdgeStoreBound p.1 := by
  unfold Network.connect at hok
  by_cases h1 : ¬(net.getEdgeD pa).isDangling = true ∨ ¬(net.getEdgeD pb).isDangling = true
  · rw [if_pos h1] at hok
    cases hok
  · rw [if_neg h1] at hok
    by_cases h2 : (net.getEdgeD pa).dim ≠ (net.getEdgeD pb).dim
    · rw [if_pos h2] at hok
      cases hok
    · rw [if_neg h2] at hok
      have hp := (Except.ok.injEq .. ▸ hok :)
      intro q hq
      rw [← hp] at hq
      simp only [Network.setSlot, Network.setNode, Network.setEdge] at hq
      rcases mem_setA hq with h3 | h3
      · subst h3
        simp [← hp]
      · have := h q h3
        simp [← hp]
        omega

theorem nextEdgeId_disconnect_mono (net : Network) (eid : Nat) :
    net.nextEdgeId ≤ (net.disconnect eid).1.nextEdgeId := by
  rw [(disconnect_ids net eid).2.2.1]
  omega

theorem nextEdgeId_removeNodeAux_mono {c : Nat} :
    ∀ (l : List (Nat × Nat)) (net : Network),
      net.nextEdgeId ≤ (removeNodeAux c net l).1.nextEdgeId := by
  intro l
  induction l with
  | nil => intro net; exact le_rfl
  | cons p rest ih =>
    intro net
    obtain ⟨i, eid⟩ := p
    unfold removeNodeAux
    by_cases hc : ¬(net.getEdgeD eid).isDangling = true ∧ (net.getEdgeD eid).touches c = true
    · rw [if_pos hc]
      exact le_trans (nextEdgeId_disconnect_mono net eid) (ih _)
    · rw [if_neg hc]
      exact ih net

theorem nextEdgeId_removeNode_mono (net : Network) (c : Nat) :
    net.nextEdgeId ≤ (net.removeNode c).1.nextEdgeId :=
  nextEdgeId_removeNodeAux_mono _ net

theorem connect_nextEdgeId {net : Network} {pa pb : Nat} {p : Network × Nat}
    (hok : net.connect pa pb = .ok p) :
    p.1.nextEdgeId = net.nextEdgeId + 1 := by
  unfold Network.connect at hok
  by_cases h1 : ¬(net.getEdgeD pa).isDangling = true ∨ ¬(net.getEdgeD pb).isDangling = true
  · rw [if_pos h1] at hok
    cases hok
  · rw [if_neg h1] at hok
    by_cases h2 : (net.getEdgeD pa).dim ≠ (net.getEdgeD pb).dim
    · rw [if_pos h2] at hok
      cases hok
    · rw [if_neg h2] at hok
      have hp := (Except.ok.injEq .. ▸ hok :)
      rw [← hp]
      rfl

/-- Success of `trivializeStep` preserves the edge-store bound and can only
increase the fresh edge counter. -/
theorem storeBound_trivializeStep {net : Network} {cs : List Nat} {c : Nat}
    {p : Network × List Nat} (hok : trivializeStep net cs c = .ok p)
    (h : EdgeStoreBound net) :
    EdgeStoreBound p.1 ∧ net.nextEdgeId ≤ p.1.nextEdgeId := by
  unfold trivializeStep at hok
  by_cases h1 : (net.getNodeD c).slots.length = 2
  · rw [if_pos h1] at hok
    dsimp only [] at hok
    cases hL0 : lookupA (net.removeNode c).2 0 with
    | none => rw [hL0] at hok; cases hok
    | some b0 =>
      cases hL1 : lookupA (net.removeNode c).2 1 with
      | none => rw [hL0, hL1] at hok; cases hok
      | some b1 =>
        rw [hL0, hL1] at hok
        dsimp only [] at hok
        cases hC : (net.removeNode c).1.connect b0 b1 with
        | error err => rw [hC] at hok; cases hok
        | ok q =>
          rw [hC] at hok
          have hp := (Except.ok.injEq .. ▸ hok :)
          have hb1 : EdgeStoreBound (net.removeNode c).1 := storeBound_removeNode c h
          have hb2 := storeBound_connect hC hb1
          constructor
          · rw [← hp]
            exact hb2
          · rw [← hp]
            show net.nextEdgeId ≤ q.1.nextEdgeId
            have := connect_nextEdgeId hC
            have := nextEdgeId_removeNode_mono net c
            omega
  · rw [if_neg h1] at hok
    by_cases h2 : (net.getNodeD c).slots.length ≠ 3
    · rw [if_pos h2] at hok
      cases hok
    · rw [if_neg h2] at hok
      have hp := (Except.ok.injEq .. ▸ hok :)
      rw [← hp]
      exact ⟨h, le_rfl⟩

/-- `trivializeStep` on a well-formed rank-2 copy: the copy is erased from
`shared_copies`, removed from the node set, disabled, and a fresh edge directly
reconnects its two partner slots; everything else is untouched. -/
theorem trivializeStep_rank2_spec (net : Network) (csCur : List Nat) (c s0 s1 : Nat)
    (e0 e1 : Edge) (q0 b0 q1 b1 : Nat)
    (hslots : (net.getNodeD c).slots = [s0, s1])
    (he0 : net.getEdge s0 = some e0) (he1 : net.getEdge s1 = some e1)
    (hE0 : EdgeEnds e0 c 0 q0 b0) (hE1 : EdgeEnds e1 c 1 q1 b1)
    (hq0 : q0 ≠ c) (hq1 : q1 ≠ c)
    (hb0 : b0 < net.rankOf q0) (hb1 : b1 < net.rankOf q1)
    (hcons0 : net.slotOf q0 b0 = s0) (hcons1 : net.slotOf q1 b1 = s1)
    (hdim : e0.dim = e1.dim) (hsb : EdgeStoreBound net) :
    ∃ netT, trivializeStep net csCur c = .ok (netT, csCur.erase c) ∧
      netT.nodesSet = net.nodesSet.erase c ∧
      (netT.getNodeD c).disabled = true ∧
      netT.getEdge (net.nextEdgeId + 4)
        = some ⟨q0, b0, some q1, some b1, e0.dim⟩ ∧
      netT.slotOf q0 b0 = net.nextEdgeId + 4 ∧
      netT.slotOf q1 b1 = net.nextEdgeId + 4 ∧
      (∀ k, k < net.nextEdgeId → netT.getEdge k = net.getEdge k) ∧
      (∀ n β, n ≠ c → ¬(n = q0 ∧ β = b0) → ¬(n = q1 ∧ β = b1) →
        netT.slotOf n β = net.slotOf n β) ∧
      (∀ n, n ≠ c → (netT.getNodeD n).tensor = (net.getNodeD n).tensor ∧
        (netT.getNodeD n).isCopy = (net.getNodeD n).isCopy ∧
        (netT.getNodeD n).disabled = (net.getNodeD n).disabled) ∧
      (∀ n, netT.rankOf n = net.rankOf n) ∧
      netT.nextEdgeId = net.nextEdgeId + 5 ∧
      netT.nextNodeId = net.nextNodeId := by
  have hs0lt : s0 < net.nextEdgeId := getEdge_lt_of_bound hsb he0
  have hs1lt : s1 < net.nextEdgeId := getEdge_lt_of_bound hsb he1
  have hss : s0 ≠ s1 := by
    intro heq
    rw [heq, he1] at he0
    have he01 : e0 = e1 := by
      exact (Option.some.injEq .. ▸ he0.symm :)
    subst he01
    rcases hE0 with ⟨h1, h2, h3, h4⟩ | ⟨h1, h2, h3, h4⟩ <;>
      rcases hE1 with ⟨g1, g2, g3, g4⟩ | ⟨g1, g2, g3, g4⟩
    · rw [h2] at g2; cases g2
    · rw [h1] at g3
      exact hq1 g3.symm
    · rw [g1] at h3
      exact hq0 h3.symm
    · rw [h2] at g2; cases g2
  have hqq : ¬(q0 = q1 ∧ b0 = b1) := by
    rintro ⟨hqe, hbe⟩
    rw [hqe, hbe, hcons1] at hcons0
    exact hss hcons0.symm
  have R := removeNode_two_spec net c s0 s1 e0 e1 q0 b0 q1 b1 hslots he0 he1
    hE0 hE1 hq0 hq1 hb0 hb1 hs1lt hqq
  set Rnet := (net.removeNode c).1 with hRnet
  set p0 := partnerIdOf e0 c net.nextEdgeId with hp0
  set p1 := partnerIdOf e1 c (net.nextEdgeId + 2) with hp1
  have hL0 : lookupA (net.removeNode c).2 0 = some p0 := by
    rw [R.1]
    simp
  have hL1 : lookupA (net.removeNode c).2 1 = some p1 := by
    rw [R.1]
    simp
  have hra : Rnet.getEdge p0 = some ⟨q0, b0, none, none, e0.dim⟩ := R.2.1
  have hrb : Rnet.getEdge p1 = some ⟨q1, b1, none, none, e1.dim⟩ := R.2.2.1
  have hfr : Rnet.nextEdgeId = net.nextEdgeId + 4 := R.2.2.2.2.2.2.2.2.2.2.1
  have hrkb0 : (⟨q0, b0, none, none, e0.dim⟩ : Edge).axis1
      < Rnet.rankOf (⟨q0, b0, none, none, e0.dim⟩ : Edge).node1 := by
    show b0 < Rnet.rankOf q0
    rw [R.2.2.2.2.2.2.2.2.2.1 q0]
    exact hb0
  have hrkb1 : (⟨q1, b1, none, none, e1.dim⟩ : Edge).axis1
      < Rnet.rankOf (⟨q1, b1, none, none, e1.dim⟩ : Edge).node1 := by
    show b1 < Rnet.rankOf q1
    rw [R.2.2.2.2.2.2.2.2.2.1 q1]
    exact hb1
  obtain ⟨netF, hok, hCnew, hCs0, hCs1, hCEold, hCSold, hCfields, hCnid, hCnn, hCns⟩ :=
    connect_spec Rnet p0 p1 ⟨q0, b0, none, none, e0.dim⟩ ⟨q1, b1, none, none, e1.dim⟩
      hra hrb (by simp [Edge.isDangling]) (by simp [Edge.isDangling]) hdim hrkb0 hrkb1
  refine ⟨netF, ?_, ?_, ?_, ?_, ?_, ?_, ?_, ?_, ?_, ?_, ?_, ?_⟩
  · unfold trivializeStep
    rw [if_pos (by rw [hslots]; rfl)]
    dsimp only []
    rw [hL0, hL1]
    dsimp only []
    rw [hok]
  · rw [hCns, R.2.2.2.2.2.2.2.2.2.2.2.2]
  · rw [(hCfields c).2.2.1, R.2.2.2.2.2.2.2.2.1]
  · rw [← hfr, hCnew]
  · rw [show q0 = (⟨q0, b0, none, none, e0.dim⟩ : Edge).node1 from rfl] at hCs0 ⊢
    rw [hCs0, hfr]
  · rw [show q1 = (⟨q1, b1, none, none, e1.dim⟩ : Edge).node1 from rfl] at hCs1 ⊢
    rw [hCs1, hfr]
  · intro k hk
    rw [hCEold k (by omega), R.2.2.2.2.2.1 k hk]
  · intro n β hn hq0n hq1n
    rw [hCSold n β hq0n hq1n, R.2.2.2.2.2.2.1 n β hn hq0n hq1n]
  · intro n hn
    refine ⟨?_, ?_, ?_⟩
    · rw [(hCfields n).1, (R.2.2.2.2.2.2.2.1 n hn).1]
    · rw [(hCfields n).2.1, (R.2.2.2.2.2.2.2.1 n hn).2.1]
    · rw [(hCfields n).2.2.1, (R.2.2.2.2.2.2.2.1 n hn).2.2]
  · intro n
    rw [(hCfields n).2.2.2, R.2.2.2.2.2.2.2.2.2.1 n]
  · rw [hCnid, hfr]
  · rw [hCnn, R.2.2.2.2.2.2.2.2.2.2.2.1]

theorem rankOf_disconnect (net : Network) (eid n : Nat) :
    (net.disconnect eid).1.rankOf n = net.rankOf n :=
  (disconnect_node_fields net eid n).2.2.2

theorem rankOf_removeNodeAux {c : Nat} :
    ∀ (l : List (Nat × Nat)) (net : Network) (n : Nat),
      (removeNodeAux c net l).1.rankOf n = net.rankOf n := by
  intro l
  induction l with
  | nil => intro net n; rfl
  | cons p rest ih =>
    intro net n
    obtain ⟨i, eid⟩ := p
    unfold removeNodeAux
    by_cases hc : ¬(net.getEdgeD eid).isDangling = true ∧ (net.getEdgeD eid).touches c = true
    · rw [if_pos hc, ih, rankOf_disconnect]
    · rw [if_neg hc, ih]

theorem rankOf_removeNode (net : Network) (c n : Nat) :
    (net.removeNode c).1.rankOf n = net.rankOf n := by
  have hx := rankOf_removeNodeAux (c := c) (net.getNodeD c).slots.enum net n
  set Y := (removeNodeAux c net (net.getNodeD c).slots.enum).1 with hY
  have h1 : (net.removeNode c).1.getNode n
      = (Y.setNode c { Y.getNodeD c with disabled := true }).getNode n := rfl
  unfold Network.rankOf Network.getNodeD
  rw [h1]
  by_cases hn : n = c
  · subst hn
    rw [getNode_setNode_self]
    simpa [Network.rankOf, Network.getNodeD] using hx
  · rw [getNode_setNode_ne _ _ _ _ hn]
    simpa [Network.rankOf, Network.getNodeD] using hx

theorem rankOf_connect {net : Network} {pa pb : Nat} {p : Network × Nat}
    (hok : net.connect pa pb = .ok p) (n : Nat) :
    p.1.rankOf n = net.rankOf n := by
  unfold Network.connect at hok
  by_cases h1 : ¬(net.getEdgeD pa).isDangling = true ∨ ¬(net.getEdgeD pb).isDangling = true
  · rw [if_pos h1] at hok
    cases hok
  · rw [if_neg h1] at hok
    by_cases h2 : (net.getEdgeD pa).dim ≠ (net.getEdgeD pb).dim
    · rw [if_pos h2] at hok
      cases hok
    · rw [if_neg h2] at hok
      have hp := (Except.ok.injEq .. ▸ hok :)
      rw [← hp]
      show (Network.rankOf _ n) = _
      rw [rankOf_setSlot, rankOf_setSlot, rankOf_setEdge]
      rfl

theorem trivializeStep_rank_preserved {net : Network} {cs : List Nat} {c : Nat}
    {p : Network × List Nat} (hok : trivializeStep net cs c = .ok p) (n : Nat) :
    p.1.rankOf n = net.rankOf n := by
  unfold trivializeStep at hok
  by_cases h1 : (net.getNodeD c).slots.length = 2
  · rw [if_pos h1] at hok
    dsimp only [] at hok
    cases hL0 : lookupA (net.removeNode c).2 0 with
    | none => rw [hL0] at hok; cases hok
    | some b0 =>
      cases hL1 : lookupA (net.removeNode c).2 1 with
      | none => rw [hL0, hL1] at hok; cases hok
      | some b1 =>
        rw [hL0, hL1] at hok
        dsimp only [] at hok
        cases hC : (net.removeNode c).1.connect b0 b1 with
        | error err => rw [hC] at hok; cases hok
        | ok q =>
          rw [hC] at hok
          have hp := (Except.ok.injEq .. ▸ hok :)
          rw [← hp]
          show q.1.rankOf n = net.rankOf n
          rw [rankOf_connect hC n, rankOf_removeNode]
  · rw [if_neg h1] at hok
    by_cases h2 : (net.getNodeD c).slots.length ≠ 3
    · rw [if_pos h2] at hok
      cases hok
    · rw [if_neg h2] at hok
      have hp := (Except.ok.injEq .. ▸ hok :)
      rw [← hp]

/-- Success of one trivialization step: either the copy had exactly 2 edges
(and was erased from `shared_copies`) or exactly 3 (and nothing changed). -/
theorem trivializeStep_cases {net : Network} {cs : List Nat} {c : Nat}
    {p : Network × List Nat} (hok : trivializeStep net cs c = .ok p) :
    (net.rankOf c = 2 ∧ p.2 = cs.erase c) ∨
    (net.rankOf c = 3 ∧ p.2 = cs ∧ p.1 = net) := by
  unfold trivializeStep at hok
  by_cases h1 : (net.getNodeD c).slots.length = 2
  · left
    refine ⟨h1, ?_⟩
    rw [if_pos h1] at hok
    dsimp only [] at hok
    cases hL0 : lookupA (net.removeNode c).2 0 with
    | none => rw [hL0] at hok; cases hok
    | some b0 =>
      cases hL1 : lookupA (net.removeNode c).2 1 with
      | none => rw [hL0, hL1] at hok; cases hok
      | some b1 =>
        rw [hL0, hL1] at hok
        dsimp only [] at hok
        cases hC : (net.removeNode c).1.connect b0 b1 with
        | error err => rw [hC] at hok; cases hok
        | ok q =>
          rw [hC] at hok
          have hp := (Except.ok.injEq .. ▸ hok :)
          rw [← hp]
  · rw [if_neg h1] at hok
    by_cases h2 : (net.getNodeD c).slots.length ≠ 3
    · rw [if_pos h2] at hok
      cases hok
    · rw [if_neg h2] at hok
      have hp := (Except.ok.injEq .. ▸ hok :)
      right
      refine ⟨not_not.mp h2, ?_, ?_⟩ <;> rw [← hp]

/-- The trivialization loop, on success: every processed copy had edge count 2
or 3 (measured at call time), the surviving `shared_copies` are a subset of the
originals in which every processed copy of edge count 2 is gone, and node ranks
are untouched. -/
theorem trivialize_ok_ranks :
    ∀ (todo : List Nat) (net : Network) (cs : List Nat) (out : Network × List Nat),
      trivialize net cs todo = .ok out → cs.Nodup → todo.Nodup → todo ⊆ cs →
      (∀ c ∈ todo, net.rankOf c = 2 ∨ net.rankOf c = 3) ∧
      (∀ c ∈ out.2, c ∈ cs ∧ (c ∈ todo → net.rankOf c = 3)) ∧
      (∀ n, out.1.rankOf n = net.rankOf n) := by
  intro todo
  induction todo with
  | nil =>
    intro net cs out hok _ _ _
    cases hok
    exact ⟨by simp, fun c hc => ⟨hc, by simp⟩, fun n => rfl⟩
  | cons c rest ih =>
    intro net cs out hok hnd hndt hsub
    unfold trivialize at hok
    cases hS : trivializeStep net cs c with
    | error err => rw [hS] at hok; cases hok
    | ok p =>
      rw [hS] at hok
      have hrk := trivializeStep_rank_preserved hS
      rcases trivializeStep_cases hS with ⟨h2, hcs⟩ | ⟨h3, hcs, hnet⟩
      · have hnd2 : p.2.Nodup := by rw [hcs]; exact hnd.erase c
        have ihR := ih p.1 p.2 out hok hnd2 hndt.of_cons ?_
        · refine ⟨?_, ?_, ?_⟩
          · intro d hd
            rcases List.mem_cons.mp hd with h | h
            · subst h; exact Or.inl h2
            · rcases ihR.1 d h with hh | hh
              · exact Or.inl (by rw [← hrk d]; exact hh)
              · exact Or.inr (by rw [← hrk d]; exact hh)
          · intro d hd
            have := ihR.2.1 d hd
            constructor
            · exact List.mem_of_mem_erase (hcs ▸ this.1)
            · intro hdt
              rcases List.mem_cons.mp hdt with h | h
              · subst h
                exact absurd (hcs ▸ this.1) hnd.not_mem_erase
              · rw [← hrk d]
                exact this.2 h
          · intro n
            rw [ihR.2.2 n, hrk n]
        · intro x hx
          rw [hcs]
          have hxc : x ≠ c := by
            intro he
            subst he
            exact (List.nodup_cons.mp hndt).1 hx
          exact (List.mem_erase_of_ne hxc).mpr (hsub (List.mem_cons_of_mem _ hx))
      · have hnd2 : p.2.Nodup := by rw [hcs]; exact hnd
        have ihR := ih p.1 p.2 out hok hnd2 hndt.of_cons ?_
        · refine ⟨?_, ?_, ?_⟩
          · intro d hd
            rcases List.mem_cons.mp hd with h | h
            · subst h; exact Or.inr h3
            · rcases ihR.1 d h with hh | hh
              · exact Or.inl (by rw [← hrk d]; exact hh)
              · exact Or.inr (by rw [← hrk d]; exact hh)
          · intro d hd
            have := ihR.2.1 d hd
            refine ⟨hcs ▸ this.1, ?_⟩
            intro hdt
            rcases List.mem_cons.mp hdt with h | h
            · subst h
              exact h3
            · rw [← hrk d]
              exact this.2 h
          · intro n
            rw [ihR.2.2 n, hrk n]
        · intro x hx
          rw [hcs]
          exact hsub (List.mem_cons_of_mem _ hx)

/-- Partner endpoint (node, axis) of rank-2 copy `c`'s axis-`i` edge: the
endpoint not on `c`. -/
def partnerEnd (net : Network) (c i : Nat) : Nat × Nat :=
  let e := net.getEdgeD (net.slotOf c i)
  if e.node1 = c then (e.node2.getD 0, e.axis2.getD 0) else (e.node1, e.axis1)

/-- Well-formedness of the trivialization input: `shared_copies` has no
duplicates, the node set has no duplicates, edge identifiers are bounded, and
every rank-2 copy in `shared_copies` has two consistent non-dangling edges to
partner slots outside `shared_copies`, of one dimension. -/
def TrivWf (net : Network) (cs : List Nat) : Prop :=
  cs.Nodup ∧ net.nodesSet.Nodup ∧ EdgeStoreBound net ∧
  ∀ c ∈ cs, net.rankOf c = 2 →
    ∃ s0 s1 e0 e1 q0 b0 q1 b1,
      (net.getNodeD c).slots = [s0, s1] ∧
      net.getEdge s0 = some e0 ∧ net.getEdge s1 = some e1 ∧
      EdgeEnds e0 c 0 q0 b0 ∧ EdgeEnds e1 c 1 q1 b1 ∧
      q0 ∉ cs ∧ q1 ∉ cs ∧ q0 ≠ c ∧ q1 ≠ c ∧
      b0 < net.rankOf q0 ∧ b1 < net.rankOf q1 ∧
      net.slotOf q0 b0 = s0 ∧ net.slotOf q1 b1 = s1 ∧ e0.dim = e1.dim

/-- What the trivialization of rank-2 copy `d` leaves behind, measured in the
current network `cur` against the original `net0`: `d` is gone and disabled,
and a single fresh edge joins its two former partner slots directly. -/
def TrivConc (net0 cur : Network) (d : Nat) : Prop :=
  d ∉ cur.nodesSet ∧ (cur.getNodeD d).disabled = true ∧
  ∃ f, f < cur.nextEdgeId ∧
    cur.getEdge f = some ⟨(partnerEnd net0 d 0).1, (partnerEnd net0 d 0).2,
      some (partnerEnd net0 d 1).1, some (partnerEnd net0 d 1).2,
      (net0.getEdgeD (net0.slotOf d 0)).dim⟩ ∧
    cur.slotOf (partnerEnd net0 d 0).1 (partnerEnd net0 d 0).2 = f ∧
    cur.slotOf (partnerEnd net0 d 1).1 (partnerEnd net0 d 1).2 = f

/-- The axis slots the trivialization of the processed copies `done` may have
written: the copies' own slots and their partner slots. -/
def TouchedSlot (net0 : Network) (done : List Nat) (n β : Nat) : Prop :=
  ∃ d ∈ done, net0.rankOf d = 2 ∧
    (n = d ∨ (n, β) = partnerEnd net0 d 0 ∨ (n, β) = partnerEnd net0 d 1)

/-- Loop invariant of the trivialization pass. -/
def TrivInv (net0 : Network) (done : List Nat) (cur : Network)
    (csCur : List Nat) : Prop :=
  (∀ n, cur.rankOf n = net0.rankOf n) ∧
  (∀ k, k < net0.nextEdgeId → cur.getEdge k = net0.getEdge k) ∧
  EdgeStoreBound cur ∧ net0.nextEdgeId ≤ cur.nextEdgeId ∧ cur.nodesSet.Nodup ∧
  (∀ n β, ¬ TouchedSlot net0 done n β → cur.slotOf n β = net0.slotOf n β) ∧
  (∀ d ∈ done, net0.rankOf d = 2 → TrivConc net0 cur d) ∧
  (∀ d ∈ done, net0.rankOf d = 2 → d ∉ csCur) ∧ csCur.Nodup

theorem list_len2_eq {l : List Nat} (h : l.length = 2) :
    l = [l.getD 0 0, l.getD 1 0] := by
  match l, h with
  | [a, b], _ => rfl

/-- Two coincident endpoints of consistent copy edges force the copies (and
axes) to coincide, unless a copy equals the other's partner node. -/
theorem edgeEnds_same_edge {e : Edge} {c i q b d j q2 b2 : Nat}
    (h1 : EdgeEnds e c i q b) (h2 : EdgeEnds e d j q2 b2) :
    (c = d ∧ i = j) ∨ d = q ∨ c = q2 := by
  rcases h1 with ⟨a1, a2, a3, a4⟩ | ⟨a1, a2, a3, a4⟩ <;>
    rcases h2 with ⟨g1, g2, g3, g4⟩ | ⟨g1, g2, g3, g4⟩
  · left
    rw [a1] at g1
    rw [a2] at g2
    exact ⟨g1, g2⟩
  · right; left
    rw [a3] at g1
    exact ((Option.some.injEq .. ▸ g1 :)).symm
  · right; right
    rw [g3] at a1
    exact ((Option.some.injEq .. ▸ a1 :)).symm
  · left
    rw [a1] at g1
    rw [a2] at g2
    exact ⟨(Option.some.injEq .. ▸ g1 :), (Option.some.injEq .. ▸ g2 :)⟩

theorem partnerEnd_of_data {net : Network} {c i s : Nat} {e : Edge} {q b : Nat}
    (hslot : net.slotOf c i = s) (he : net.getEdge s = some e)
    (hE : EdgeEnds e c i q b) (hq : q ≠ c) :
    partnerEnd net c i = (q, b) := by
  have hge : net.getEdgeD s = e := by simp [Network.getEdgeD, he]
  unfold partnerEnd
  rw [hslot, hge]
  rcases hE with ⟨a1, a2, a3, a4⟩ | ⟨a1, a2, a3, a4⟩
  · rw [if_pos a1, a3, a4]
    rfl
  · rw [if_neg (a3 ▸ hq), a3, a4]

theorem slotOf_of_slots {net : Network} {c s0 s1 : Nat}
    (h : (net.getNodeD c).slots = [s0, s1]) :
    net.slotOf c 0 = s0 ∧ net.slotOf c 1 = s1 := by
  unfold Network.slotOf
  rw [h]
  exact ⟨rfl, rfl⟩

theorem partner_node_not_in_cs {net0 : Network} {cs : List Nat}
    (hwf : TrivWf net0 cs) {d : Nat} (hd : d ∈ cs) (hr : net0.rankOf d = 2)
    {i : Nat} (hi : i < 2) : (partnerEnd net0 d i).1 ∉ cs := by
  obtain ⟨s0, s1, e0, e1, q0, b0, q1, b1, hslots, he0, he1, hE0, hE1,
    hq0cs, hq1cs, hq0c, hq1c, -, -, -, -, -⟩ := hwf.2.2.2 d hd hr
  have hs := slotOf_of_slots hslots
  interval_cases i
  · rw [partnerEnd_of_data hs.1 he0 hE0 hq0c]
    exact hq0cs
  · rw [partnerEnd_of_data hs.2 he1 hE1 hq1c]
    exact hq1cs

theorem partner_pair_unique {net0 : Network} {cs : List Nat}
    (hwf : TrivWf net0 cs) {c d : Nat} (hc : c ∈ cs) (hd : d ∈ cs)
    (hrc : net0.rankOf c = 2) (hrd : net0.rankOf d = 2)
    {i j : Nat} (hi : i < 2) (hj : j < 2)
    (heq : partnerEnd net0 c i = partnerEnd net0 d j) : c = d ∧ i = j := by
  obtain ⟨s0, s1, e0, e1, q0, b0, q1, b1, hslots, he0, he1, hE0, hE1,
    hq0cs, hq1cs, hq0c, hq1c, -, -, hcons0, hcons1, -⟩ := hwf.2.2.2 c hc hrc
  obtain ⟨t0, t1, f0, f1, r0, a0, r1, a1, hslots2, hf0, hf1, hF0, hF1,
    hr0cs, hr1cs, hr0c, hr1c, -, -, hcons02, hcons12, -⟩ := hwf.2.2.2 d hd hrd
  have hs := slotOf_of_slots hslots
  have ht := slotOf_of_slots hslots2
  have main : ∀ (sC : Nat) (eC : Edge) (qC bC iC : Nat), net0.getEdge sC = some eC →
      EdgeEnds eC c iC qC bC → qC ∉ cs → qC ≠ c → net0.slotOf qC bC = sC →
      ∀ (sD : Nat) (eD : Edge) (qD bD jD : Nat), net0.getEdge sD = some eD →
      EdgeEnds eD d jD qD bD → qD ∉ cs → qD ≠ d → net0.slotOf qD bD = sD →
      (qC, bC) = (qD, bD) → c = d ∧ iC = jD := by
    intro sC eC qC bC iC heC hEC hqCcs hqCc hconsC sD eD qD bD jD heD hED hqDcs hqDc hconsD hpair
    have hq : qC = qD := congrArg Prod.fst hpair
    have hb : bC = bD := congrArg Prod.snd hpair
    have hss : sC = sD := by
      rw [← hconsC, ← hconsD, hq, hb]
    have hee : eC = eD := by
      rw [hss, heD] at heC
      exact ((Option.some.injEq .. ▸ heC :)).symm
    rcases edgeEnds_same_edge (hee ▸ hEC) hED with h | h | h
    · exact h
    · exact absurd (h ▸ hd) (hq ▸ hqCcs)
    · exact absurd (h ▸ hc) hqDcs
  interval_cases i <;> interval_cases j
  · rw [partnerEnd_of_data hs.1 he0 hE0 hq0c, partnerEnd_of_data ht.1 hf0 hF0 hr0c] at heq
    exact main s0 e0 q0 b0 0 he0 hE0 hq0cs hq0c hcons0 t0 f0 r0 a0 0 hf0 hF0 hr0cs hr0c hcons02 heq
  · rw [partnerEnd_of_data hs.1 he0 hE0 hq0c, partnerEnd_of_data ht.2 hf1 hF1 hr1c] at heq
    exact main s0 e0 q0 b0 0 he0 hE0 hq0cs hq0c hcons0 t1 f1 r1 a1 1 hf1 hF1 hr1cs hr1c hcons12 heq
  · rw [partnerEnd_of_data hs.2 he1 hE1 hq1c, partnerEnd_of_data ht.1 hf0 hF0 hr0c] at heq
    exact main s1 e1 q1 b1 1 he1 hE1 hq1cs hq1c hcons1 t0 f0 r0 a0 0 hf0 hF0 hr0cs hr0c hcons02 heq
  · rw [partnerEnd_of_data hs.2 he1 hE1 hq1c, partnerEnd_of_data ht.2 hf1 hF1 hr1c] at heq
    exact main s1 e1 q1 b1 1 he1 hE1 hq1cs hq1c hcons1 t1 f1 r1 a1 1 hf1 hF1 hr1cs hr1c hcons12 heq

theorem trivialize_go (net0 : Network) (cs : List Nat) (hwf : TrivWf net0 cs) :
    ∀ (todo done : List Nat) (cur : Network) (csCur : List Nat)
      (out : Network × List Nat),
      cs = done ++ todo →
      trivialize cur csCur todo = .ok out →
      TrivInv net0 done cur csCur →
      TrivInv net0 cs out.1 out.2 := by
  intro todo
  induction todo with
  | nil =>
    intro done cur csCur out hsplit hok hinv
    cases hok
    rw [hsplit, List.append_nil]
    exact hinv
  | cons c rest ih =>
    intro done cur csCur out hsplit hok hinv
    obtain ⟨inv1, inv2, inv3, inv4, inv5, inv6, inv7, inv8, inv9⟩ := hinv
    have hcmem : c ∈ cs := by
      rw [hsplit]
      exact List.mem_append_right _ (List.mem_cons_self _ _)
    have hcdone : c ∉ done := by
      intro hcd
      have := hwf.1
      rw [hsplit] at this
      exact List.disjoint_of_nodup_append this hcd (List.mem_cons_self _ _)
    have hdonecs : done ⊆ cs := by
      intro x hx
      rw [hsplit]
      exact List.mem_append_left _ hx
    unfold trivialize at hok
    cases hS : trivializeStep cur csCur c with
    | error err =>
      rw [hS] at hok
      cases hok
    | ok p =>
      rw [hS] at hok
      have hsplit2 : cs = (done ++ [c]) ++ rest := by
        rw [hsplit, List.append_cons]
      rcases trivializeStep_cases hS with ⟨h2, hcs⟩ | ⟨h3, hcs, hnet⟩
      · -- rank-2 copy: the step rewires through `trivializeStep_rank2_spec`
        have hr2 : net0.rankOf c = 2 := by rw [← inv1 c]; exact h2
        obtain ⟨s0, s1, e0, e1, q0, b0, q1, b1, hslots0, he00, he10, hE0, hE1,
          hq0cs, hq1cs, hq0c, hq1c, hb00, hb10, hcons00, hcons10, hdim⟩ :=
          hwf.2.2.2 c hcmem hr2
        have hs0 := slotOf_of_slots hslots0
        have hs0lt : s0 < net0.nextEdgeId := getEdge_lt_of_bound hwf.2.2.1 he00
        have hs1lt : s1 < net0.nextEdgeId := getEdge_lt_of_bound hwf.2.2.1 he10
        have hpc0 : partnerEnd net0 c 0 = (q0, b0) :=
          partnerEnd_of_data hs0.1 he00 hE0 hq0c
        have hpc1 : partnerEnd net0 c 1 = (q1, b1) :=
          partnerEnd_of_data hs0.2 he10 hE1 hq1c
        have huc : ∀ β, ¬ TouchedSlot net0 done c β := by
          intro β ⟨d, hd, hdr, hcase⟩
          rcases hcase with h | h | h
          · exact hcdone (h ▸ hd)
          · have := partner_node_not_in_cs hwf (hdonecs hd) hdr (i := 0) (by omega)
            rw [← h] at this
            exact this hcmem
          · have := partner_node_not_in_cs hwf (hdonecs hd) hdr (i := 1) (by omega)
            rw [← h] at this
            exact this hcmem
        have huq : ∀ (i : Nat), i < 2 → ¬ TouchedSlot net0 done
            (partnerEnd net0 c i).1 (partnerEnd net0 c i).2 := by
          intro i hilt ⟨d, hd, hdr, hcase⟩
          rcases hcase with h | h | h
          · have := partner_node_not_in_cs hwf hcmem hr2 hilt
            rw [h] at this
            exact this (hdonecs hd)
          · have := partner_pair_unique hwf hcmem (hdonecs hd) hr2 hdr hilt
              (j := 0) (by omega) (by rw [← h])
            exact hcdone (this.1 ▸ hd)
          · have := partner_pair_unique hwf hcmem (hdonecs hd) hr2 hdr hilt
              (j := 1) (by omega) (by rw [← h])
            exact hcdone (this.1 ▸ hd)
        have hsc0 : cur.slotOf c 0 = s0 := by rw [inv6 c 0 (huc 0)]; exact hs0.1
        have hsc1 : cur.slotOf c 1 = s1 := by rw [inv6 c 1 (huc 1)]; exact hs0.2
        have hslots_cur : (cur.getNodeD c).slots = [s0, s1] := by
          have hlen : (cur.getNodeD c).slots.length = 2 := h2
          have := list_len2_eq hlen
          rw [this]
          unfold Network.slotOf at hsc0 hsc1
          rw [hsc0, hsc1]
        have he0cur : cur.getEdge s0 = some e0 := by rw [inv2 s0 hs0lt]; exact he00
        have he1cur : cur.getEdge s1 = some e1 := by rw [inv2 s1 hs1lt]; exact he10
        have hb0cur : b0 < cur.rankOf q0 := by rw [inv1 q0]; exact hb00
        have hb1cur : b1 < cur.rankOf q1 := by rw [inv1 q1]; exact hb10
        have hq0cur : cur.slotOf q0 b0 = s0 := by
          have h := huq 0 (by omega)
          rw [hpc0] at h
          rw [inv6 q0 b0 h]
          exact hcons00
        have hq1cur : cur.slotOf q1 b1 = s1 := by
          have h := huq 1 (by omega)
          rw [hpc1] at h
          rw [inv6 q1 b1 h]
          exact hcons10
        obtain ⟨netT, hstep, hNS, hDIS, hGE, hSL0, hSL1, hEF, hSF, hFLD, hRK, hNEI, hNNI⟩ :=
          trivializeStep_rank2_spec cur csCur c s0 s1 e0 e1 q0 b0 q1 b1
            hslots_cur he0cur he1cur hE0 hE1 hq0c hq1c hb0cur hb1cur
            hq0cur hq1cur hdim inv3
        have hp : p = (netT, csCur.erase c) := by
          rw [hS] at hstep
          exact (Except.ok.injEq .. ▸ hstep :)
        subst hp
        -- rebuild the invariant for done ++ [c]
        refine ih (done ++ [c]) netT (csCur.erase c) out hsplit2 hok
          ⟨?_, ?_, ?_, ?_, ?_, ?_, ?_, ?_, ?_⟩
        · intro n
          rw [hRK n, inv1 n]
        · intro k hk
          rw [hEF k (by omega), inv2 k hk]
        · exact (storeBound_trivializeStep hS inv3).1
        · rw [hNEI]
          omega
        · rw [hNS]
          exact inv5.erase c
        · intro n β hnt
          have hnt1 : ¬ TouchedSlot net0 done n β := by
            intro ⟨d, hd, hdr, hcase⟩
            exact hnt ⟨d, List.mem_append_left _ hd, hdr, hcase⟩
          have hnc : n ≠ c := by
            intro he
            exact hnt ⟨c, List.mem_append_right _ (List.mem_cons_self _ _), hr2, Or.inl he⟩
          have hnq0 : ¬(n = q0 ∧ β = b0) := by
            rintro ⟨hn, hb⟩
            refine hnt ⟨c, List.mem_append_right _ (List.mem_cons_self _ _), hr2,
              Or.inr (Or.inl ?_)⟩
            rw [hpc0, hn, hb]
          have hnq1 : ¬(n = q1 ∧ β = b1) := by
            rintro ⟨hn, hb⟩
            refine hnt ⟨c, List.mem_append_right _ (List.mem_cons_self _ _), hr2,
              Or.inr (Or.inr ?_)⟩
            rw [hpc1, hn, hb]
          rw [hSF n β hnc hnq0 hnq1, inv6 n β hnt1]
        · intro d hd hdr
          rcases List.mem_append.mp hd with hdone2 | hdc
          · -- previously processed copy: its conclusions survive this step
            obtain ⟨hc1, hc2, f, hf1, hf2, hf3, hf4⟩ := inv7 d hdone2 hdr
            have hdc : d ≠ c := fun he => hcdone (he ▸ hdone2)
            have hdq : ∀ i, i < 2 → ∀ j, j < 2 →
                partnerEnd net0 d i ≠ partnerEnd net0 c j := by
              intro i hi j hj he
              have := partner_pair_unique hwf (hdonecs hdone2) hcmem hdr hr2 hi hj he
              exact hdc this.1
            refine ⟨?_, ?_, f, ?_, ?_, ?_, ?_⟩
            · rw [hNS]
              intro hmem
              exact hc1 (List.mem_of_mem_erase hmem)
            · rw [(hFLD d hdc).2.2]
              exact hc2
            · rw [hNEI]
              omega
            · rw [hEF f hf1]
              exact hf2
            · have hd0 := hSF (partnerEnd net0 d 0).1 (partnerEnd net0 d 0).2
                (by
                  intro he
                  have := partner_node_not_in_cs hwf (hdonecs hdone2) hdr
                    (i := 0) (by omega)
                  rw [he] at this
                  exact this hcmem)
                (by
                  rintro ⟨hn, hb⟩
                  refine hdq 0 (by omega) 0 (by omega) ?_
                  rw [hpc0]
                  exact Prod.ext hn hb)
                (by
                  rintro ⟨hn, hb⟩
                  refine hdq 0 (by omega) 1 (by omega) ?_
                  rw [hpc1]
                  exact Prod.ext hn hb)
              rw [hd0]
              exact hf3
            · have hd1 := hSF (partnerEnd net0 d 1).1 (partnerEnd net0 d 1).2
                (by
                  intro he
                  have := partner_node_not_in_cs hwf (hdonecs hdone2) hdr
                    (i := 1) (by omega)
                  rw [he] at this
                  exact this hcmem)
                (by
                  rintro ⟨hn, hb⟩
                  refine hdq 1 (by omega) 0 (by omega) ?_
                  rw [hpc0]
                  exact Prod.ext hn hb)
                (by
                  rintro ⟨hn, hb⟩
                  refine hdq 1 (by omega) 1 (by omega) ?_
                  rw [hpc1]
                  exact Prod.ext hn hb)
              rw [hd1]
              exact hf4
          · -- the copy processed in this step
            have hdc : d = c := by simpa using hdc
            subst hdc
            refine ⟨?_, hDIS, cur.nextEdgeId + 4, ?_, ?_, ?_, ?_⟩
            · rw [hNS]
              exact inv5.not_mem_erase
            · rw [hNEI]
              omega
            · rw [hpc0, hpc1]
              have hd0 : (net0.getEdgeD (net0.slotOf d 0)).dim = e0.dim := by
                rw [hs0.1]
                simp [Network.getEdgeD, he00]
              rw [hd0]
              exact hGE
            · rw [hpc0]
              exact hSL0
            · rw [hpc1]
              exact hSL1
        · intro d hd hdr
          rcases List.mem_append.mp hd with hdone2 | hdc
          · intro hmem
            exact inv8 d hdone2 hdr (List.mem_of_mem_erase hmem)
          · have hdc : d = c := by simpa using hdc
            subst hdc
            exact inv9.not_mem_erase
        · exact inv9.erase c
      · -- rank-3 copy: nothing changes
        have hr3 : net0.rankOf c = 3 := by rw [← inv1 c]; exact h3
        refine ih (done ++ [c]) p.1 p.2 out hsplit2 hok ⟨?_, ?_, ?_, ?_, ?_, ?_, ?_, ?_, ?_⟩
        · intro n; rw [hnet]; exact inv1 n
        · intro k hk; rw [hnet]; exact inv2 k hk
        · rw [hnet]; exact inv3
        · rw [hnet]; exact inv4
        · rw [hnet]; exact inv5
        · intro n β hnt
          rw [hnet]
          refine inv6 n β ?_
          intro ⟨d, hd, hdr, hcase⟩
          exact hnt ⟨d, List.mem_append_left _ hd, hdr, hcase⟩
        · intro d hd hdr
          rcases List.mem_append.mp hd with hdone2 | hdc
          · rw [hnet]
            exact inv7 d hdone2 hdr
          · have hdc : d = c := by simpa using hdc
            subst hdc
            rw [hr3] at hdr
            cases hdr
        · intro d hd hdr
          rcases List.mem_append.mp hd with hdone2 | hdc
          · rw [hcs]
            exact inv8 d hdone2 hdr
          · have hdc : d = c := by simpa using hdc
            subst hdc
            rw [hr3] at hdr
            cases hdr
        · rw [hcs]; exact inv9

/-! ### C1 and C3: the trivialization pass -/

/-- C1 (amended): in every call, every copy node in `shared_copies` with
exactly two edges in total (rank 2; the original claim says "exactly two
non-dangling edges", which fails for a rank-3 copy with a dangling edge — see
the counterexample) is removed from the network and from `shared_copies`,
disabled, and its two partner edges are directly reconnected into a single
fresh edge; this happens in the trivialization pass, through which
`contract_between_with_copies` factors before the einsum expression is built
or the backend is called (the second conjunct; `trivialize` takes no
backend). -/
theorem contract_trivializes_rank2 (net0 : Network) (cs : List Nat)
    (hwf : TrivWf net0 cs) (out : Network × List Nat)
    (hok : trivialize net0 cs cs = .ok out) :
    (∀ c ∈ cs, net0.rankOf c = 2 →
      c ∉ out.2 ∧ c ∉ out.1.nodesSet ∧ (out.1.getNodeD c).disabled = true ∧
      ∃ f, out.1.getEdge f
          = some ⟨(partnerEnd net0 c 0).1, (partnerEnd net0 c 0).2,
              some (partnerEnd net0 c 1).1, some (partnerEnd net0 c 1).2,
              (net0.getEdgeD (net0.slotOf c 0)).dim⟩ ∧
        out.1.slotOf (partnerEnd net0 c 0).1 (partnerEnd net0 c 0).2 = f ∧
        out.1.slotOf (partnerEnd net0 c 1).1 (partnerEnd net0 c 1).2 = f) ∧
    (∀ (backend : String → Nat → Nat → Nat) (n1 n2 : Nat), n1 ≠ n2 →
      contract_between_with_copies backend net0 n1 n2 cs
        = if out.2.isEmpty then .ok (.plain out.1 n1 n2)
          else buildPhase backend out.1 n1 n2 out.2) := by
  have hinv0 : TrivInv net0 [] net0 cs := by
    refine ⟨fun n => rfl, fun k _ => rfl, hwf.2.2.1, le_rfl, hwf.2.1,
      fun n β _ => rfl, ?_, ?_, hwf.1⟩
    · intro d hd
      simp at hd
    · intro d hd
      simp at hd
  have hfin := trivialize_go net0 cs hwf cs [] net0 cs out rfl hok hinv0
  constructor
  · intro c hc hr
    obtain ⟨h1, h2, f, hf1, hf2, hf3, hf4⟩ := hfin.2.2.2.2.2.2.1 c hc hr
    exact ⟨hfin.2.2.2.2.2.2.2.1 c hc hr, h1, h2, f, hf2, hf3, hf4⟩
  · intro backend n1 n2 hne
    unfold contract_between_with_copies
    rw [if_neg hne, hok]

/-- Witness network for C1/C3: one rank-2 copy `2` joining nodes `0` and `1`. -/
def trivWitNet : Network :=
  { nodes := [(0, ⟨[10], false, 5, false⟩), (1, ⟨[11], false, 6, false⟩),
              (2, ⟨[10, 11], true, 0, false⟩)],
    edges := [(10, ⟨0, 0, some 2, some 0, 2⟩), (11, ⟨1, 0, some 2, some 1, 2⟩)],
    nodesSet := [0, 1, 2], nextNodeId := 3, nextEdgeId := 12 }

theorem trivWitNet_wf : TrivWf trivWitNet [2] := by
  refine ⟨by decide, by decide, by decide, ?_⟩
  intro c hc _
  have hc2 : c = 2 := by simpa using hc
  subst hc2
  exact ⟨10, 11, ⟨0, 0, some 2, some 0, 2⟩, ⟨1, 0, some 2, some 1, 2⟩,
    0, 0, 1, 0, rfl, rfl, rfl, Or.inr ⟨rfl, rfl, rfl, rfl⟩,
    Or.inr ⟨rfl, rfl, rfl, rfl⟩, by decide, by decide, by decide, by decide,
    by decide, by decide, rfl, rfl, rfl⟩

theorem contract_trivializes_rank2_witness :
    (2 : Nat) ∉ ((trivialize trivWitNet [2] [2]).toOption.getD (trivWitNet, [])).2 ∧
    (2 : Nat) ∉ ((trivialize trivWitNet [2] [2]).toOption.getD (trivWitNet, [])).1.nodesSet := by
  have h := contract_trivializes_rank2 trivWitNet [2] trivWitNet_wf
    ((trivialize trivWitNet [2] [2]).toOption.getD (trivWitNet, [])) (by rfl)
  have h2 := h.1 2 (by decide) (by decide)
  exact ⟨h2.1, h2.2.1⟩

/-- The network of the repository's own `test_copy_with_dangling` scenario:
`x = 0` (rank 2), `y = 1` (rank 3), copy `c = 2` of rank 3 with edges to `x`,
to `y` and one dangling edge. -/
def dangnet : Network :=
  { nodes := [(0, ⟨[10, 11], false, 100, false⟩), (1, ⟨[14, 10, 12], false, 101, false⟩),
              (2, ⟨[11, 12, 13], true, 0, false⟩)],
    edges := [(10, ⟨0, 0, some 1, some 1, 3⟩), (11, ⟨0, 1, some 2, some 0, 3⟩),
              (12, ⟨1, 2, some 2, some 1, 3⟩), (13, ⟨2, 2, none, none, 3⟩),
              (14, ⟨1, 0, none, none, 3⟩)],
    nodesSet := [0, 1, 2], nextNodeId := 3, nextEdgeId := 20 }

/-- Extract the einsum expression and output-edge plan of an extended merge. -/
def extractPlanExpr : Except Err MergeResult → Option (String × List (Nat × Nat × Nat))
  | .ok (.extended _ _ expr plan _) => some (expr, plan)
  | _ => none

/-- C1 counterexample: in `dangnet` (the repository's own
`test_copy_with_dangling` scenario) copy node `2` has exactly two non-dangling
edges, yet the trivialization pass does not remove it from `shared_copies`
(the claim, as stated, requires removal before the einsum expression is
built); instead the copy flows into the einsum expression `"ab,cab->bc"` and
into the output-edge plan. -/
theorem contract_c1_counterexample :
    ((dangnet.getNodeD 2).slots.filter
        (fun e => ¬(dangnet.getEdgeD e).isDangling)).length = 2 ∧
    ¬(match trivialize dangnet [2] [2] with
      | .ok p => 2 ∉ p.2
      | .error _ => True) ∧
    extractPlanExpr (contract_between_with_copies (fun _ _ _ => 0) dangnet 0 1 [2])
      = some ("ab,cab->bc", [(13, 2, 1), (14, 1, 0)]) := by
  refine ⟨by decide, ?_, by rfl⟩
  have h : trivialize dangnet [2] [2] = .ok (dangnet, [2]) := by rfl
  rw [h]
  decide

/-- C3 (amended): the trivialization pass of the pair contractor accepts a
copy node in `shared_copies` only with total edge count exactly 2 (trivialized
away) or exactly 3 (left for the extended-expression path); on success every
listed copy had edge count 2 or 3 and every survivor has edge count 3.  The
original claim's "3 or more" fails: a copy with 4 edges is rejected with
`NotImplementedError` (see the counterexample), and the accepted/rejected
distinction is by total edge count, not by the number of non-dangling edges. -/
theorem trivialize_supports_only_2_3 (net : Network) (cs : List Nat)
    (out : Network × List Nat) (hnd : cs.Nodup)
    (hok : trivialize net cs cs = .ok out) :
    (∀ c ∈ cs, net.rankOf c = 2 ∨ net.rankOf c = 3) ∧
    (∀ c ∈ out.2, c ∈ cs ∧ net.rankOf c = 3) := by
  have h := trivialize_ok_ranks cs net cs out hok hnd hnd (fun _ hx => hx)
  exact ⟨h.1, fun c hc => ⟨(h.2.1 c hc).1, (h.2.1 c hc).2 (h.2.1 c hc).1⟩⟩

theorem trivialize_supports_only_2_3_witness :
    trivWitNet.rankOf 2 = 2 ∨ trivWitNet.rankOf 2 = 3 :=
  (trivialize_supports_only_2_3 trivWitNet [2]
    ((trivialize trivWitNet [2] [2]).toOption.getD (trivWitNet, []))
    (by decide) (by rfl)).1 2 (by decide)

/-- Counterexample network for C3: copy `2` of rank 4 shared between nodes `0`
and `1`, with two dangling edges. -/
def cex3net : Network :=
  { nodes := [(0, ⟨[20], false, 5, false⟩), (1, ⟨[21], false, 6, false⟩),
              (2, ⟨[20, 21, 22, 23], true, 0, false⟩)],
    edges := [(20, ⟨0, 0, some 2, some 0, 2⟩), (21, ⟨1, 0, some 2, some 1, 2⟩),
              (22, ⟨2, 2, none, none, 2⟩), (23, ⟨2, 3, none, none, 2⟩)],
    nodesSet := [0, 1, 2], nextNodeId := 3, nextEdgeId := 24 }

/-- C3 counterexample: the shared copy `2` has 4 edges (3 or more, which the
claim asserts to be supported via the extended-expression path) and 2
non-dangling edges (not 0 or 1, so the claim forbids rejection), yet the pair
contractor rejects the call with the unsupported-edge-count error
(`NotImplementedError`). -/
theorem contract_c3_counterexample :
    (cex3net.getNodeD 2).slots.length = 4 ∧
    ((cex3net.getNodeD 2).slots.filter
        (fun e => ¬(cex3net.getEdgeD e).isDangling)).length = 2 ∧
    contract_between_with_copies (fun _ _ _ => 0) cex3net 0 1 [2]
      = .error .notImplemented := by
  refine ⟨by decide, by decide, by rfl⟩

/-! ### Ghost description of the einsum build phase

Pure functions of the post-trivialization network that predict, axis by axis,
what the two walks of `contract_between_with_copies` produce. -/

/-- The slots of shared copy `c` that satisfy none of the inner loop's three
conditions (touching `node1`, `node1 = copy_edge.node1` for `node2`,
`node2 = copy_edge.node2`): the copy's dangling or third-party edges, which
the loop appends to the output. -/
def thirdCond (net : Network) (n1 n2 ce : Nat) : Bool :=
  let e := net.getEdgeD ce
  !(e.node1 == n1 || e.node2 == some n1) && !(e.node1 == n2) && !(e.node2 == some n2)

def copyThirdSlots (net : Network) (n1 n2 c : Nat) : List Nat :=
  (net.getNodeD c).slots.filter (thirdCond net n1 n2)

/-- The output-plan entries contributed by `node1`'s axis `i`. -/
def out1Entries (net : Network) (n1 n2 : Nat) (cs : List Nat) (i : Nat) :
    List (Nat × Nat × Nat) :=
  let eid := net.slotOf n1 i
  let e := net.getEdgeD eid
  let nb : Option Nat := if e.node1 == n1 then e.node2 else some e.node1
  match nb with
  | none => [(eid, n1, i)]
  | some m =>
    if m = n2 then []
    else if m ∈ cs then (copyThirdSlots net n1 n2 m).map (fun ce => (ce, m, i))
    else [(eid, n1, i)]

/-- Number of output entries contributed by `node1`'s axis `i`. -/
def out1Count (net : Network) (n1 n2 : Nat) (cs : List Nat) (i : Nat) : Nat :=
  (out1Entries net n1 n2 cs i).length

/-- The axis of `node1` whose slot edge touches copy `c` (unique under the
well-formedness below). -/
def axisTouching (net : Network) (n1 c : Nat) : Nat :=
  ((List.range (net.rankOf n1)).filter (fun i =>
    net.neighborOf n1 (net.slotOf n1 i) == some c)).headD 0

/-- The subscript character bound to `node2`'s axis `j` by the `node1` walk:
`some ch` when the axis's edge is shared with `node1` directly (the matching
`node1` axis) or through a shared copy (that copy's `node1` axis); `none` when
the axis survives and receives a fresh character. -/
def classify2char (net : Network) (n1 n2 : Nat) (cs : List Nat) (j : Nat) :
    Option Nat :=
  let eid := net.slotOf n2 j
  let e := net.getEdgeD eid
  let nb : Option Nat := if e.node1 == n2 then e.node2 else some e.node1
  match nb with
  | none => none
  | some m =>
    if m = n1 then some ((net.getNodeD n1).slots.indexOf eid)
    else if m ∈ cs then some (axisTouching net n1 m)
    else none

/-- `node2`'s axis `j` gets a fresh character. -/
def unbound2 (net : Network) (n1 n2 : Nat) (cs : List Nat) (j : Nat) : Bool :=
  (classify2char net n1 n2 cs j).isNone

/-- Fresh characters consumed by `node2` axes before `j`. -/
def unboundCount (net : Network) (n1 n2 : Nat) (cs : List Nat) (j : Nat) : Nat :=
  ((List.range j).filter (unbound2 net n1 n2 cs)).length

/-- The character of `node2`'s axis `j` in the final expression. -/
def char2 (net : Network) (n1 n2 : Nat) (cs : List Nat) (j : Nat) : Nat :=
  match classify2char net n1 n2 cs j with
  | some ch => ch
  | none => net.rankOf n1 + unboundCount net n1 n2 cs j

/-- The output-plan entry contributed by `node2`'s axis `j`, if any. -/
def out2Entry (net : Network) (n1 n2 : Nat) (cs : List Nat) (j : Nat) :
    Option (Nat × Nat × Nat) :=
  if unbound2 net n1 n2 cs j then some (net.slotOf n2 j, n2, j) else none

/-- Total number of distinct subscript characters the expression needs:
one per `node1` axis plus one per fresh `node2` axis. -/
def exprDemand (net : Network) (n1 n2 : Nat) (cs : List Nat) : Nat :=
  net.rankOf n1 + ((List.range (net.rankOf n2)).filter (unbound2 net n1 n2 cs)).length

/-- Slot `i` of node `n` holds an edge that records `(n, i)` as one endpoint
and does not have `n` at the other. -/
def endpointOkP (net : Network) (n i : Nat) : Prop :=
  match net.getEdge (net.slotOf n i) with
  | none => False
  | some e => (e.node1 = n ∧ e.axis1 = i ∧ e.node2 ≠ some n)
            ∨ (e.node2 = some n ∧ e.axis2 = some i ∧ e.node1 ≠ n)

instance (net : Network) (n i : Nat) : Decidable (endpointOkP net n i) := by
  unfold endpointOkP
  cases net.getEdge (net.slotOf n i) <;> infer_instance

/-- Slot `i` of node `x`: if the slot edge has an endpoint on `y`, then `y`'s
slot at that axis holds the same edge. -/
def coherentAt (net : Network) (x i y : Nat) : Prop :=
  ((net.getEdgeD (net.slotOf x i)).node1 = y →
    (net.getEdgeD (net.slotOf x i)).axis1 < net.rankOf y ∧
    net.slotOf y (net.getEdgeD (net.slotOf x i)).axis1 = net.slotOf x i) ∧
  ((net.getEdgeD (net.slotOf x i)).node2 = some y →
    match (net.getEdgeD (net.slotOf x i)).axis2 with
    | none => True
    | some a => a < net.rankOf y ∧ net.slotOf y a = net.slotOf x i)

instance (net : Network) (x i y : Nat) : Decidable (coherentAt net x i y) := by
  unfold coherentAt
  cases (net.getEdgeD (net.slotOf x i)).axis2 <;> infer_instance

/-- All node identifiers in the store are below the fresh counter. -/
def NodeStoreBound (net : Network) : Prop :=
  ∀ p ∈ net.nodes, p.1 < net.nextNodeId

instance (net : Network) : Decidable (NodeStoreBound net) := by
  unfold NodeStoreBound
  infer_instance

/-- Well-formedness of a `buildPhase` input (the state after trivialization),
under which the two walks are characterized below. -/
def BuildWf (net : Network) (n1 n2 : Nat) (cs : List Nat) : Prop :=
  n1 ≠ n2 ∧ n1 ∉ cs ∧ n2 ∉ cs ∧ cs.Nodup ∧
  EdgeStoreBound net ∧ NodeStoreBound net ∧ net.nodesSet.Nodup ∧
  (net.getNode n1).isSome ∧ (net.getNode n2).isSome ∧
  (∀ i ∈ List.range (net.rankOf n1), endpointOkP net n1 i) ∧
  (∀ j ∈ List.range (net.rankOf n2), endpointOkP net n2 j) ∧
  (∀ c ∈ cs, ∀ a ∈ List.range (net.rankOf c), endpointOkP net c a) ∧
  (∀ x ∈ n1 :: n2 :: cs, ∀ y ∈ n1 :: n2 :: cs,
    ∀ i ∈ List.range (net.rankOf x), coherentAt net x i y) ∧
  (∀ x ∈ n1 :: n2 :: cs, ∀ i ∈ List.range (net.rankOf x),
    ((net.getEdgeD (net.slotOf x i)).node2.isSome →
      (net.getEdgeD (net.slotOf x i)).axis2.isSome)) ∧
  (∀ c ∈ cs, net.rankOf c = 3 ∧
    ((List.range (net.rankOf n1)).filter (fun i =>
      net.neighborOf n1 (net.slotOf n1 i) == some c)).length = 1 ∧
    ((net.getNodeD c).slots.filter (fun s => (net.getEdgeD s).touches n2)).length ≥ 1) ∧
  (∀ c ∈ cs, ∀ s ∈ (net.getNodeD c).slots, ∀ c2 ∈ cs, c2 ≠ c →
    ¬((net.getEdgeD s).touches c2 = true)) ∧
  (∀ c ∈ cs, c ∈ net.nodesSet)

instance (net : Network) (n1 n2 : Nat) (cs : List Nat) :
    Decidable (BuildWf net n1 n2 cs) := by
  unfold BuildWf
  infer_instance

theorem endpointOkP_elim {net : Network} {n i : Nat} (h : endpointOkP net n i) :
    ∃ e, net.getEdge (net.slotOf n i) = some e ∧
      ((e.node1 = n ∧ e.axis1 = i ∧ e.node2 ≠ some n) ∨
       (e.node2 = some n ∧ e.axis2 = some i ∧ e.node1 ≠ n)) := by
  unfold endpointOkP at h
  cases he : net.getEdge (net.slotOf n i) with
  | none => rw [he] at h; cases h
  | some e =>
    rw [he] at h
    exact ⟨e, rfl, h⟩

theorem slots_distinct_of_endpointOk {net : Network} {n : Nat}
    (h : ∀ i ∈ List.range (net.rankOf n), endpointOkP net n i) :
    ∀ i j, i < net.rankOf n → j < net.rankOf n → i ≠ j →
      net.slotOf n i ≠ net.slotOf n j := by
  intro i j hi hj hij heq
  obtain ⟨e, he, hcase⟩ := endpointOkP_elim (h i (List.mem_range.mpr hi))
  obtain ⟨f, hf, hcase2⟩ := endpointOkP_elim (h j (List.mem_range.mpr hj))
  rw [heq, hf] at he
  have hef : f = e := (Option.some.injEq .. ▸ he :)
  subst hef
  rcases hcase with ⟨a1, a2, a3⟩ | ⟨a1, a2, a3⟩ <;>
    rcases hcase2 with ⟨g1, g2, g3⟩ | ⟨g1, g2, g3⟩
  · exact hij (a2.symm.trans g2)
  · exact a3 g1
  · exact a3 g1
  · rw [a2] at g2
    exact hij (Option.some.injEq .. ▸ g2 :)

theorem neighborOf_left {net : Network} {n eid : Nat} {e : Edge}
    (he : net.getEdge eid = some e) (h1 : e.node1 = n) :
    net.neighborOf n eid = e.node2 := by
  unfold Network.neighborOf
  simp [Network.getEdgeD, he, h1]

theorem neighborOf_right {net : Network} {n eid : Nat} {e : Edge}
    (he : net.getEdge eid = some e) (h1 : e.node1 ≠ n) :
    net.neighborOf n eid = some e.node1 := by
  unfold Network.neighborOf
  simp [Network.getEdgeD, he, h1]

theorem list_len1_mem {l : List Nat} {i : Nat} (h : l.length = 1) (hm : i ∈ l) :
    l = [i] := by
  match l, h with
  | [a], _ =>
    have : i = a := by simpa using hm
    rw [this]

theorem axisTouching_eq {net : Network} {n1 c i : Nat}
    (hlen : ((List.range (net.rankOf n1)).filter (fun i2 =>
      net.neighborOf n1 (net.slotOf n1 i2) == some c)).length = 1)
    (hi : i < net.rankOf n1)
    (hnb : net.neighborOf n1 (net.slotOf n1 i) = some c) :
    axisTouching net n1 c = i := by
  have hm : i ∈ (List.range (net.rankOf n1)).filter (fun i2 =>
      net.neighborOf n1 (net.slotOf n1 i2) == some c) := by
    rw [List.mem_filter]
    exact ⟨List.mem_range.mpr hi, by simp [hnb]⟩
  unfold axisTouching
  rw [list_len1_mem hlen hm]
  rfl

theorem axisTouching_lt {net : Network} {n1 c : Nat}
    (hlen : ((List.range (net.rankOf n1)).filter (fun i2 =>
      net.neighborOf n1 (net.slotOf n1 i2) == some c)).length = 1) :
    axisTouching net n1 c < net.rankOf n1 ∧
    net.neighborOf n1 (net.slotOf n1 (axisTouching net n1 c)) = some c := by
  obtain ⟨a, ha⟩ := List.length_eq_one.mp hlen
  have ham : a ∈ (List.range (net.rankOf n1)).filter (fun i2 =>
      net.neighborOf n1 (net.slotOf n1 i2) == some c) := by
    rw [ha]
    exact List.mem_cons_self _ _
  rw [List.mem_filter, List.mem_range] at ham
  have he : axisTouching net n1 c = a := by
    unfold axisTouching
    rw [ha]
    rfl
  rw [he]
  exact ⟨ham.1, by simpa using ham.2⟩

theorem indexOf_getD {l : List Nat} :
    ∀ (i : Nat), i < l.length →
      (∀ i2 j2, i2 < l.length → j2 < l.length → i2 ≠ j2 → l.getD i2 0 ≠ l.getD j2 0) →
      l.indexOf (l.getD i 0) = i := by
  induction l with
  | nil => intro i hi; simp at hi
  | cons a rest ih =>
    intro i hi hdist
    cases i with
    | zero =>
      show List.indexOf a (a :: rest) = 0
      simp [List.indexOf_cons_self]
    | succ i2 =>
      have hne : a ≠ (a :: rest).getD (i2 + 1) 0 :=
        hdist 0 (i2 + 1) (by simp) hi (by omega)
      have hgd : (a :: rest).getD (i2 + 1) 0 = rest.getD i2 0 := rfl
      rw [List.indexOf_cons_ne _ hne, hgd]
      have := ih i2 (by simpa using hi) ?_
      · rw [this]
      · intro i3 j3 h3 h4 h5
        exact hdist (i3 + 1) (j3 + 1) (by simpa using h3) (by simpa using h4)
          (by omega)

theorem flatten_range_succ {α : Type} (f : Nat → List α) (i : Nat) :
    ((List.range (i+1)).map f).flatten
      = ((List.range i).map f).flatten ++ f i := by
  rw [List.range_succ, List.map_append, List.flatten_append]
  simp

theorem map_const_replicate {α β : Type} (b : β) (l : List α) :
    l.map (fun _ => b) = List.replicate l.length b := by
  induction l with
  | nil => rfl
  | cons x rest ih => simp [List.replicate_succ, ih]

theorem getD_mem {l : List Nat} {a : Nat} (h : a < l.length) : l.getD a 0 ∈ l := by
  induction l generalizing a with
  | nil => simp at h
  | cons x rest ih =>
    cases a with
    | zero => exact List.mem_cons_self _ _
    | succ a2 => exact List.mem_cons_of_mem _ (ih (by simpa using h))

theorem nodup_of_getD_distinct {l : List Nat}
    (h : ∀ i j, i < l.length → j < l.length → i ≠ j → l.getD i 0 ≠ l.getD j 0) :
    l.Nodup := by
  induction l with
  | nil => exact List.nodup_nil
  | cons x rest ih =>
    refine List.nodup_cons.mpr ⟨?_, ih ?_⟩
    · intro hmem
      obtain ⟨⟨j, hj⟩, hget⟩ := List.mem_iff_get.mp hmem
      refine h 0 (j+1) (by simp) (by simpa using hj) (by omega) ?_
      show x = rest.getD j 0
      rw [List.getD_eq_get rest 0 hj, hget]
    · intro i j hi hj hij
      exact h (i+1) (j+1) (by simpa using hi) (by simpa using hj) (by omega)

theorem list_eq_of_getD {l1 l2 : List Nat} (hlen : l1.length = l2.length)
    (h : ∀ a, a < l1.length → l1.getD a 0 = l2.getD a 0) : l1 = l2 :=
  List.ext_get hlen (fun n h1 h2 => by
    have h3 := h n h1
    rwa [List.getD_eq_get l1 0 h1, List.getD_eq_get l2 0 h2] at h3)

theorem getD_of_indexOf {l : List Nat} {x i : Nat} (h : l.indexOf x = i)
    (hi : i < l.length) : l.getD i 0 = x := by
  subst h
  have hlt : l.indexOf x < l.length := hi
  rw [List.getD_eq_get l 0 hlt]
  exact List.indexOf_get hlt

theorem node_lt_of_getNode_isSome {net : Network} {n : Nat}
    (hb : NodeStoreBound net) (h : (net.getNode n).isSome) :
    n < net.nextNodeId := by
  obtain ⟨v, hv⟩ := Option.isSome_iff_exists.mp h
  exact hb _ (lookupA_mem hv)

theorem getNode_isSome_of_rank_pos {net : Network} {n : Nat}
    (h : 0 < net.rankOf n) : (net.getNode n).isSome := by
  cases hv : net.getNode n with
  | some v => rfl
  | none =>
    unfold Network.rankOf Network.getNodeD at h
    rw [hv] at h
    simp [defaultNode] at h

theorem nodeStoreBound_setSlot {net : Network} {n a e : Nat}
    (h : NodeStoreBound net) (hn : n < net.nextNodeId) :
    NodeStoreBound (net.setSlot n a e) := by
  intro p hp
  rcases mem_setA hp with hp2 | hp2
  · rw [hp2]
    exact hn
  · exact h p hp2

theorem nodeStoreBound_disconnect {net : Network} {s c i q b : Nat} {e : Edge}
    (he : net.getEdge s = some e) (hE : EdgeEnds e c i q b)
    (h : NodeStoreBound net) (hcb : c < net.nextNodeId) (hqb : q < net.nextNodeId) :
    NodeStoreBound (net.disconnect s).1 := by
  have hge : net.getEdgeD s = e := by simp [Network.getEdgeD, he]
  unfold Network.disconnect
  dsimp only []
  rw [hge]
  rcases hE with ⟨h1, h2, h3, h4⟩ | ⟨h1, h2, h3, h4⟩
  · rw [h1, h3, h4]
    refine nodeStoreBound_setSlot (nodeStoreBound_setSlot ?_ hcb) hqb
    exact h
  · rw [h1, h2, h3]
    refine nodeStoreBound_setSlot (nodeStoreBound_setSlot ?_ hqb) hcb
    exact h

/-- Disconnecting an edge endpointed on `(c, i)` leaves a fresh dangling edge
anchored on `c` in slot `i` of `c`. -/
theorem disconnect_c_side (net : Network) (c i s : Nat) (e : Edge) (q b : Nat)
    (he : net.getEdge s = some e) (hE : EdgeEnds e c i q b) (hq : q ≠ c)
    (hic : i < net.rankOf c) :
    ∃ d er, (net.disconnect s).1.slotOf c i = d ∧
      (net.disconnect s).1.getEdge d = some er ∧ er.isDangling = true ∧
      er.node1 = c ∧ (d = net.nextEdgeId ∨ d = net.nextEdgeId + 1) := by
  rcases hE with ⟨h1, h2, h3, h4⟩ | ⟨h1, h2, h3, h4⟩
  · refine ⟨net.nextEdgeId, ⟨e.node1, e.axis1, none, none, e.dim⟩, ?_, ?_, rfl, h1, .inl rfl⟩
    · have := disconnect_slot_first net s e q b he h3 h4
        (by rw [h1, h2]; exact hic)
        (by rw [h1, h2]; rintro ⟨hq2, -⟩; exact hq hq2)
      rw [h1, h2] at this
      exact this
    · exact disconnect_getEdge_new1 net s e he
  · refine ⟨net.nextEdgeId + 1, ⟨c, i, none, none, e.dim⟩, ?_, ?_, rfl, rfl, .inr rfl⟩
    · exact disconnect_slot_second net s e c i he h1 h2 hic
    · exact disconnect_getEdge_new2 net s e c i he h1 h2

/-- Invariant of the `node1` walk after processing axes `0, …, i-1`, relative
to the walk's input network `net0`. -/
def WalkInv1 (net0 : Network) (n1 n2 : Nat) (cs : List Nat) (i : Nat)
    (st : BuildSt) : Prop :=
  st.counter = i ∧
  st.node1Expr = List.range i ∧
  st.node2Expr = [] ∧
  st.outputExpr = ((List.range i).map (fun i2 =>
    List.replicate (out1Count net0 n1 n2 cs i2) i2)).flatten ∧
  st.outputEdges = ((List.range i).map (out1Entries net0 n1 n2 cs)).flatten ∧
  (∀ k, k < net0.nextEdgeId → st.net.getEdge k = net0.getEdge k) ∧
  EdgeStoreBound st.net ∧
  net0.nextEdgeId ≤ st.net.nextEdgeId ∧
  NodeStoreBound st.net ∧
  (∀ n, (st.net.getNodeD n).tensor = (net0.getNodeD n).tensor ∧
     (st.net.getNodeD n).isCopy = (net0.getNodeD n).isCopy ∧
     (st.net.getNodeD n).disabled = (net0.getNodeD n).disabled ∧
     st.net.rankOf n = net0.rankOf n) ∧
  st.net.nodesSet = net0.nodesSet ∧
  st.net.nextNodeId = net0.nextNodeId ∧
  (∀ i2, i ≤ i2 → i2 < net0.rankOf n1 → st.net.slotOf n1 i2 = net0.slotOf n1 i2) ∧
  (∀ c ∈ cs, i ≤ axisTouching net0 n1 c →
     ∀ a, a < net0.rankOf c → st.net.slotOf c a = net0.slotOf c a) ∧
  (∀ c ∈ cs, axisTouching net0 n1 c < i → ∀ a, a < net0.rankOf c →
     (st.net.slotOf c a = net0.slotOf c a ∧
        net0.slotOf c a ∈ copyThirdSlots net0 n1 n2 c) ∨
     (∃ e, st.net.getEdge (st.net.slotOf c a) = some e ∧ e.isDangling = true ∧
        e.node1 = c)) ∧
  (∀ j, j < net0.rankOf n2 →
    (match classify2char net0 n1 n2 cs j with
     | none => st.net.slotOf n2 j = net0.slotOf n2 j ∧
               lookupA st.edgeChar (net0.slotOf n2 j) = none
     | some ch =>
       (ch < i → lookupA st.edgeChar (st.net.slotOf n2 j) = some ch ∧
          st.net.slotOf n2 j < st.net.nextEdgeId ∧
          (st.net.slotOf n2 j = net0.slotOf n2 j ∨
            net0.nextEdgeId ≤ st.net.slotOf n2 j)) ∧
       (i ≤ ch → st.net.slotOf n2 j = net0.slotOf n2 j ∧
          lookupA st.edgeChar (net0.slotOf n2 j) = none))) ∧
  (∀ k v, lookupA st.edgeChar k = some v → k < st.net.nextEdgeId)

/-- When the 62 subscripts are exhausted, the next `node1` step fails. -/
theorem walk1Step_err (n1 n2 : Nat) (cs : List Nat) (st : BuildSt) (i : Nat)
    (h : 62 ≤ st.counter) : walk1Step n1 n2 cs st i = .error .rankExceedsAlphabet := by
  unfold walk1Step allocChar
  rw [if_neg (by omega)]

/-- An error at the head of the remaining axis list aborts the walk. -/
theorem walk1_cons_err {n1 n2 : Nat} {cs : List Nat} {st : BuildSt} {i : Nat}
    {rest : List Nat} {err : Err} (h : walk1Step n1 n2 cs st i = .error err) :
    walk1 n1 n2 cs (i :: rest) st = .error err := by
  unfold walk1
  rw [h]

theorem walk1_cons_ok {n1 n2 : Nat} {cs : List Nat} {st st2 : BuildSt} {i : Nat}
    {rest : List Nat} (h : walk1Step n1 n2 cs st i = .ok st2) :
    walk1 n1 n2 cs (i :: rest) st = walk1 n1 n2 cs rest st2 := by
  conv_lhs => unfold walk1
  rw [h]

/-- A slot of node `x` cannot hold an edge that has no endpoint on `x`. -/
theorem slot_ne_of_no_endpoint {net0 : Network} {x j ce : Nat} {ea : Edge}
    (hOk : endpointOkP net0 x j) (hea : net0.getEdge ce = some ea)
    (h1 : ea.node1 ≠ x) (h2 : ea.node2 ≠ some x) :
    net0.slotOf x j ≠ ce := by
  intro heq
  obtain ⟨f, hf, hcase⟩ := endpointOkP_elim hOk
  rw [heq, hea] at hf
  have hfe : ea = f := (Option.some.injEq .. ▸ hf :)
  subst hfe
  rcases hcase with ⟨g1, -, -⟩ | ⟨g1, -, -⟩
  · exact h1 g1
  · exact h2 g1

/-- Invariant of the inner loop over the edges of the shared copy `c` reached
from `node1`'s axis `i`, after the copy's edges in `P` have been processed. -/
def CopyInv (net0 : Network) (n1 n2 : Nat) (cs : List Nat) (c i : Nat)
    (P : List Nat) (stC : BuildSt) : Prop :=
  stC.counter = i + 1 ∧
  stC.node1Expr = List.range (i + 1) ∧
  stC.node2Expr = [] ∧
  stC.outputExpr = ((List.range i).map (fun i2 =>
      List.replicate (out1Count net0 n1 n2 cs i2) i2)).flatten
    ++ (P.filter (thirdCond net0 n1 n2)).map (fun _ => i) ∧
  stC.outputEdges = ((List.range i).map (out1Entries net0 n1 n2 cs)).flatten
    ++ (P.filter (thirdCond net0 n1 n2)).map (fun ce => (ce, c, i)) ∧
  (∀ k, k < net0.nextEdgeId → stC.net.getEdge k = net0.getEdge k) ∧
  EdgeStoreBound stC.net ∧
  net0.nextEdgeId ≤ stC.net.nextEdgeId ∧
  NodeStoreBound stC.net ∧
  (∀ n, (stC.net.getNodeD n).tensor = (net0.getNodeD n).tensor ∧
     (stC.net.getNodeD n).isCopy = (net0.getNodeD n).isCopy ∧
     (stC.net.getNodeD n).disabled = (net0.getNodeD n).disabled ∧
     stC.net.rankOf n = net0.rankOf n) ∧
  stC.net.nodesSet = net0.nodesSet ∧
  stC.net.nextNodeId = net0.nextNodeId ∧
  (∀ i2, i + 1 ≤ i2 → i2 < net0.rankOf n1 →
     stC.net.slotOf n1 i2 = net0.slotOf n1 i2) ∧
  (∀ c2 ∈ cs, c2 ≠ c → i ≤ axisTouching net0 n1 c2 →
     ∀ a, a < net0.rankOf c2 → stC.net.slotOf c2 a = net0.slotOf c2 a) ∧
  (∀ c2 ∈ cs, axisTouching net0 n1 c2 < i → ∀ a, a < net0.rankOf c2 →
     (stC.net.slotOf c2 a = net0.slotOf c2 a ∧
        net0.slotOf c2 a ∈ copyThirdSlots net0 n1 n2 c2) ∨
     (∃ er, stC.net.getEdge (stC.net.slotOf c2 a) = some er ∧
        er.isDangling = true ∧ er.node1 = c2)) ∧
  (∀ a, a < net0.rankOf c →
     if net0.slotOf c a ∈ P ∧ thirdCond net0 n1 n2 (net0.slotOf c a) = false
     then ∃ er, stC.net.getEdge (stC.net.slotOf c a) = some er ∧
            er.isDangling = true ∧ er.node1 = c
     else stC.net.slotOf c a = net0.slotOf c a) ∧
  (∀ j, j < net0.rankOf n2 →
    (match classify2char net0 n1 n2 cs j with
     | none => stC.net.slotOf n2 j = net0.slotOf n2 j ∧
               lookupA stC.edgeChar (net0.slotOf n2 j) = none
     | some ch =>
       (ch < i → lookupA stC.edgeChar (stC.net.slotOf n2 j) = some ch ∧
          stC.net.slotOf n2 j < stC.net.nextEdgeId ∧
          (stC.net.slotOf n2 j = net0.slotOf n2 j ∨
            net0.nextEdgeId ≤ stC.net.slotOf n2 j)) ∧
       (ch = i →
          if net0.slotOf n2 j ∈ P
          then lookupA stC.edgeChar (stC.net.slotOf n2 j) = some i ∧
               stC.net.slotOf n2 j < stC.net.nextEdgeId ∧
               net0.nextEdgeId ≤ stC.net.slotOf n2 j
          else stC.net.slotOf n2 j = net0.slotOf n2 j ∧
               lookupA stC.edgeChar (net0.slotOf n2 j) = none) ∧
       (i < ch → stC.net.slotOf n2 j = net0.slotOf n2 j ∧
          lookupA stC.edgeChar (net0.slotOf n2 j) = none))) ∧
  (∀ k v, lookupA stC.edgeChar k = some v → k < stC.net.nextEdgeId)

/-- Processing a copy edge that touches neither `node1` nor `node2` appends an
output entry and preserves the inner-loop invariant. -/
theorem copyStep_third (net0 : Network) (n1 n2 : Nat) (cs : List Nat) (c i : Nat)
    (P : List Nat) (stC : BuildSt) (ce : Nat) (ea : Edge)
    (hea : net0.getEdge ce = some ea)
    (hOk2 : ∀ j ∈ List.range (net0.rankOf n2), endpointOkP net0 n2 j)
    (hb1a : ea.node1 ≠ n1) (hb1b : ea.node2 ≠ some n1)
    (hb2 : ea.node1 ≠ n2) (hb3 : ea.node2 ≠ some n2)
    (hinv : CopyInv net0 n1 n2 cs c i P stC) :
    CopyInv net0 n1 n2 cs c i (P ++ [ce])
      { stC with outputExpr := stC.outputExpr ++ [i],
                 outputEdges := stC.outputEdges ++ [(ce, c, i)] } := by
  obtain ⟨J1, J2, J3, J4, J5, J6, J7, J8, J9, J10, J11, J12, J13, J14, J15,
    J16, J17, J18⟩ := hinv
  have hthird : thirdCond net0 n1 n2 ce = true := by
    simp [thirdCond, Network.getEdgeD, hea, hb1a, hb1b, hb2, hb3]
  refine ⟨J1, J2, J3, ?_, ?_, J6, J7, J8, J9, J10, J11, J12, J13, J14, J15,
    ?_, ?_, J18⟩
  · show stC.outputExpr ++ [i] = _
    rw [J4, List.filter_append]
    simp [List.filter_cons, hthird, List.append_assoc]
  · show stC.outputEdges ++ [(ce, c, i)] = _
    rw [J5, List.filter_append]
    simp [List.filter_cons, hthird, List.append_assoc]
  · intro a ha
    have h16 := J16 a ha
    by_cases hm : net0.slotOf c a ∈ P ∧
        thirdCond net0 n1 n2 (net0.slotOf c a) = false
    · rw [if_pos hm] at h16
      rw [if_pos ⟨List.mem_append_left _ hm.1, hm.2⟩]
      exact h16
    · rw [if_neg hm] at h16
      rw [if_neg ?_]
      · exact h16
      · rintro ⟨hmem, hth⟩
        rcases List.mem_append.mp hmem with h2 | h2
        · exact hm ⟨h2, hth⟩
        · rw [List.mem_singleton.mp h2] at hth
          rw [hthird] at hth
          cases hth
  · intro j hj
    have h17 := J17 j hj
    have hne : net0.slotOf n2 j ≠ ce :=
      slot_ne_of_no_endpoint (hOk2 j (List.mem_range.mpr hj)) hea hb2 hb3
    cases hcl : classify2char net0 n1 n2 cs j with
    | none =>
      simp only [hcl] at h17 ⊢
      exact h17
    | some ch =>
      simp only [hcl] at h17 ⊢
      obtain ⟨ha1, ha2, ha3⟩ := h17
      refine ⟨ha1, ?_, ha3⟩
      intro hch
      have h2 := ha2 hch
      by_cases hmem : net0.slotOf n2 j ∈ P
      · rw [if_pos hmem] at h2
        rw [if_pos (List.mem_append_left _ hmem)]
        exact h2
      · rw [if_neg hmem] at h2
        rw [if_neg ?_]
        · exact h2
        · intro h3
          rcases List.mem_append.mp h3 with h4 | h4
          · exact hmem h4
          · exact hne (List.mem_singleton.mp h4)

/-- Processing the copy edge shared with `node1` disconnects it and preserves
the inner-loop invariant. -/
theorem copyStep_n1 (net0 : Network) (n1 n2 : Nat) (cs : List Nat) (c i : Nat)
    (P : List Nat) (stC : BuildSt) (ce a : Nat) (ea : Edge)
    (hea : net0.getEdge ce = some ea) (hceB : ce < net0.nextEdgeId)
    (hceD : net0.slotOf c a = ce) (ha3 : a < net0.rankOf c)
    (hE2 : EdgeEnds ea c a n1 i)
    (hq : n1 ≠ c) (hn2c : n2 ≠ c) (hn1n2 : n1 ≠ n2)
    (hn1cs : n1 ∉ cs) (hi : i < net0.rankOf n1)
    (hAT : axisTouching net0 n1 c = i)
    (hOk2 : ∀ j ∈ List.range (net0.rankOf n2), endpointOkP net0 n2 j)
    (hOkC : ∀ a2 ∈ List.range (net0.rankOf c), endpointOkP net0 c a2)
    (hn1lt : n1 < net0.nextNodeId) (hclt : c < net0.nextNodeId)
    (hinv : CopyInv net0 n1 n2 cs c i P stC) :
    CopyInv net0 n1 n2 cs c i (P ++ [ce])
      { stC with net := (stC.net.disconnect ce).1 } := by
  obtain ⟨J1, J2, J3, J4, J5, J6, J7, J8, J9, J10, J11, J12, J13, J14, J15,
    J16, J17, J18⟩ := hinv
  have he' : stC.net.getEdge ce = some ea := by
    rw [J6 ce hceB]
    exact hea
  have hbq : i < stC.net.rankOf n1 := by
    rw [(J10 n1).2.2.2]
    exact hi
  have ha' : a < stC.net.rankOf c := by
    rw [(J10 c).2.2.2]
    exact ha3
  obtain ⟨hP1, hP2, hP3, hFr, hEold, hNf, hNid, hNnid, hNset⟩ :=
    disconnect_c_spec stC.net c a ce ea n1 i he' hE2 hq hbq
  obtain ⟨d, er, hdslot, hdrec, hddang, hdnode, hdfresh⟩ :=
    disconnect_c_side stC.net c a ce ea n1 i he' hE2 hq ha'
  have hthirdF : thirdCond net0 n1 n2 ce = false := by
    rcases hE2 with ⟨h1, h2, h3, h4⟩ | ⟨h1, h2, h3, h4⟩
    · simp [thirdCond, Network.getEdgeD, hea, h3]
    · simp [thirdCond, Network.getEdgeD, hea, h3]
  have hnoN2a : ea.node1 ≠ n2 := by
    rcases hE2 with ⟨h1, -, -, -⟩ | ⟨-, -, h3, -⟩
    · rw [h1]; exact fun h => hn2c h.symm
    · rw [h3]; exact hn1n2
  have hnoN2b : ea.node2 ≠ some n2 := by
    rcases hE2 with ⟨-, -, h3, -⟩ | ⟨h1, -, -, -⟩
    · rw [h3]; intro h; exact hn1n2 ((Option.some.injEq .. ▸ h :))
    · rw [h1]; intro h; exact hn2c ((Option.some.injEq .. ▸ h :)).symm
  have hFrn2 : ∀ j, (stC.net.disconnect ce).1.slotOf n2 j = stC.net.slotOf n2 j := by
    intro j
    exact hFr n2 j (by rintro ⟨h, -⟩; exact hn2c h)
      (by rintro ⟨h, -⟩; exact hn1n2 h.symm)
  refine ⟨J1, J2, J3, ?_, ?_, ?_, ?_, ?_, ?_, ?_, ?_, ?_, ?_, ?_, ?_, ?_, ?_, ?_⟩
  · show stC.outputExpr = _
    rw [J4, List.filter_append]
    simp [List.filter_cons, hthirdF]
  · show stC.outputEdges = _
    rw [J5, List.filter_append]
    simp [List.filter_cons, hthirdF]
  · intro k hk
    dsimp only []
    rw [hEold k (by omega) (by omega), J6 k hk]
  · exact storeBound_disconnect ce J7
  · dsimp only []
    rw [hNid]
    omega
  · exact nodeStoreBound_disconnect he' hE2 J9 (by rw [J12]; exact hclt)
      (by rw [J12]; exact hn1lt)
  · intro n
    have h := hNf n
    have h0 := J10 n
    exact ⟨h.1.trans h0.1, h.2.1.trans h0.2.1, h.2.2.1.trans h0.2.2.1,
      h.2.2.2.trans h0.2.2.2⟩
  · exact hNset.trans J11
  · exact hNnid.trans J12
  · intro i2 h1 h2
    dsimp only []
    rw [hFr n1 i2 (by rintro ⟨h3, -⟩; exact hq h3) (by rintro ⟨-, h3⟩; omega)]
    exact J13 i2 h1 h2
  · intro c2 hc2 hne2 hle a2 ha2
    dsimp only []
    rw [hFr c2 a2 (by rintro ⟨h3, -⟩; exact hne2 h3)
      (by rintro ⟨h3, -⟩; exact hn1cs (h3 ▸ hc2))]
    exact J14 c2 hc2 hne2 hle a2 ha2
  · intro c2 hc2 hlt a2 ha2
    have hc2c : c2 ≠ c := by
      intro h
      rw [h, hAT] at hlt
      omega
    have hfr2 : (stC.net.disconnect ce).1.slotOf c2 a2 = stC.net.slotOf c2 a2 :=
      hFr c2 a2 (by rintro ⟨h3, -⟩; exact hc2c h3)
        (by rintro ⟨h3, -⟩; exact hn1cs (h3 ▸ hc2))
    rcases J15 c2 hc2 hlt a2 ha2 with ⟨hs, hm⟩ | ⟨er2, hr2, hd2, hn2'⟩
    · left
      exact ⟨by dsimp only []; rw [hfr2]; exact hs, hm⟩
    · right
      have hb2 : stC.net.slotOf c2 a2 < stC.net.nextEdgeId :=
        getEdge_lt_of_bound J7 hr2
      refine ⟨er2, ?_, hd2, hn2'⟩
      dsimp only []
      rw [hfr2, hEold _ (by omega) (by omega)]
      exact hr2
  · intro a2 ha2
    by_cases haa : a2 = a
    · subst haa
      rw [if_pos ⟨List.mem_append_right _ (List.mem_singleton.mpr hceD),
        by rw [hceD]; exact hthirdF⟩]
      refine ⟨er, ?_, hddang, hdnode⟩
      dsimp only []
      rw [hdslot]
      exact hdrec
    · have hnecea2 : net0.slotOf c a2 ≠ ce := by
        rw [← hceD]
        exact slots_distinct_of_endpointOk hOkC a2 a ha2 ha3 haa
      have hfr2 : (stC.net.disconnect ce).1.slotOf c a2 = stC.net.slotOf c a2 :=
        hFr c a2 (by rintro ⟨-, h3⟩; exact haa h3)
          (by rintro ⟨h3, -⟩; exact hq h3.symm)
      have h16 := J16 a2 ha2
      by_cases hm : net0.slotOf c a2 ∈ P ∧
          thirdCond net0 n1 n2 (net0.slotOf c a2) = false
      · rw [if_pos hm] at h16
        rw [if_pos ⟨List.mem_append_left _ hm.1, hm.2⟩]
        obtain ⟨er2, hr2, hd2, hn2'⟩ := h16
        have hb2 : stC.net.slotOf c a2 < stC.net.nextEdgeId :=
          getEdge_lt_of_bound J7 hr2
        refine ⟨er2, ?_, hd2, hn2'⟩
        dsimp only []
        rw [hfr2, hEold _ (by omega) (by omega)]
        exact hr2
      · rw [if_neg hm] at h16
        rw [if_neg ?_]
        · dsimp only []
          rw [hfr2]
          exact h16
        · rintro ⟨hmem, hth⟩
          rcases List.mem_append.mp hmem with h2 | h2
          · exact hm ⟨h2, hth⟩
          · exact hnecea2 (List.mem_singleton.mp h2)
  · intro j hj
    have h17 := J17 j hj
    have hneJ : net0.slotOf n2 j ≠ ce :=
      slot_ne_of_no_endpoint (hOk2 j (List.mem_range.mpr hj)) hea hnoN2a hnoN2b
    cases hcl : classify2char net0 n1 n2 cs j with
    | none =>
      simp only [hcl] at h17 ⊢
      exact ⟨by rw [hFrn2 j]; exact h17.1, h17.2⟩
    | some ch =>
      simp only [hcl] at h17 ⊢
      obtain ⟨ha1, ha2', ha3'⟩ := h17
      refine ⟨?_, ?_, ?_⟩
      · intro hlt
        obtain ⟨hl, hb, hd2⟩ := ha1 hlt
        rw [hFrn2 j, hNid]
        exact ⟨hl, by omega, hd2⟩
      · intro hch
        have h2 := ha2' hch
        by_cases hmem : net0.slotOf n2 j ∈ P
        · rw [if_pos hmem] at h2
          rw [if_pos (List.mem_append_left _ hmem)]
          obtain ⟨hl, hb, hge⟩ := h2
          rw [hFrn2 j, hNid]
          exact ⟨hl, by omega, hge⟩
        · rw [if_neg hmem] at h2
          rw [if_neg ?_]
          · exact ⟨by rw [hFrn2 j]; exact h2.1, h2.2⟩
          · intro h3
            rcases List.mem_append.mp h3 with h4 | h4
            · exact hmem h4
            · exact hneJ (List.mem_singleton.mp h4)
      · intro hlt
        have h2 := ha3' hlt
        exact ⟨by rw [hFrn2 j]; exact h2.1, h2.2⟩
  · intro k v hkv
    have := J18 k v hkv
    dsimp only []
    rw [hNid]
    omega

/-- Processing a copy edge shared with `node2` disconnects it and binds its
fresh `node2`-side half to the copy's character, preserving the invariant. -/
theorem copyStep_n2 (net0 : Network) (n1 n2 : Nat) (cs : List Nat) (c i : Nat)
    (P : List Nat) (stC : BuildSt) (ce a b : Nat) (ea : Edge)
    (hea : net0.getEdge ce = some ea) (hceB : ce < net0.nextEdgeId)
    (hceD : net0.slotOf c a = ce) (ha3 : a < net0.rankOf c)
    (hE2 : EdgeEnds ea c a n2 b) (hbj : b < net0.rankOf n2)
    (hs2b : net0.slotOf n2 b = ce)
    (hclb : classify2char net0 n1 n2 cs b = some i)
    (hq : n2 ≠ c) (hn1c : n1 ≠ c) (hn1n2 : n1 ≠ n2)
    (hn1cs : n1 ∉ cs) (hn2cs : n2 ∉ cs)
    (hAT : axisTouching net0 n1 c = i)
    (hESB0 : EdgeStoreBound net0)
    (hOk2 : ∀ j ∈ List.range (net0.rankOf n2), endpointOkP net0 n2 j)
    (hOkC : ∀ a2 ∈ List.range (net0.rankOf c), endpointOkP net0 c a2)
    (hn2lt : n2 < net0.nextNodeId) (hclt : c < net0.nextNodeId)
    (hinv : CopyInv net0 n1 n2 cs c i P stC) :
    CopyInv net0 n1 n2 cs c i (P ++ [ce])
      { stC with net := (stC.net.disconnect ce).1,
                 edgeChar := setA stC.edgeChar
                   (partnerIdOf ea c stC.net.nextEdgeId) i } := by
  obtain ⟨J1, J2, J3, J4, J5, J6, J7, J8, J9, J10, J11, J12, J13, J14, J15,
    J16, J17, J18⟩ := hinv
  have he' : stC.net.getEdge ce = some ea := by
    rw [J6 ce hceB]
    exact hea
  have hbq : b < stC.net.rankOf n2 := by
    rw [(J10 n2).2.2.2]
    exact hbj
  have ha' : a < stC.net.rankOf c := by
    rw [(J10 c).2.2.2]
    exact ha3
  obtain ⟨hP1, hP2, hP3, hFr, hEold, hNf, hNid, hNnid, hNset⟩ :=
    disconnect_c_spec stC.net c a ce ea n2 b he' hE2 hq hbq
  obtain ⟨d, er, hdslot, hdrec, hddang, hdnode, hdfresh⟩ :=
    disconnect_c_side stC.net c a ce ea n2 b he' hE2 hq ha'
  have hpid : stC.net.nextEdgeId ≤ partnerIdOf ea c stC.net.nextEdgeId ∧
      partnerIdOf ea c stC.net.nextEdgeId < stC.net.nextEdgeId + 2 := by
    unfold partnerIdOf
    split <;> omega
  have hthirdF : thirdCond net0 n1 n2 ce = false := by
    rcases hE2 with ⟨h1, h2, h3, h4⟩ | ⟨h1, h2, h3, h4⟩
    · simp [thirdCond, Network.getEdgeD, hea, h3]
    · simp [thirdCond, Network.getEdgeD, hea, h3]
  have hjB : ∀ j, j < net0.rankOf n2 → net0.slotOf n2 j < net0.nextEdgeId := by
    intro j hj
    obtain ⟨f, hf, -⟩ := endpointOkP_elim (hOk2 j (List.mem_range.mpr hj))
    exact getEdge_lt_of_bound hESB0 hf
  have hdist2 := slots_distinct_of_endpointOk hOk2
  refine ⟨J1, J2, J3, ?_, ?_, ?_, ?_, ?_, ?_, ?_, ?_, ?_, ?_, ?_, ?_, ?_, ?_, ?_⟩
  · show stC.outputExpr = _
    rw [J4, List.filter_append]
    simp [List.filter_cons, hthirdF]
  · show stC.outputEdges = _
    rw [J5, List.filter_append]
    simp [List.filter_cons, hthirdF]
  · intro k hk
    dsimp only []
    rw [hEold k (by omega) (by omega), J6 k hk]
  · exact storeBound_disconnect ce J7
  · dsimp only []
    rw [hNid]
    omega
  · exact nodeStoreBound_disconnect he' hE2 J9 (by rw [J12]; exact hclt)
      (by rw [J12]; exact hn2lt)
  · intro n
    have h := hNf n
    have h0 := J10 n
    exact ⟨h.1.trans h0.1, h.2.1.trans h0.2.1, h.2.2.1.trans h0.2.2.1,
      h.2.2.2.trans h0.2.2.2⟩
  · exact hNset.trans J11
  · exact hNnid.trans J12
  · intro i2 h1 h2
    dsimp only []
    rw [hFr n1 i2 (by rintro ⟨h3, -⟩; exact hn1c h3)
      (by rintro ⟨h3, -⟩; exact hn1n2 h3)]
    exact J13 i2 h1 h2
  · intro c2 hc2 hne2 hle a2 ha2
    dsimp only []
    rw [hFr c2 a2 (by rintro ⟨h3, -⟩; exact hne2 h3)
      (by rintro ⟨h3, -⟩; exact hn2cs (h3 ▸ hc2))]
    exact J14 c2 hc2 hne2 hle a2 ha2
  · intro c2 hc2 hlt a2 ha2
    have hc2c : c2 ≠ c := by
      intro h
      rw [h, hAT] at hlt
      omega
    have hfr2 : (stC.net.disconnect ce).1.slotOf c2 a2 = stC.net.slotOf c2 a2 :=
      hFr c2 a2 (by rintro ⟨h3, -⟩; exact hc2c h3)
        (by rintro ⟨h3, -⟩; exact hn2cs (h3 ▸ hc2))
    rcases J15 c2 hc2 hlt a2 ha2 with ⟨hs, hm⟩ | ⟨er2, hr2, hd2, hn2'⟩
    · left
      exact ⟨by dsimp only []; rw [hfr2]; exact hs, hm⟩
    · right
      have hb2 : stC.net.slotOf c2 a2 < stC.net.nextEdgeId :=
        getEdge_lt_of_bound J7 hr2
      refine ⟨er2, ?_, hd2, hn2'⟩
      dsimp only []
      rw [hfr2, hEold _ (by omega) (by omega)]
      exact hr2
  · intro a2 ha2
    by_cases haa : a2 = a
    · subst haa
      rw [if_pos ⟨List.mem_append_right _ (List.mem_singleton.mpr hceD),
        by rw [hceD]; exact hthirdF⟩]
      refine ⟨er, ?_, hddang, hdnode⟩
      dsimp only []
      rw [hdslot]
      exact hdrec
    · have hnecea2 : net0.slotOf c a2 ≠ ce := by
        rw [← hceD]
        exact slots_distinct_of_endpointOk hOkC a2 a ha2 ha3 haa
      have hfr2 : (stC.net.disconnect ce).1.slotOf c a2 = stC.net.slotOf c a2 :=
        hFr c a2 (by rintro ⟨-, h3⟩; exact haa h3)
          (by rintro ⟨h3, -⟩; exact hq h3.symm)
      have h16 := J16 a2 ha2
      by_cases hm : net0.slotOf c a2 ∈ P ∧
          thirdCond net0 n1 n2 (net0.slotOf c a2) = false
      · rw [if_pos hm] at h16
        rw [if_pos ⟨List.mem_append_left _ hm.1, hm.2⟩]
        obtain ⟨er2, hr2, hd2, hn2'⟩ := h16
        have hb2 : stC.net.slotOf c a2 < stC.net.nextEdgeId :=
          getEdge_lt_of_bound J7 hr2
        refine ⟨er2, ?_, hd2, hn2'⟩
        dsimp only []
        rw [hfr2, hEold _ (by omega) (by omega)]
        exact hr2
      · rw [if_neg hm] at h16
        rw [if_neg ?_]
        · dsimp only []
          rw [hfr2]
          exact h16
        · rintro ⟨hmem, hth⟩
          rcases List.mem_append.mp hmem with h2 | h2
          · exact hm ⟨h2, hth⟩
          · exact hnecea2 (List.mem_singleton.mp h2)
  · intro j hj
    by_cases hjb : j = b
    · subst hjb
      simp only [hclb]
      refine ⟨fun h => absurd h (by omega), ?_, fun h => absurd h (by omega)⟩
      intro _
      rw [if_pos (List.mem_append_right _ (List.mem_singleton.mpr hs2b))]
      rw [hP3, hNid]
      exact ⟨lookupA_setA_self _ _ _, by omega, by omega⟩
    · have hnej : net0.slotOf n2 j ≠ ce := by
        rw [← hs2b]
        exact hdist2 j b hj hbj hjb
      have hfrj : (stC.net.disconnect ce).1.slotOf n2 j = stC.net.slotOf n2 j :=
        hFr n2 j (by rintro ⟨h3, -⟩; exact hq h3)
          (by rintro ⟨-, h3⟩; exact hjb h3)
      have h17 := J17 j hj
      have hkj := hjB j hj
      cases hcl : classify2char net0 n1 n2 cs j with
      | none =>
        simp only [hcl] at h17 ⊢
        refine ⟨by rw [hfrj]; exact h17.1, ?_⟩
        rw [lookupA_setA_ne _ _ _ _ (by omega)]
        exact h17.2
      | some ch =>
        simp only [hcl] at h17 ⊢
        obtain ⟨ha1, ha2', ha3'⟩ := h17
        refine ⟨?_, ?_, ?_⟩
        · intro hlt
          obtain ⟨hl, hb, hd2⟩ := ha1 hlt
          rw [hfrj, hNid, lookupA_setA_ne _ _ _ _ (by omega)]
          exact ⟨hl, by omega, hd2⟩
        · intro hch
          have h2 := ha2' hch
          by_cases hmem : net0.slotOf n2 j ∈ P
          · rw [if_pos hmem] at h2
            rw [if_pos (List.mem_append_left _ hmem)]
            obtain ⟨hl, hb, hge⟩ := h2
            rw [hfrj, hNid, lookupA_setA_ne _ _ _ _ (by omega)]
            exact ⟨hl, by omega, hge⟩
          · rw [if_neg hmem] at h2
            rw [if_neg ?_]
            · refine ⟨by rw [hfrj]; exact h2.1, ?_⟩
              rw [lookupA_setA_ne _ _ _ _ (by omega)]
              exact h2.2
            · intro h3
              rcases List.mem_append.mp h3 with h4 | h4
              · exact hmem h4
              · exact hnej (List.mem_singleton.mp h4)
        · intro hlt
          have h2 := ha3' hlt
          refine ⟨by rw [hfrj]; exact h2.1, ?_⟩
          rw [lookupA_setA_ne _ _ _ _ (by omega)]
          exact h2.2
  · intro k v hkv
    dsimp only [] at hkv ⊢
    rw [hNid]
    by_cases hk : k = partnerIdOf ea c stC.net.nextEdgeId
    · omega
    · rw [lookupA_setA_ne _ _ _ _ hk] at hkv
      have := J18 k v hkv
      omega

theorem processCopyEdge_br1 {n1 n2 c ch oldAxis : Nat} {st : BuildSt} {ce : Nat}
    (h : ((st.net.getEdgeD ce).node1 == n1
        || (st.net.getEdgeD ce).node2 == some n1) = true) :
    processCopyEdge n1 n2 c ch oldAxis st ce
      = { st with net := (st.net.disconnect ce).1 } := by
  unfold processCopyEdge
  dsimp only []
  rw [if_pos h]

theorem processCopyEdge_br2 {n1 n2 c ch oldAxis : Nat} {st : BuildSt} {ce : Nat}
    (h1 : ((st.net.getEdgeD ce).node1 == n1
        || (st.net.getEdgeD ce).node2 == some n1) = false)
    (h2 : ((st.net.getEdgeD ce).node1 == n2) = true) :
    processCopyEdge n1 n2 c ch oldAxis st ce
      = { st with net := (st.net.disconnect ce).1,
                  edgeChar := setA st.edgeChar (st.net.disconnect ce).2.1 ch } := by
  unfold processCopyEdge
  dsimp only []
  rw [if_neg (by simp [h1]), if_pos h2]

theorem processCopyEdge_br3 {n1 n2 c ch oldAxis : Nat} {st : BuildSt} {ce : Nat}
    (h1 : ((st.net.getEdgeD ce).node1 == n1
        || (st.net.getEdgeD ce).node2 == some n1) = false)
    (h2 : ((st.net.getEdgeD ce).node1 == n2) = false)
    (h3 : ((st.net.getEdgeD ce).node2 == some n2) = true) :
    processCopyEdge n1 n2 c ch oldAxis st ce
      = { st with net := (st.net.disconnect ce).1,
                  edgeChar := setA st.edgeChar (st.net.disconnect ce).2.2 ch } := by
  unfold processCopyEdge
  dsimp only []
  rw [if_neg (by simp [h1]), if_neg (by simp [h2]), if_pos h3]

theorem processCopyEdge_br4 {n1 n2 c ch oldAxis : Nat} {st : BuildSt} {ce : Nat}
    (h1 : ((st.net.getEdgeD ce).node1 == n1
        || (st.net.getEdgeD ce).node2 == some n1) = false)
    (h2 : ((st.net.getEdgeD ce).node1 == n2) = false)
    (h3 : ((st.net.getEdgeD ce).node2 == some n2) = false) :
    processCopyEdge n1 n2 c ch oldAxis st ce
      = { st with outputExpr := st.outputExpr ++ [ch],
                  outputEdges := st.outputEdges ++ [(ce, c, oldAxis)] } := by
  unfold processCopyEdge
  dsimp only []
  rw [if_neg (by simp [h1]), if_neg (by simp [h2]), if_neg (by simp [h3])]

/-- One step of the inner copy-edge loop preserves the invariant, for any edge
of the copy `c` that has not been processed yet. -/
theorem processCopyEdge_spec (net0 : Network) (n1 n2 : Nat) (cs : List Nat)
    (c i : Nat) (hwf : BuildWf net0 n1 n2 cs) (hc : c ∈ cs)
    (hAT : axisTouching net0 n1 c = i) (hi : i < net0.rankOf n1)
    (P S : List Nat) (ce : Nat)
    (hsplit : P ++ ce :: S = (net0.getNodeD c).slots)
    (stC : BuildSt) (hinv : CopyInv net0 n1 n2 cs c i P stC) :
    CopyInv net0 n1 n2 cs c i (P ++ [ce]) (processCopyEdge n1 n2 c i i stC ce) := by
  obtain ⟨hne, hn1cs, hn2cs, hcsnd, hESB0, hNSB0, hndset, hn1s, hn2s, hOk1,
    hOk2, hOkCall, hCoh, hRec, hC3, hDisj, hCsIn⟩ := hwf
  have hOkC := hOkCall c hc
  have hcn1 : c ≠ n1 := fun h => hn1cs (h ▸ hc)
  have hcn2 : c ≠ n2 := fun h => hn2cs (h ▸ hc)
  have hrc3 : net0.rankOf c = 3 := (hC3 c hc).1
  have hlen1 := (hC3 c hc).2.1
  have hrcpos : 0 < net0.rankOf c := by rw [hrc3]; omega
  have hclt : c < net0.nextNodeId :=
    node_lt_of_getNode_isSome hNSB0 (getNode_isSome_of_rank_pos hrcpos)
  have hn1lt : n1 < net0.nextNodeId := node_lt_of_getNode_isSome hNSB0 hn1s
  have hn2lt : n2 < net0.nextNodeId := node_lt_of_getNode_isSome hNSB0 hn2s
  have hceL : ce ∈ (net0.getNodeD c).slots := by
    rw [← hsplit]
    exact List.mem_append_right _ (List.mem_cons_self _ _)
  obtain ⟨⟨a, haL⟩, hget⟩ := List.mem_iff_get.mp hceL
  have hceD : net0.slotOf c a = ce := by
    unfold Network.slotOf
    rw [List.getD_eq_get _ _ haL]
    exact hget
  have ha3 : a < net0.rankOf c := haL
  obtain ⟨ea, hea0, hor⟩ := endpointOkP_elim (hOkC a (List.mem_range.mpr ha3))
  rw [hceD] at hea0
  have hea : net0.getEdge ce = some ea := hea0
  have hgeD0 : net0.getEdgeD ce = ea := by simp [Network.getEdgeD, hea]
  have hceB : ce < net0.nextEdgeId := getEdge_lt_of_bound hESB0 hea
  have he' : stC.net.getEdge ce = some ea := by
    rw [hinv.2.2.2.2.2.1 ce hceB]
    exact hea
  have hgeD : stC.net.getEdgeD ce = ea := by simp [Network.getEdgeD, he']
  have hcoh1 := hCoh c (by simp [hc]) n1 (by simp) a (List.mem_range.mpr ha3)
  have hcoh2 := hCoh c (by simp [hc]) n2 (by simp) a (List.mem_range.mpr ha3)
  unfold coherentAt at hcoh1 hcoh2
  rw [hceD, hgeD0] at hcoh1 hcoh2
  have hrec := hRec c (by simp [hc]) a (List.mem_range.mpr ha3)
  rw [hceD, hgeD0] at hrec
  by_cases hT1 : ea.node1 = n1 ∨ ea.node2 = some n1
  · -- the edge shared with node1
    have hbool : ((stC.net.getEdgeD ce).node1 == n1
        || (stC.net.getEdgeD ce).node2 == some n1) = true := by
      rw [hgeD]
      rcases hT1 with h | h <;> simp [h]
    rw [processCopyEdge_br1 hbool]
    rcases hor with ⟨ho1, ho2, ho3⟩ | ⟨ho1, ho2, ho3⟩
    · -- stored as (c, a) → (n1, b)
      have hn1side : ea.node2 = some n1 := by
        rcases hT1 with h | h
        · exact absurd (h ▸ ho1 : (n1 : Nat) = c) (fun h2 => hcn1 h2.symm)
        · exact h
      obtain ⟨b, hax2⟩ := Option.isSome_iff_exists.mp
        (hrec (by rw [hn1side]; rfl))
      simp only [hax2] at hcoh1
      obtain ⟨hblt, hbslot⟩ := hcoh1.2 hn1side
      have hnb : net0.neighborOf n1 ce = some c := by
        rw [neighborOf_right hea (by rw [ho1]; exact hcn1), ho1]
      have hbi : b = i := by
        rw [← hAT]
        exact (axisTouching_eq hlen1 hblt (by rw [hbslot]; exact hnb)).symm
      exact copyStep_n1 net0 n1 n2 cs c i P stC ce a ea hea hceB hceD ha3
        (Or.inl ⟨ho1, ho2, hn1side, by rw [hax2, hbi]⟩)
        (fun h => hcn1 h.symm) (fun h => hcn2 h.symm) hne hn1cs hi hAT
        hOk2 hOkC hn1lt hclt hinv
    · -- stored as (n1, b) → (c, a)
      have hn1side : ea.node1 = n1 := by
        rcases hT1 with h | h
        · exact h
        · exact absurd ((Option.some.injEq .. ▸ (h ▸ ho1 : some n1 = some c) :))
            (fun h2 => hcn1 h2.symm)
      obtain ⟨hblt, hbslot⟩ := hcoh1.1 hn1side
      have hnb : net0.neighborOf n1 ce = some c := by
        rw [neighborOf_left hea hn1side, ho1]
      have hbi : ea.axis1 = i := by
        rw [← hAT]
        exact (axisTouching_eq hlen1 hblt (by rw [hbslot]; exact hnb)).symm
      exact copyStep_n1 net0 n1 n2 cs c i P stC ce a ea hea hceB hceD ha3
        (Or.inr ⟨ho1, ho2, hn1side, hbi⟩)
        (fun h => hcn1 h.symm) (fun h => hcn2 h.symm) hne hn1cs hi hAT
        hOk2 hOkC hn1lt hclt hinv
  · push_neg at hT1
    obtain ⟨hT1a, hT1b⟩ := hT1
    have hbool1 : ((stC.net.getEdgeD ce).node1 == n1
        || (stC.net.getEdgeD ce).node2 == some n1) = false := by
      rw [hgeD]
      simp [hT1a, hT1b]
    by_cases hT2 : ea.node1 = n2
    · -- the edge shared with node2, stored as (n2, b) → (c, a)
      have hbool2 : ((stC.net.getEdgeD ce).node1 == n2) = true := by
        rw [hgeD]
        simp [hT2]
      rw [processCopyEdge_br2 hbool1 hbool2]
      rcases hor with ⟨ho1, -, -⟩ | ⟨ho1, ho2, ho3⟩
      · exact absurd (hT2 ▸ ho1 : (n2 : Nat) = c) (fun h2 => hcn2 h2.symm)
      · obtain ⟨hbj, hs2b⟩ := hcoh2.1 hT2
        have hclb : classify2char net0 n1 n2 cs ea.axis1 = some i := by
          unfold classify2char
          dsimp only []
          rw [hs2b, hgeD0]
          simp [hT2, ho1, hcn1, Ne.symm hcn1, hc, hAT]
        have hr21 : (stC.net.disconnect ce).2.1
            = partnerIdOf ea c stC.net.nextEdgeId := by
          rw [(disconnect_ids stC.net ce).1, partnerIdOf,
            if_neg (by rw [hT2]; exact fun h => hcn2 h.symm)]
        rw [hr21]
        exact copyStep_n2 net0 n1 n2 cs c i P stC ce a ea.axis1 ea hea hceB
          hceD ha3 (Or.inr ⟨ho1, ho2, hT2, rfl⟩) hbj hs2b hclb
          (fun h => hcn2 h.symm) (fun h => hcn1 h.symm) hne hn1cs hn2cs hAT
          hESB0 hOk2 hOkC hn2lt hclt hinv
    · by_cases hT3 : ea.node2 = some n2
      · -- the edge shared with node2, stored as (c, a) → (n2, b)
        have hbool2 : ((stC.net.getEdgeD ce).node1 == n2) = false := by
          rw [hgeD]
          simp [hT2]
        have hbool3 : ((stC.net.getEdgeD ce).node2 == some n2) = true := by
          rw [hgeD]
          simp [hT3]
        rw [processCopyEdge_br3 hbool1 hbool2 hbool3]
        rcases hor with ⟨ho1, ho2, ho3⟩ | ⟨ho1, -, -⟩
        · obtain ⟨b, hax2⟩ := Option.isSome_iff_exists.mp
            (hrec (by rw [hT3]; rfl))
          simp only [hax2] at hcoh2
          obtain ⟨hbj, hs2b⟩ := hcoh2.2 hT3
          have hclb : classify2char net0 n1 n2 cs b = some i := by
            unfold classify2char
            dsimp only []
            rw [hs2b, hgeD0]
            simp [hT2, ho1, hcn2, hcn1, Ne.symm hcn1, hc, hAT]
          have hr22 : (stC.net.disconnect ce).2.2
              = partnerIdOf ea c stC.net.nextEdgeId := by
            rw [(disconnect_ids stC.net ce).2.1, partnerIdOf, if_pos ho1]
          rw [hr22]
          exact copyStep_n2 net0 n1 n2 cs c i P stC ce a b ea hea hceB
            hceD ha3 (Or.inl ⟨ho1, ho2, hT3, hax2⟩) hbj hs2b hclb
            (fun h => hcn2 h.symm) (fun h => hcn1 h.symm) hne hn1cs hn2cs hAT
            hESB0 hOk2 hOkC hn2lt hclt hinv
        · exact absurd
            ((Option.some.injEq .. ▸ (hT3 ▸ ho1 : some n2 = some c) :))
            (fun h2 => hcn2 h2.symm)
      · -- an edge to a third node
        have hbool2 : ((stC.net.getEdgeD ce).node1 == n2) = false := by
          rw [hgeD]
          simp [hT2]
        have hbool3 : ((stC.net.getEdgeD ce).node2 == some n2) = false := by
          rw [hgeD]
          simp [hT3]
        rw [processCopyEdge_br4 hbool1 hbool2 hbool3]
        exact copyStep_third net0 n1 n2 cs c i P stC ce ea hea hOk2
          hT1a hT1b hT2 hT3 hinv

/-- The full inner loop over the copy's edges preserves the invariant. -/
theorem processCopy_fold (net0 : Network) (n1 n2 : Nat) (cs : List Nat)
    (c i : Nat) (hwf : BuildWf net0 n1 n2 cs) (hc : c ∈ cs)
    (hAT : axisTouching net0 n1 c = i) (hi : i < net0.rankOf n1) :
    ∀ (S P : List Nat) (stC : BuildSt),
      P ++ S = (net0.getNodeD c).slots →
      CopyInv net0 n1 n2 cs c i P stC →
      CopyInv net0 n1 n2 cs c i (net0.getNodeD c).slots
        (S.foldl (processCopyEdge n1 n2 c i i) stC) := by
  intro S
  induction S with
  | nil =>
    intro P stC hsplit hinv
    rw [List.append_nil] at hsplit
    rw [← hsplit]
    exact hinv
  | cons ce S2 ih =>
    intro P stC hsplit hinv
    have hstep := processCopyEdge_spec net0 n1 n2 cs c i hwf hc hAT hi P S2 ce
      hsplit stC hinv
    have hsplit2 : (P ++ [ce]) ++ S2 = (net0.getNodeD c).slots := by
      rw [List.append_assoc]
      simpa using hsplit
    exact ih (P ++ [ce]) _ hsplit2 hstep

/-- A `node2` axis whose walk-one character is `i` either shares its edge with
`node1`'s axis `i` directly, or reaches it through a shared copy, whose slot
list then contains the axis's edge. -/
theorem classify_i_cases (net0 : Network) (n1 n2 : Nat) (cs : List Nat)
    (hwf : BuildWf net0 n1 n2 cs) {i j : Nat}
    (hi : i < net0.rankOf n1) (hj : j < net0.rankOf n2)
    (hcl : classify2char net0 n1 n2 cs j = some i) :
    net0.slotOf n2 j = net0.slotOf n1 i ∨
    (∃ c2, c2 ∈ cs ∧ axisTouching net0 n1 c2 = i ∧
      net0.neighborOf n1 (net0.slotOf n1 i) = some c2 ∧
      net0.slotOf n2 j ∈ (net0.getNodeD c2).slots) := by
  obtain ⟨hne, hn1cs, hn2cs, hcsnd, hESB0, hNSB0, hndset, hn1s, hn2s, hOk1,
    hOk2, hOkCall, hCoh, hRec, hC3, hDisj, hCsIn⟩ := hwf
  obtain ⟨e2, he2, hor2⟩ := endpointOkP_elim (hOk2 j (List.mem_range.mpr hj))
  have hge2 : net0.getEdgeD (net0.slotOf n2 j) = e2 := by
    simp [Network.getEdgeD, he2]
  unfold classify2char at hcl
  dsimp only [] at hcl
  rw [hge2] at hcl
  by_cases hb1 : e2.node1 = n2
  · -- stored as (n2, j) → other endpoint in node2
    rw [if_pos (by simp [hb1])] at hcl
    cases hnd : e2.node2 with
    | none =>
      rw [hnd] at hcl
      cases hcl
    | some m =>
      rw [hnd] at hcl
      dsimp only [] at hcl
      by_cases hmn1 : m = n1
      · rw [if_pos hmn1] at hcl
        left
        have hix := (Option.some.injEq .. ▸ hcl :)
        have := getD_of_indexOf (l := (net0.getNodeD n1).slots) hix hi
        exact this.symm
      · rw [if_neg hmn1] at hcl
        by_cases hmcs : m ∈ cs
        · rw [if_pos hmcs] at hcl
          have hatm : axisTouching net0 n1 m = i := (Option.some.injEq .. ▸ hcl :)
          right
          obtain ⟨hlt2, hnb2⟩ := axisTouching_lt (hC3 m hmcs).2.1
          rw [hatm] at hnb2
          refine ⟨m, hmcs, hatm, hnb2, ?_⟩
          obtain ⟨y, hy⟩ := Option.isSome_iff_exists.mp
            (hRec n2 (by simp) j (List.mem_range.mpr hj)
              (by rw [hge2, hnd]; rfl))
          rw [hge2] at hy
          have hcoh := hCoh n2 (by simp) m (by simp [hmcs]) j
            (List.mem_range.mpr hj)
          unfold coherentAt at hcoh
          rw [hge2] at hcoh
          simp only [hy] at hcoh
          obtain ⟨hylt, hyslot⟩ := hcoh.2 (by rw [hnd])
          rw [← hyslot]
          exact getD_mem hylt
        · rw [if_neg hmcs] at hcl
          cases hcl
  · -- stored with node2's endpoint second
    rw [if_neg (by simp [hb1])] at hcl
    dsimp only [] at hcl
    by_cases hmn1 : e2.node1 = n1
    · rw [if_pos hmn1] at hcl
      left
      have hix := (Option.some.injEq .. ▸ hcl :)
      have := getD_of_indexOf (l := (net0.getNodeD n1).slots) hix hi
      exact this.symm
    · rw [if_neg hmn1] at hcl
      by_cases hmcs : e2.node1 ∈ cs
      · rw [if_pos hmcs] at hcl
        have hatm : axisTouching net0 n1 e2.node1 = i :=
          (Option.some.injEq .. ▸ hcl :)
        right
        obtain ⟨hlt2, hnb2⟩ := axisTouching_lt (hC3 e2.node1 hmcs).2.1
        rw [hatm] at hnb2
        refine ⟨e2.node1, hmcs, hatm, hnb2, ?_⟩
        have hcoh := hCoh n2 (by simp) e2.node1 (by simp [hmcs]) j
          (List.mem_range.mpr hj)
        unfold coherentAt at hcoh
        rw [hge2] at hcoh
        obtain ⟨hylt, hyslot⟩ := hcoh.1 rfl
        rw [← hyslot]
        exact getD_mem hylt
      · rw [if_neg hmcs] at hcl
        cases hcl

/-- Walk-one invariant step for a surviving `node1` axis (dangling edge or
edge to an ordinary neighbor). -/
theorem walk1_surv_inv (net0 : Network) (n1 n2 : Nat) (cs : List Nat)
    (hwf : BuildWf net0 n1 n2 cs) (i : Nat) (st : BuildSt)
    (hi : i < net0.rankOf n1)
    (hnb_not_cs : ∀ c2 ∈ cs, net0.neighborOf n1 (net0.slotOf n1 i) ≠ some c2)
    (hno_n2slot : ∀ j, j < net0.rankOf n2 →
      net0.slotOf n2 j ≠ net0.slotOf n1 i)
    (hout1 : out1Entries net0 n1 n2 cs i = [(net0.slotOf n1 i, n1, i)])
    (hinv : WalkInv1 net0 n1 n2 cs i st) :
    WalkInv1 net0 n1 n2 cs (i + 1)
      { st with counter := i + 1, node1Expr := st.node1Expr ++ [i],
                outputExpr := st.outputExpr ++ [i],
                outputEdges := st.outputEdges ++ [(net0.slotOf n1 i, n1, i)] } := by
  have hwf2 := hwf
  obtain ⟨hne, hn1cs, hn2cs, hcsnd, hESB0, hNSB0, hndset, hn1s, hn2s, hOk1,
    hOk2, hOkCall, hCoh, hRec, hC3, hDisj, hCsIn⟩ := hwf2
  obtain ⟨I1, I2, I3, I4, I5, I6, I7, I8, I9, I10, I11, I12, I13, I14, I15,
    I16, I17⟩ := hinv
  refine ⟨rfl, ?_, I3, ?_, ?_, I6, I7, I8, I9, I10, I11, I12, ?_, ?_, ?_, ?_, I17⟩
  · show st.node1Expr ++ [i] = _
    rw [I2]
    exact (List.range_succ i).symm
  · show st.outputExpr ++ [i] = _
    rw [I4, flatten_range_succ]
    simp [out1Count, hout1]
  · show st.outputEdges ++ [(net0.slotOf n1 i, n1, i)] = _
    rw [I5, flatten_range_succ, hout1]
  · intro i2 h1 h2
    exact I13 i2 (by omega) h2
  · intro c2 hc2 hle a ha
    exact I14 c2 hc2 (by omega) a ha
  · intro c2 hc2 hlt a ha
    by_cases h : axisTouching net0 n1 c2 < i
    · exact I15 c2 hc2 h a ha
    · have heq : axisTouching net0 n1 c2 = i := by omega
      obtain ⟨-, hnb2⟩ := axisTouching_lt (hC3 c2 hc2).2.1
      rw [heq] at hnb2
      exact absurd hnb2 (hnb_not_cs c2 hc2)
  · intro j hj
    have h16 := I16 j hj
    cases hcl : classify2char net0 n1 n2 cs j with
    | none =>
      simp only [hcl] at h16 ⊢
      exact h16
    | some ch =>
      simp only [hcl] at h16 ⊢
      obtain ⟨hA, hB⟩ := h16
      refine ⟨?_, fun hge => hB (by omega)⟩
      intro hlt
      by_cases hch : ch < i
      · exact hA hch
      · exfalso
        have hcli : classify2char net0 n1 n2 cs j = some i := by
          rw [hcl, show ch = i by omega]
        rcases classify_i_cases net0 n1 n2 cs hwf hi hj hcli with hl | hr
        · exact hno_n2slot j hj hl
        · obtain ⟨c2, hc2, -, hnb2, -⟩ := hr
          exact hnb_not_cs c2 hc2 hnb2

/-- Walk-one invariant step for a `node1` axis whose edge is shared with
`node2` directly: the edge is bound to the fresh character. -/
theorem walk1_direct_inv (net0 : Network) (n1 n2 : Nat) (cs : List Nat)
    (hwf : BuildWf net0 n1 n2 cs) (i : Nat) (st : BuildSt)
    (hi : i < net0.rankOf n1)
    (hnbn2 : net0.neighborOf n1 (net0.slotOf n1 i) = some n2)
    (hEb : net0.slotOf n1 i < net0.nextEdgeId)
    (horig : ∀ j, j < net0.rankOf n2 → net0.slotOf n2 j = net0.slotOf n1 i →
      classify2char net0 n1 n2 cs j = some i)
    (hout1 : out1Entries net0 n1 n2 cs i = [])
    (hinv : WalkInv1 net0 n1 n2 cs i st) :
    WalkInv1 net0 n1 n2 cs (i + 1)
      { st with counter := i + 1, node1Expr := st.node1Expr ++ [i],
                edgeChar := setA st.edgeChar (net0.slotOf n1 i) i } := by
  have hwf2 := hwf
  obtain ⟨hne, hn1cs, hn2cs, hcsnd, hESB0, hNSB0, hndset, hn1s, hn2s, hOk1,
    hOk2, hOkCall, hCoh, hRec, hC3, hDisj, hCsIn⟩ := hwf2
  obtain ⟨I1, I2, I3, I4, I5, I6, I7, I8, I9, I10, I11, I12, I13, I14, I15,
    I16, I17⟩ := hinv
  refine ⟨rfl, ?_, I3, ?_, ?_, I6, I7, I8, I9, I10, I11, I12, ?_, ?_, ?_, ?_, ?_⟩
  · show st.node1Expr ++ [i] = _
    rw [I2]
    exact (List.range_succ i).symm
  · show st.outputExpr = _
    rw [I4, flatten_range_succ]
    simp [out1Count, hout1]
  · show st.outputEdges = _
    rw [I5, flatten_range_succ, hout1]
    simp
  · intro i2 h1 h2
    exact I13 i2 (by omega) h2
  · intro c2 hc2 hle a ha
    exact I14 c2 hc2 (by omega) a ha
  · intro c2 hc2 hlt a ha
    by_cases h : axisTouching net0 n1 c2 < i
    · exact I15 c2 hc2 h a ha
    · have heq : axisTouching net0 n1 c2 = i := by omega
      obtain ⟨-, hnb2⟩ := axisTouching_lt (hC3 c2 hc2).2.1
      rw [heq, hnbn2] at hnb2
      have : n2 = c2 := (Option.some.injEq .. ▸ hnb2 :)
      exact absurd (this ▸ hc2) hn2cs
  · intro j hj
    have h16 := I16 j hj
    cases hcl : classify2char net0 n1 n2 cs j with
    | none =>
      simp only [hcl] at h16 ⊢
      refine ⟨h16.1, ?_⟩
      rw [lookupA_setA_ne _ _ _ _ ?_]
      · exact h16.2
      · intro heq
        have := horig j hj heq
        rw [hcl] at this
        cases this
    | some ch =>
      simp only [hcl] at h16 ⊢
      obtain ⟨hA, hB⟩ := h16
      have hchne : ch ≠ i → net0.slotOf n2 j ≠ net0.slotOf n1 i := by
        intro hchi heq
        have := horig j hj heq
        rw [hcl] at this
        exact hchi ((Option.some.injEq .. ▸ this :))
      refine ⟨?_, ?_⟩
      · intro hlt
        by_cases hch : ch < i
        · obtain ⟨hl, hb, hd⟩ := hA hch
          refine ⟨?_, hb, hd⟩
          rw [lookupA_setA_ne _ _ _ _ ?_]
          · exact hl
          · rcases hd with hd | hd
            · rw [hd]
              exact hchne (by omega)
            · omega
        · have hchi : ch = i := by omega
          have hcli : classify2char net0 n1 n2 cs j = some i := by
            rw [hcl, hchi]
          obtain ⟨hslot, -⟩ := hB (by omega)
          rcases classify_i_cases net0 n1 n2 cs hwf hi hj hcli with hl | hr
          · refine ⟨?_, ?_, Or.inl hslot⟩
            · show lookupA (setA st.edgeChar (net0.slotOf n1 i) i)
                (st.net.slotOf n2 j) = some ch
              rw [hchi, hslot, hl]
              exact lookupA_setA_self _ _ _
            · show st.net.slotOf n2 j < st.net.nextEdgeId
              omega
          · obtain ⟨c2, hc2, -, hnb2, -⟩ := hr
            rw [hnbn2] at hnb2
            have : n2 = c2 := (Option.some.injEq .. ▸ hnb2 :)
            exact absurd (this ▸ hc2) hn2cs
      · intro hge
        obtain ⟨hslot, hnone⟩ := hB (by omega)
        refine ⟨hslot, ?_⟩
        rw [lookupA_setA_ne _ _ _ _ (hchne (by omega))]
        exact hnone
  · intro k v hkv
    by_cases hk : k = net0.slotOf n1 i
    · subst hk
      show net0.slotOf n1 i < st.net.nextEdgeId
      omega
    · rw [lookupA_setA_ne _ _ _ _ hk] at hkv
      exact I17 k v hkv

/-- Entering the inner copy loop: the walk-one invariant after the character
allocation and expression append yields the inner invariant at `P = []`. -/
theorem copyEntry_inv (net0 : Network) (n1 n2 : Nat) (cs : List Nat)
    (c i : Nat) (st : BuildSt) (hc : c ∈ cs)
    (hATc : axisTouching net0 n1 c = i)
    (hinv : WalkInv1 net0 n1 n2 cs i st) :
    CopyInv net0 n1 n2 cs c i []
      { st with counter := i + 1, node1Expr := st.node1Expr ++ [i] } := by
  obtain ⟨I1, I2, I3, I4, I5, I6, I7, I8, I9, I10, I11, I12, I13, I14, I15,
    I16, I17⟩ := hinv
  refine ⟨rfl, ?_, I3, ?_, ?_, I6, I7, I8, I9, I10, I11, I12, ?_, ?_, I15,
    ?_, ?_, I17⟩
  · show st.node1Expr ++ [i] = _
    rw [I2]
    exact (List.range_succ i).symm
  · show st.outputExpr = _
    rw [I4]
    simp
  · show st.outputEdges = _
    rw [I5]
    simp
  · intro i2 h1 h2
    exact I13 i2 (by omega) h2
  · intro c2 hc2 hne2 hle a ha
    exact I14 c2 hc2 hle a ha
  · intro a ha
    rw [if_neg (by rintro ⟨h, -⟩; exact (List.not_mem_nil _) h)]
    exact I14 c hc (by rw [hATc]) a ha
  · intro j hj
    have h16 := I16 j hj
    cases hcl : classify2char net0 n1 n2 cs j with
    | none =>
      simp only [hcl] at h16 ⊢
      exact h16
    | some ch =>
      simp only [hcl] at h16 ⊢
      obtain ⟨hA, hB⟩ := h16
      refine ⟨hA, ?_, fun hlt => hB (by omega)⟩
      intro hch
      rw [if_neg (List.not_mem_nil _)]
      exact hB (by omega)

/-- Leaving the inner copy loop: the inner invariant over the full slot list
of the copy yields the walk-one invariant at `i + 1`. -/
theorem copyExit_inv (net0 : Network) (n1 n2 : Nat) (cs : List Nat)
    (c i : Nat) (st2 : BuildSt) (hwf : BuildWf net0 n1 n2 cs) (hc : c ∈ cs)
    (hATc : axisTouching net0 n1 c = i) (hi : i < net0.rankOf n1)
    (hnbE : net0.neighborOf n1 (net0.slotOf n1 i) = some c)
    (hcinv : CopyInv net0 n1 n2 cs c i (net0.getNodeD c).slots st2) :
    WalkInv1 net0 n1 n2 cs (i + 1) st2 := by
  have hwf2 := hwf
  obtain ⟨hne, hn1cs, hn2cs, hcsnd, hESB0, hNSB0, hndset, hn1s, hn2s, hOk1,
    hOk2, hOkCall, hCoh, hRec, hC3, hDisj, hCsIn⟩ := hwf2
  obtain ⟨J1, J2, J3, J4, J5, J6, J7, J8, J9, J10, J11, J12, J13, J14, J15,
    J16, J17, J18⟩ := hcinv
  have hcn1 : c ≠ n1 := fun h => hn1cs (h ▸ hc)
  have hcn2 : c ≠ n2 := fun h => hn2cs (h ▸ hc)
  have hout1 : out1Entries net0 n1 n2 cs i
      = (copyThirdSlots net0 n1 n2 c).map (fun ce => (ce, c, i)) := by
    unfold out1Entries
    dsimp only []
    rw [show (if (net0.getEdgeD (net0.slotOf n1 i)).node1 == n1
        then (net0.getEdgeD (net0.slotOf n1 i)).node2
        else some (net0.getEdgeD (net0.slotOf n1 i)).node1) = some c from hnbE]
    dsimp only []
    rw [if_neg hcn2, if_pos hc]
  refine ⟨J1, J2, J3, ?_, ?_, J6, J7, J8, J9, J10, J11, J12, J13, ?_, ?_, ?_, J18⟩
  · rw [J4, flatten_range_succ]
    congr 1
    rw [map_const_replicate]
    congr 1
    simp [out1Count, hout1, copyThirdSlots]
  · rw [J5, flatten_range_succ, hout1]
    rfl
  · intro c2 hc2 hle a ha
    have hne2 : c2 ≠ c := by
      intro h
      rw [h, hATc] at hle
      omega
    exact J14 c2 hc2 hne2 (by omega) a ha
  · intro c2 hc2 hlt a ha
    by_cases hcc : c2 = c
    · subst hcc
      have hmemL : net0.slotOf c2 a ∈ (net0.getNodeD c2).slots := getD_mem ha
      cases hth : thirdCond net0 n1 n2 (net0.slotOf c2 a) with
      | false =>
        have h16 := J16 a ha
        rw [if_pos ⟨hmemL, hth⟩] at h16
        exact Or.inr h16
      | true =>
        have h16 := J16 a ha
        rw [if_neg (by rintro ⟨-, h⟩; rw [hth] at h; cases h)] at h16
        exact Or.inl ⟨h16, List.mem_filter.mpr ⟨hmemL, hth⟩⟩
    · have hne_i : axisTouching net0 n1 c2 ≠ i := by
        intro h
        obtain ⟨-, hnb2⟩ := axisTouching_lt (hC3 c2 hc2).2.1
        rw [h, hnbE] at hnb2
        exact hcc ((Option.some.injEq .. ▸ hnb2 :)).symm
      exact J15 c2 hc2 (by omega) a ha
  · intro j hj
    have h17 := J17 j hj
    cases hcl : classify2char net0 n1 n2 cs j with
    | none =>
      simp only [hcl] at h17 ⊢
      exact h17
    | some ch =>
      simp only [hcl] at h17 ⊢
      obtain ⟨hA, hB, hC⟩ := h17
      refine ⟨?_, fun hge => hC (by omega)⟩
      intro hlt
      by_cases hch : ch < i
      · exact hA hch
      · have hchi : ch = i := by omega
        have hcli : classify2char net0 n1 n2 cs j = some i := by
          rw [hcl, hchi]
        rcases classify_i_cases net0 n1 n2 cs hwf hi hj hcli with hl | hr
        · exfalso
          obtain ⟨e0, he0, hor0⟩ := endpointOkP_elim (hOk1 i (List.mem_range.mpr hi))
          rcases hor0 with ⟨ho1, -, -⟩ | ⟨ho1, -, ho3⟩
          · have hnb0 : net0.neighborOf n1 (net0.slotOf n1 i) = e0.node2 :=
              neighborOf_left he0 ho1
            rw [hnbE] at hnb0
            have hx1 : e0.node1 ≠ n2 := by rw [ho1]; exact hne
            have hx2 : e0.node2 ≠ some n2 := by
              rw [← hnb0]
              intro h
              exact hcn2 ((Option.some.injEq .. ▸ h :))
            exact slot_ne_of_no_endpoint (hOk2 j (List.mem_range.mpr hj)) he0
              hx1 hx2 hl
          · have hnb0 : net0.neighborOf n1 (net0.slotOf n1 i) = some e0.node1 :=
              neighborOf_right he0 ho3
            rw [hnbE] at hnb0
            have he0c : e0.node1 = c := ((Option.some.injEq .. ▸ hnb0 :)).symm
            have hx1 : e0.node1 ≠ n2 := by rw [he0c]; exact hcn2
            have hx2 : e0.node2 ≠ some n2 := by
              rw [ho1]
              intro h
              exact hne ((Option.some.injEq .. ▸ h :))
            exact slot_ne_of_no_endpoint (hOk2 j (List.mem_range.mpr hj)) he0
              hx1 hx2 hl
        · obtain ⟨c2, hc2, -, hnb2, hmem⟩ := hr
          rw [hnbE] at hnb2
          have hcc : c = c2 := (Option.some.injEq .. ▸ hnb2 :)
          subst hcc
          have h2 := hB hchi
          rw [if_pos hmem] at h2
          rw [hchi]
          exact ⟨h2.1, h2.2.1, Or.inr h2.2.2⟩

/-- One successful step of the `node1` walk: under the well-formedness of the
walk's input, each axis index below the alphabet bound advances the invariant. -/
theorem walk1Step_ok (net0 : Network) (n1 n2 : Nat) (cs : List Nat)
    (hwf : BuildWf net0 n1 n2 cs) (i : Nat) (st : BuildSt)
    (hi : i < net0.rankOf n1) (hi62 : i < 62)
    (hinv : WalkInv1 net0 n1 n2 cs i st) :
    ∃ st2, walk1Step n1 n2 cs st i = .ok st2 ∧
      WalkInv1 net0 n1 n2 cs (i + 1) st2 := by
  have hwf2 := hwf
  obtain ⟨hne, hn1cs, hn2cs, hcsnd, hESB0, hNSB0, hndset, hn1s, hn2s, hOk1,
    hOk2, hOkCall, hCoh, hRec, hC3, hDisj, hCsIn⟩ := hwf2
  have hinvK := hinv
  obtain ⟨I1, I2, I3, I4, I5, I6, I7, I8, I9, I10, I11, I12, I13, I14, I15,
    I16, I17⟩ := hinv
  have halloc : allocChar st = .ok (i, { st with counter := i + 1 }) := by
    unfold allocChar
    rw [I1, if_pos hi62]
  have hslotE : (st.net.getNodeD n1).slots.getD i 0 = net0.slotOf n1 i :=
    I13 i (le_refl i) hi
  obtain ⟨e0, he0, hor0⟩ := endpointOkP_elim (hOk1 i (List.mem_range.mpr hi))
  have hEb : net0.slotOf n1 i < net0.nextEdgeId := getEdge_lt_of_bound hESB0 he0
  have hst_ge : st.net.getEdge (net0.slotOf n1 i) = some e0 := by
    rw [I6 _ hEb]
    exact he0
  have hgeDst : st.net.getEdgeD (net0.slotOf n1 i) = e0 := by
    simp [Network.getEdgeD, hst_ge]
  have hgeD0 : net0.getEdgeD (net0.slotOf n1 i) = e0 := by
    simp [Network.getEdgeD, he0]
  have holdAx : (if e0.node1 == n1 then e0.axis1 else e0.axis2.getD 0) = i := by
    rcases hor0 with ⟨h1, h2, -⟩ | ⟨h1, h2, h3⟩
    · rw [if_pos (by simp [h1]), h2]
    · rw [if_neg (by simp [h3]), h2]
      rfl
  have hnbif : (if e0.node1 == n1 then e0.node2 else some e0.node1)
      = net0.neighborOf n1 (net0.slotOf n1 i) := by
    unfold Network.neighborOf
    dsimp only []
    rw [hgeD0]
  have hdist1 := slots_distinct_of_endpointOk hOk1
  have hred0 : walk1Step n1 n2 cs st i
      = (match (if e0.node1 == n1 then e0.node2 else some e0.node1) with
         | none => .ok { st with counter := i + 1,
                                 node1Expr := st.node1Expr ++ [i],
                                 outputExpr := st.outputExpr ++ [i],
                                 outputEdges := st.outputEdges
                                   ++ [(net0.slotOf n1 i, n1, i)] }
         | some nb =>
           if nb == n2 then
             .ok { st with counter := i + 1,
                           node1Expr := st.node1Expr ++ [i],
                           edgeChar := setA st.edgeChar (net0.slotOf n1 i) i }
           else if nb ∈ cs then
             .ok ((st.net.getNodeD nb).slots.dedup.foldl
                   (processCopyEdge n1 n2 nb i i)
                   { st with counter := i + 1,
                             node1Expr := st.node1Expr ++ [i] })
           else
             .ok { st with counter := i + 1,
                           node1Expr := st.node1Expr ++ [i],
                           outputExpr := st.outputExpr ++ [i],
                           outputEdges := st.outputEdges
                             ++ [(net0.slotOf n1 i, n1, i)] }) := by
    unfold walk1Step
    rw [halloc]
    dsimp only []
    rw [hslotE, hgeDst, holdAx]
  cases hnn : (if e0.node1 == n1 then e0.node2 else some e0.node1) with
  | none =>
    simp only [hnn] at hred0
    have hnbE : net0.neighborOf n1 (net0.slotOf n1 i) = none := by
      rw [← hnbif, hnn]
    have hnb_not_cs : ∀ c2 ∈ cs,
        net0.neighborOf n1 (net0.slotOf n1 i) ≠ some c2 := by
      intro c2 _ h
      rw [hnbE] at h
      cases h
    have hno : ∀ j, j < net0.rankOf n2 →
        net0.slotOf n2 j ≠ net0.slotOf n1 i := by
      intro j hj
      rcases hor0 with ⟨h1, -, -⟩ | ⟨-, -, h3⟩
      · have hnn2 := hnn
        rw [if_pos (by simp [h1])] at hnn2
        exact slot_ne_of_no_endpoint (hOk2 j (List.mem_range.mpr hj)) he0
          (by rw [h1]; exact hne) (by rw [hnn2]; simp)
      · have hnn2 := hnn
        rw [if_neg (by simp [h3])] at hnn2
        cases hnn2
    have hout1 : out1Entries net0 n1 n2 cs i = [(net0.slotOf n1 i, n1, i)] := by
      unfold out1Entries
      dsimp only []
      rw [show (if (net0.getEdgeD (net0.slotOf n1 i)).node1 == n1
          then (net0.getEdgeD (net0.slotOf n1 i)).node2
          else some (net0.getEdgeD (net0.slotOf n1 i)).node1) = none from hnbE]
    exact ⟨_, hred0,
      walk1_surv_inv net0 n1 n2 cs hwf i st hi hnb_not_cs hno hout1 hinvK⟩
  | some m =>
    simp only [hnn] at hred0
    have hnbE : net0.neighborOf n1 (net0.slotOf n1 i) = some m := by
      rw [← hnbif, hnn]
    by_cases hm2 : m = n2
    · rw [if_pos (by simp [hm2])] at hred0
      have hnbE2 : net0.neighborOf n1 (net0.slotOf n1 i) = some n2 := by
        rw [hnbE, hm2]
      have hidx2 : ((net0.getNodeD n1).slots).indexOf (net0.slotOf n1 i) = i :=
        indexOf_getD i hi hdist1
      have horig : ∀ j, j < net0.rankOf n2 →
          net0.slotOf n2 j = net0.slotOf n1 i →
          classify2char net0 n1 n2 cs j = some i := by
        intro j hj heq
        unfold classify2char
        dsimp only []
        rw [heq, hgeD0]
        rcases hor0 with ⟨h1, -, -⟩ | ⟨h1, -, h3⟩
        · have hnn2 := hnn
          rw [if_pos (by simp [h1]), hm2] at hnn2
          simp [h1, hne, hnn2, hidx2]
        · have hnn2 := hnn
          rw [if_neg (by simp [h3])] at hnn2
          have hn12 : e0.node1 = n2 := by
            rw [hm2] at hnn2
            exact (Option.some.injEq .. ▸ hnn2 :)
          simp [hn12, h1, hne, hidx2]
      have hout1 : out1Entries net0 n1 n2 cs i = [] := by
        unfold out1Entries
        dsimp only []
        rw [show (if (net0.getEdgeD (net0.slotOf n1 i)).node1 == n1
            then (net0.getEdgeD (net0.slotOf n1 i)).node2
            else some (net0.getEdgeD (net0.slotOf n1 i)).node1) = some n2
            from hnbE2]
        dsimp only []
        rw [if_pos rfl]
      exact ⟨_, hred0,
        walk1_direct_inv net0 n1 n2 cs hwf i st hi hnbE2 hEb horig hout1 hinvK⟩
    · by_cases hmcs : m ∈ cs
      · rw [if_neg (by simp [hm2]), if_pos hmcs] at hred0
        have hATm : axisTouching net0 n1 m = i :=
          axisTouching_eq (hC3 m hmcs).2.1 hi hnbE
        have hLlen : (st.net.getNodeD m).slots.length
            = (net0.getNodeD m).slots.length := (I10 m).2.2.2
        have hlist : (st.net.getNodeD m).slots = (net0.getNodeD m).slots := by
          apply list_eq_of_getD hLlen
          intro a ha
          have haR : a < net0.rankOf m := by
            have hrr : net0.rankOf m = (net0.getNodeD m).slots.length := rfl
            omega
          exact I14 m hmcs (by rw [hATm]) a haR
        have hnodupL : (net0.getNodeD m).slots.Nodup :=
          nodup_of_getD_distinct
            (fun a b ha hb hab =>
              slots_distinct_of_endpointOk (hOkCall m hmcs) a b ha hb hab)
        have hdedup : (st.net.getNodeD m).slots.dedup
            = (net0.getNodeD m).slots := by
          rw [hlist]
          exact List.Nodup.dedup hnodupL
        rw [hdedup] at hred0
        have hentry := copyEntry_inv net0 n1 n2 cs m i st hmcs hATm hinvK
        have hfold := processCopy_fold net0 n1 n2 cs m i hwf hmcs hATm hi
          (net0.getNodeD m).slots [] _ (by simp) hentry
        exact ⟨_, hred0,
          copyExit_inv net0 n1 n2 cs m i _ hwf hmcs hATm hi hnbE hfold⟩
      · rw [if_neg (by simp [hm2]), if_neg hmcs] at hred0
        have hnb_not_cs : ∀ c2 ∈ cs,
            net0.neighborOf n1 (net0.slotOf n1 i) ≠ some c2 := by
          intro c2 hc2 h
          rw [hnbE] at h
          exact hmcs (((Option.some.injEq .. ▸ h :)) ▸ hc2)
        have hno : ∀ j, j < net0.rankOf n2 →
            net0.slotOf n2 j ≠ net0.slotOf n1 i := by
          intro j hj
          rcases hor0 with ⟨h1, -, -⟩ | ⟨h1, -, h3⟩
          · have hnn2 := hnn
            rw [if_pos (by simp [h1])] at hnn2
            refine slot_ne_of_no_endpoint (hOk2 j (List.mem_range.mpr hj)) he0
              (by rw [h1]; exact hne) ?_
            rw [hnn2]
            intro h
            exact hm2 ((Option.some.injEq .. ▸ h :))
          · have hnn2 := hnn
            rw [if_neg (by simp [h3])] at hnn2
            have hn1m : e0.node1 = m := (Option.some.injEq .. ▸ hnn2 :)
            refine slot_ne_of_no_endpoint (hOk2 j (List.mem_range.mpr hj)) he0
              (by rw [hn1m]; exact hm2) ?_
            rw [h1]
            intro h
            exact hne ((Option.some.injEq .. ▸ h :))
        have hout1 : out1Entries net0 n1 n2 cs i
            = [(net0.slotOf n1 i, n1, i)] := by
          unfold out1Entries
          dsimp only []
          rw [show (if (net0.getEdgeD (net0.slotOf n1 i)).node1 == n1
              then (net0.getEdgeD (net0.slotOf n1 i)).node2
              else some (net0.getEdgeD (net0.slotOf n1 i)).node1) = some m
              from hnbE]
          dsimp only []
          rw [if_neg hm2, if_neg hmcs]
        exact ⟨_, hred0,
          walk1_surv_inv net0 n1 n2 cs hwf i st hi hnb_not_cs hno hout1 hinvK⟩

/-- The walk-one invariant holds for the initial builder state. -/
theorem walkInv1_init (net0 : Network) (n1 n2 : Nat) (cs : List Nat)
    (hwf : BuildWf net0 n1 n2 cs) :
    WalkInv1 net0 n1 n2 cs 0 ⟨net0, 0, [], [], [], [], []⟩ := by
  refine ⟨rfl, rfl, rfl, rfl, rfl, fun k hk => rfl, hwf.2.2.2.2.1, le_refl _,
    hwf.2.2.2.2.2.1, fun n => ⟨rfl, rfl, rfl, rfl⟩, rfl, rfl,
    fun i2 h1 h2 => rfl, fun c hc hle a ha => rfl, ?_, ?_, ?_⟩
  · intro c hc hlt a ha
    exact absurd hlt (by omega)
  · intro j hj
    cases hcl : classify2char net0 n1 n2 cs j with
    | none =>
      simp [hcl, lookupA]
    | some ch =>
      simp [hcl, lookupA]
  · intro k v hkv
    exact absurd hkv (by simp [lookupA])

/-- The walk over `node1`'s axes: success with the full invariant when the
rank fits the alphabet, the alphabet-exhaustion error otherwise. -/
theorem walk1_go (net0 : Network) (n1 n2 : Nat) (cs : List Nat)
    (hwf : BuildWf net0 n1 n2 cs) :
    ∀ (k i : Nat) (st : BuildSt), i + k = net0.rankOf n1 → i ≤ 62 →
      WalkInv1 net0 n1 n2 cs i st →
      (net0.rankOf n1 ≤ 62 →
        ∃ stA, walk1 n1 n2 cs (List.range' i k) st = .ok stA ∧
          WalkInv1 net0 n1 n2 cs (net0.rankOf n1) stA) ∧
      (62 < net0.rankOf n1 →
        walk1 n1 n2 cs (List.range' i k) st = .error .rankExceedsAlphabet) := by
  intro k
  induction k with
  | zero =>
    intro i st hik h62 hinv
    have hieq : i = net0.rankOf n1 := by omega
    subst hieq
    constructor
    · intro hle
      exact ⟨st, rfl, hinv⟩
    · intro hgt
      exact absurd hgt (by omega)
  | succ k2 ih =>
    intro i st hik h62 hinv
    have hil : i < net0.rankOf n1 := by omega
    constructor
    · intro hle
      obtain ⟨st2, hstep, hinv2⟩ :=
        walk1Step_ok net0 n1 n2 cs hwf i st hil (by omega) hinv
      rw [show List.range' i (k2 + 1) = i :: List.range' (i + 1) k2 from rfl,
        walk1_cons_ok hstep]
      exact (ih (i + 1) st2 (by omega) (by omega) hinv2).1 hle
    · intro hgt
      by_cases hi62 : i < 62
      · obtain ⟨st2, hstep, hinv2⟩ :=
          walk1Step_ok net0 n1 n2 cs hwf i st hil hi62 hinv
        rw [show List.range' i (k2 + 1) = i :: List.range' (i + 1) k2 from rfl,
          walk1_cons_ok hstep]
        exact (ih (i + 1) st2 (by omega) (by omega) hinv2).2 hgt
      · exact walk1_cons_err (walk1Step_err n1 n2 cs st i (by rw [hinv.1]; omega))

/-- Every bound character of a `node2` axis is one of `node1`'s axis
characters. -/
theorem classify_lt_r1 (net0 : Network) (n1 n2 : Nat) (cs : List Nat)
    (hwf : BuildWf net0 n1 n2 cs) {j ch : Nat} (hj : j < net0.rankOf n2)
    (hcl : classify2char net0 n1 n2 cs j = some ch) :
    ch < net0.rankOf n1 := by
  obtain ⟨hne, hn1cs, hn2cs, hcsnd, hESB0, hNSB0, hndset, hn1s, hn2s, hOk1,
    hOk2, hOkCall, hCoh, hRec, hC3, hDisj, hCsIn⟩ := hwf
  obtain ⟨e2, he2, hor2⟩ := endpointOkP_elim (hOk2 j (List.mem_range.mpr hj))
  have hge2 : net0.getEdgeD (net0.slotOf n2 j) = e2 := by
    simp [Network.getEdgeD, he2]
  unfold classify2char at hcl
  dsimp only [] at hcl
  rw [hge2] at hcl
  have hcoh := hCoh n2 (by simp) n1 (by simp) j (List.mem_range.mpr hj)
  unfold coherentAt at hcoh
  rw [hge2] at hcoh
  by_cases hb1 : e2.node1 = n2
  · rw [if_pos (by simp [hb1])] at hcl
    cases hnd : e2.node2 with
    | none =>
      rw [hnd] at hcl
      cases hcl
    | some m =>
      rw [hnd] at hcl
      dsimp only [] at hcl
      by_cases hmn1 : m = n1
      · rw [if_pos hmn1] at hcl
        obtain ⟨y, hy⟩ := Option.isSome_iff_exists.mp
          (hRec n2 (by simp) j (List.mem_range.mpr hj)
            (by rw [hge2, hnd]; rfl))
        rw [hge2] at hy
        have hc2 := hcoh.2 (by rw [hnd, hmn1])
        rw [hy] at hc2
        obtain ⟨hylt, hyslot⟩ := hc2
        have hmem : net0.slotOf n2 j ∈ (net0.getNodeD n1).slots := by
          rw [← hyslot]
          exact getD_mem hylt
        have hix : ch = (net0.getNodeD n1).slots.indexOf (net0.slotOf n2 j) :=
          ((Option.some.injEq .. ▸ hcl :)).symm
        rw [hix]
        exact List.indexOf_lt_length.mpr hmem
      · rw [if_neg hmn1] at hcl
        by_cases hmcs : m ∈ cs
        · rw [if_pos hmcs] at hcl
          have hatm : ch = axisTouching net0 n1 m :=
            ((Option.some.injEq .. ▸ hcl :)).symm
          rw [hatm]
          exact (axisTouching_lt (hC3 m hmcs).2.1).1
        · rw [if_neg hmcs] at hcl
          cases hcl
  · rw [if_neg (by simp [hb1])] at hcl
    dsimp only [] at hcl
    by_cases hmn1 : e2.node1 = n1
    · rw [if_pos hmn1] at hcl
      obtain ⟨hylt, hyslot⟩ := hcoh.1 hmn1
      have hmem : net0.slotOf n2 j ∈ (net0.getNodeD n1).slots := by
        rw [← hyslot]
        exact getD_mem hylt
      have hix : ch = (net0.getNodeD n1).slots.indexOf (net0.slotOf n2 j) :=
        ((Option.some.injEq .. ▸ hcl :)).symm
      rw [hix]
      exact List.indexOf_lt_length.mpr hmem
    · rw [if_neg hmn1] at hcl
      by_cases hmcs : e2.node1 ∈ cs
      · rw [if_pos hmcs] at hcl
        have hatm : ch = axisTouching net0 n1 e2.node1 :=
          ((Option.some.injEq .. ▸ hcl :)).symm
        rw [hatm]
        exact (axisTouching_lt (hC3 e2.node1 hmcs).2.1).1
      · rw [if_neg hmcs] at hcl
        cases hcl

/-- Invariant of the `node2` walk after processing axes `0, …, j-1`, relative
to the walk-one final state `stA`. -/
def WalkInv2 (net0 : Network) (n1 n2 : Nat) (cs : List Nat) (stA : BuildSt)
    (j : Nat) (st : BuildSt) : Prop :=
  st.net = stA.net ∧
  st.edgeChar = stA.edgeChar ∧
  st.counter = net0.rankOf n1 + unboundCount net0 n1 n2 cs j ∧
  st.node1Expr = stA.node1Expr ∧
  st.node2Expr = (List.range j).map (char2 net0 n1 n2 cs) ∧
  st.outputExpr = stA.outputExpr ++
    ((List.range j).filter (unbound2 net0 n1 n2 cs)).map (char2 net0 n1 n2 cs) ∧
  st.outputEdges = stA.outputEdges ++
    (List.range j).filterMap (out2Entry net0 n1 n2 cs)

theorem walk2_cons_err {n2 : Nat} {st : BuildSt} {j : Nat} {rest : List Nat}
    {err : Err} (h : walk2Step n2 st j = .error err) :
    walk2 n2 (j :: rest) st = .error err := by
  unfold walk2
  rw [h]

theorem walk2_cons_ok {n2 : Nat} {st st2 : BuildSt} {j : Nat} {rest : List Nat}
    (h : walk2Step n2 st j = .ok st2) :
    walk2 n2 (j :: rest) st = walk2 n2 rest st2 := by
  conv_lhs => unfold walk2
  rw [h]

theorem unboundCount_succ (net : Network) (n1 n2 : Nat) (cs : List Nat) (j : Nat) :
    unboundCount net n1 n2 cs (j + 1)
      = unboundCount net n1 n2 cs j
        + (if unbound2 net n1 n2 cs j then 1 else 0) := by
  unfold unboundCount
  rw [List.range_succ, List.filter_append]
  by_cases h : unbound2 net n1 n2 cs j = true
  · simp [List.filter_cons, h]
  · simp [List.filter_cons, h]

theorem unboundCount_mono (net : Network) (n1 n2 : Nat) (cs : List Nat)
    {j j2 : Nat} (h : j ≤ j2) :
    unboundCount net n1 n2 cs j ≤ unboundCount net n1 n2 cs j2 := by
  induction j2, h using Nat.le_induction with
  | base => exact le_refl _
  | succ n hn ih =>
    have hs := unboundCount_succ net n1 n2 cs n
    by_cases h2 : unbound2 net n1 n2 cs n = true
    · rw [hs, if_pos h2]
      omega
    · rw [hs, if_neg h2]
      omega

/-- A `node2` axis whose edge is bound in `edge_char` reads its character. -/
theorem walk2Step_bound (net0 : Network) (n1 n2 : Nat) (cs : List Nat)
    (stA : BuildSt) (hwf : BuildWf net0 n1 n2 cs) (j : Nat) (st : BuildSt)
    (hj : j < net0.rankOf n2)
    (hinvA : WalkInv1 net0 n1 n2 cs (net0.rankOf n1) stA)
    (hA1 : st.net = stA.net) (hA2 : st.edgeChar = stA.edgeChar)
    {ch : Nat} (hcl : classify2char net0 n1 n2 cs j = some ch) :
    walk2Step n2 st j = .ok { st with node2Expr := st.node2Expr ++ [ch] } := by
  have hch := classify_lt_r1 net0 n1 n2 cs hwf hj hcl
  obtain ⟨-, -, -, -, -, -, -, -, -, -, -, -, -, -, -, I16A, -⟩ := hinvA
  have h16 := I16A j hj
  simp only [hcl] at h16
  obtain ⟨hl, -, -⟩ := h16.1 hch
  unfold walk2Step
  dsimp only []
  rw [show (st.net.getNodeD n2).slots.getD j 0 = stA.net.slotOf n2 j from
    by rw [hA1]; rfl]
  rw [hA2, hl]

/-- A `node2` axis whose edge is unbound allocates a fresh character. -/
theorem walk2Step_unbound (net0 : Network) (n1 n2 : Nat) (cs : List Nat)
    (stA : BuildSt) (hwf : BuildWf net0 n1 n2 cs) (j : Nat) (st : BuildSt)
    (hj : j < net0.rankOf n2)
    (hinvA : WalkInv1 net0 n1 n2 cs (net0.rankOf n1) stA)
    (hA1 : st.net = stA.net) (hA2 : st.edgeChar = stA.edgeChar)
    (hcl : classify2char net0 n1 n2 cs j = none)
    (hcnt : st.counter < 62) :
    walk2Step n2 st j = .ok { st with counter := st.counter + 1,
                                      node2Expr := st.node2Expr ++ [st.counter],
                                      outputExpr := st.outputExpr ++ [st.counter],
                                      outputEdges := st.outputEdges
                                        ++ [(net0.slotOf n2 j, n2, j)] } := by
  obtain ⟨hne, hn1cs, hn2cs, hcsnd, hESB0, hNSB0, hndset, hn1s, hn2s, hOk1,
    hOk2, hOkCall, hCoh, hRec, hC3, hDisj, hCsIn⟩ := hwf
  obtain ⟨-, -, -, -, -, I6A, -, -, -, -, -, -, -, -, -, I16A, -⟩ := hinvA
  have h16 := I16A j hj
  simp only [hcl] at h16
  obtain ⟨hslot, hnone⟩ := h16
  obtain ⟨e2, he2, hor2⟩ := endpointOkP_elim (hOk2 j (List.mem_range.mpr hj))
  have hb : net0.slotOf n2 j < net0.nextEdgeId := getEdge_lt_of_bound hESB0 he2
  have hgeSt : st.net.getEdgeD (net0.slotOf n2 j) = e2 := by
    rw [hA1]
    simp [Network.getEdgeD, I6A _ hb, he2]
  have holdAx2 : (if e2.node1 == n2 then e2.axis1 else e2.axis2.getD 0) = j := by
    rcases hor2 with ⟨h1, h2, -⟩ | ⟨h1, h2, h3⟩
    · rw [if_pos (by simp [h1]), h2]
    · rw [if_neg (by simp [h3]), h2]
      rfl
  unfold walk2Step
  dsimp only []
  rw [show (st.net.getNodeD n2).slots.getD j 0 = net0.slotOf n2 j from
    by rw [hA1]; exact hslot]
  rw [hA2, hnone]
  unfold allocChar
  rw [if_pos hcnt]
  dsimp only []
  rw [hgeSt, holdAx2, hA2]

/-- A `node2` axis needing a fresh character fails when the alphabet is
exhausted. -/
theorem walk2Step_errlem (net0 : Network) (n1 n2 : Nat) (cs : List Nat)
    (stA : BuildSt) (hwf : BuildWf net0 n1 n2 cs) (j : Nat) (st : BuildSt)
    (hj : j < net0.rankOf n2)
    (hinvA : WalkInv1 net0 n1 n2 cs (net0.rankOf n1) stA)
    (hA1 : st.net = stA.net) (hA2 : st.edgeChar = stA.edgeChar)
    (hcl : classify2char net0 n1 n2 cs j = none)
    (hcnt : ¬st.counter < 62) :
    walk2Step n2 st j = .error .rankExceedsAlphabet := by
  obtain ⟨-, -, -, -, -, -, -, -, -, -, -, -, -, -, -, I16A, -⟩ := hinvA
  have h16 := I16A j hj
  simp only [hcl] at h16
  obtain ⟨hslot, hnone⟩ := h16
  unfold walk2Step
  dsimp only []
  rw [show (st.net.getNodeD n2).slots.getD j 0 = net0.slotOf n2 j from
    by rw [hA1]; exact hslot]
  rw [hA2, hnone]
  unfold allocChar
  rw [if_neg hcnt]

/-- The walk over `node2`'s axes: success with the full invariant when the
total demand fits the alphabet, the exhaustion error otherwise. -/
theorem walk2_go (net0 : Network) (n1 n2 : Nat) (cs : List Nat)
    (hwf : BuildWf net0 n1 n2 cs) (stA : BuildSt)
    (hinvA : WalkInv1 net0 n1 n2 cs (net0.rankOf n1) stA) :
    ∀ (k j : Nat) (st : BuildSt), j + k = net0.rankOf n2 →
      st.counter ≤ 62 →
      WalkInv2 net0 n1 n2 cs stA j st →
      (exprDemand net0 n1 n2 cs ≤ 62 →
        ∃ stB, walk2 n2 (List.range' j k) st = .ok stB ∧
          WalkInv2 net0 n1 n2 cs stA (net0.rankOf n2) stB) ∧
      (62 < exprDemand net0 n1 n2 cs →
        walk2 n2 (List.range' j k) st = .error .rankExceedsAlphabet) := by
  have hdemand : exprDemand net0 n1 n2 cs
      = net0.rankOf n1 + unboundCount net0 n1 n2 cs (net0.rankOf n2) := rfl
  intro k
  induction k with
  | zero =>
    intro j st hjk h62 hinv2
    have hjeq : j = net0.rankOf n2 := by omega
    subst hjeq
    refine ⟨fun hle => ⟨st, rfl, hinv2⟩, fun hgt => ?_⟩
    have hc := hinv2.2.2.1
    exact absurd hgt (by omega)
  | succ k2 ih =>
    intro j st hjk h62 hinv2
    have hjl : j < net0.rankOf n2 := by omega
    obtain ⟨hA1, hA2, hC, hN1, hN2, hOE, hOEd⟩ := hinv2
    cases hcl : classify2char net0 n1 n2 cs j with
    | some ch =>
      have hstep := walk2Step_bound net0 n1 n2 cs stA hwf j st hjl hinvA
        hA1 hA2 hcl
      have hub : unbound2 net0 n1 n2 cs j = false := by
        simp [unbound2, hcl]
      have hinv2' : WalkInv2 net0 n1 n2 cs stA (j + 1)
          { st with node2Expr := st.node2Expr ++ [ch] } := by
        refine ⟨hA1, hA2, ?_, hN1, ?_, ?_, ?_⟩
        · show st.counter = _
          rw [unboundCount_succ, if_neg (by simp [hub])]
          omega
        · show st.node2Expr ++ [ch] = _
          rw [hN2, List.range_succ, List.map_append]
          have : char2 net0 n1 n2 cs j = ch := by
            unfold char2
            rw [hcl]
          simp [this]
        · show st.outputExpr = _
          rw [hOE, List.range_succ, List.filter_append]
          simp [List.filter_cons, hub]
        · show st.outputEdges = _
          rw [hOEd, List.range_succ, List.filterMap_append]
          have : out2Entry net0 n1 n2 cs j = none := by
            unfold out2Entry
            rw [if_neg (by simp [hub])]
          simp [List.filterMap_cons, this]
      rw [show List.range' j (k2 + 1) = j :: List.range' (j + 1) k2 from rfl,
        walk2_cons_ok hstep]
      exact ih (j + 1) _ (by omega) h62 hinv2'
    | none =>
      have hub : unbound2 net0 n1 n2 cs j = true := by
        simp [unbound2, hcl]
      by_cases hcnt : st.counter < 62
      · have hstep := walk2Step_unbound net0 n1 n2 cs stA hwf j st hjl hinvA
          hA1 hA2 hcl hcnt
        have hinv2' : WalkInv2 net0 n1 n2 cs stA (j + 1)
            { st with counter := st.counter + 1,
                      node2Expr := st.node2Expr ++ [st.counter],
                      outputExpr := st.outputExpr ++ [st.counter],
                      outputEdges := st.outputEdges
                        ++ [(net0.slotOf n2 j, n2, j)] } := by
          have hchar : char2 net0 n1 n2 cs j = st.counter := by
            unfold char2
            rw [hcl, hC]
          refine ⟨hA1, hA2, ?_, hN1, ?_, ?_, ?_⟩
          · show st.counter + 1 = _
            rw [unboundCount_succ, if_pos (by simp [hub])]
            omega
          · show st.node2Expr ++ [st.counter] = _
            rw [hN2, List.range_succ, List.map_append]
            simp [hchar]
          · show st.outputExpr ++ [st.counter] = _
            rw [hOE, List.range_succ, List.filter_append]
            simp [List.filter_cons, hub, hchar, List.append_assoc]
          · show st.outputEdges ++ [(net0.slotOf n2 j, n2, j)] = _
            rw [hOEd, List.range_succ, List.filterMap_append]
            have : out2Entry net0 n1 n2 cs j = some (net0.slotOf n2 j, n2, j) := by
              unfold out2Entry
              rw [if_pos (by simp [hub])]
            simp [List.filterMap_cons, this, List.append_assoc]
        rw [show List.range' j (k2 + 1) = j :: List.range' (j + 1) k2 from rfl,
          walk2_cons_ok hstep]
        exact ih (j + 1) _ (by omega) (by show st.counter + 1 ≤ 62; omega) hinv2'
      · have hstep := walk2Step_errlem net0 n1 n2 cs stA hwf j st hjl hinvA
          hA1 hA2 hcl hcnt
        refine ⟨fun hle => ?_, fun hgt => ?_⟩
        · exfalso
          have hm := unboundCount_mono net0 n1 n2 cs
            (show j + 1 ≤ net0.rankOf n2 by omega)
          have hs := unboundCount_succ net0 n1 n2 cs j
          rw [if_pos (by simp [hub])] at hs
          omega
        · exact walk2_cons_err hstep

/-- The characters of the output token contributed by `node1`'s axes. -/
def exprGhost1 (net : Network) (n1 n2 : Nat) (cs : List Nat) : List Nat :=
  ((List.range (net.rankOf n1)).map (fun i =>
    List.replicate (out1Count net n1 n2 cs i) i)).flatten

/-- The characters of the output token contributed by `node2`'s fresh axes. -/
def exprGhost2 (net : Network) (n1 n2 : Nat) (cs : List Nat) : List Nat :=
  ((List.range (net.rankOf n2)).filter (unbound2 net n1 n2 cs)).map
    (char2 net n1 n2 cs)

/-- The full output-edge plan of an extended pair merge: the entries produced
by the `node1` walk, in `node1` axis order, followed by the entries of
`node2`'s surviving axes, in `node2` axis order. -/
def planGhost (net : Network) (n1 n2 : Nat) (cs : List Nat) :
    List (Nat × Nat × Nat) :=
  ((List.range (net.rankOf n1)).map (out1Entries net n1 n2 cs)).flatten
    ++ (List.range (net.rankOf n2)).filterMap (out2Entry net n1 n2 cs)

/-- When the expression demands more than 62 distinct subscripts, the build
phase fails with the alphabet-exhaustion error. -/
theorem buildPhase_err (backend : String → Nat → Nat → Nat) (net0 : Network)
    (n1 n2 : Nat) (cs : List Nat) (hwf : BuildWf net0 n1 n2 cs)
    (hgt : 62 < exprDemand net0 n1 n2 cs) :
    buildPhase backend net0 n1 n2 cs = .error .rankExceedsAlphabet := by
  have hinit := walkInv1_init net0 n1 n2 cs hwf
  have hdemand : exprDemand net0 n1 n2 cs
      = net0.rankOf n1 + unboundCount net0 n1 n2 cs (net0.rankOf n2) := rfl
  by_cases hr1 : net0.rankOf n1 ≤ 62
  · obtain ⟨stA, hA, hinvA⟩ := (walk1_go net0 n1 n2 cs hwf (net0.rankOf n1) 0 _
      (by omega) (by omega) hinit).1 hr1
    have huc0 : unboundCount net0 n1 n2 cs 0 = 0 := rfl
    have hinv20 : WalkInv2 net0 n1 n2 cs stA 0 stA := by
      refine ⟨rfl, rfl, ?_, rfl, ?_, ?_, ?_⟩
      · rw [hinvA.1, huc0]
        omega
      · rw [hinvA.2.2.1]
        rfl
      · simp
      · simp
    have h2 := (walk2_go net0 n1 n2 cs hwf stA hinvA (net0.rankOf n2) 0 stA
      (by omega) (by rw [hinvA.1]; omega) hinv20).2 hgt
    unfold buildPhase
    rw [List.range_eq_range', hA]
    dsimp only []
    rw [show stA.net.rankOf n2 = net0.rankOf n2 from (hinvA.2.2.2.2.2.2.2.2.2.1 n2).2.2.2]
    rw [List.range_eq_range', h2]
  · push_neg at hr1
    have hA := (walk1_go net0 n1 n2 cs hwf (net0.rankOf n1) 0 _
      (by omega) (by omega) hinit).2 hr1
    unfold buildPhase
    rw [List.range_eq_range', hA]

/-- When the expression fits the alphabet, the build phase succeeds and its
builder state is fully characterized by the walk ghosts. -/
theorem buildPhase_ok (backend : String → Nat → Nat → Nat) (net0 : Network)
    (n1 n2 : Nat) (cs : List Nat) (hwf : BuildWf net0 n1 n2 cs)
    (hle : exprDemand net0 n1 n2 cs ≤ 62) :
    ∃ stB,
      stB.net.nodesSet = net0.nodesSet ∧
      stB.net.nextNodeId = net0.nextNodeId ∧
      net0.nextEdgeId ≤ stB.net.nextEdgeId ∧
      EdgeStoreBound stB.net ∧
      NodeStoreBound stB.net ∧
      (∀ k, k < net0.nextEdgeId → stB.net.getEdge k = net0.getEdge k) ∧
      (∀ n, (stB.net.getNodeD n).tensor = (net0.getNodeD n).tensor ∧
        (stB.net.getNodeD n).isCopy = (net0.getNodeD n).isCopy ∧
        (stB.net.getNodeD n).disabled = (net0.getNodeD n).disabled ∧
        stB.net.rankOf n = net0.rankOf n) ∧
      stB.node1Expr = List.range (net0.rankOf n1) ∧
      stB.node2Expr = (List.range (net0.rankOf n2)).map (char2 net0 n1 n2 cs) ∧
      stB.outputExpr = exprGhost1 net0 n1 n2 cs ++ exprGhost2 net0 n1 n2 cs ∧
      stB.outputEdges = planGhost net0 n1 n2 cs ∧
      (∀ c ∈ cs, ∀ a, a < net0.rankOf c →
        (stB.net.slotOf c a = net0.slotOf c a ∧
          net0.slotOf c a ∈ copyThirdSlots net0 n1 n2 c) ∨
        (∃ er, stB.net.getEdge (stB.net.slotOf c a) = some er ∧
          er.isDangling = true ∧ er.node1 = c)) ∧
      buildPhase backend net0 n1 n2 cs = buildTail backend stB n1 n2 cs := by
  have hinit := walkInv1_init net0 n1 n2 cs hwf
  have hdemand : exprDemand net0 n1 n2 cs
      = net0.rankOf n1 + unboundCount net0 n1 n2 cs (net0.rankOf n2) := rfl
  have hr1 : net0.rankOf n1 ≤ 62 := by omega
  obtain ⟨stA, hA, hinvA⟩ := (walk1_go net0 n1 n2 cs hwf (net0.rankOf n1) 0 _
    (by omega) (by omega) hinit).1 hr1
  have huc0 : unboundCount net0 n1 n2 cs 0 = 0 := rfl
  have hinv20 : WalkInv2 net0 n1 n2 cs stA 0 stA := by
    refine ⟨rfl, rfl, ?_, rfl, ?_, ?_, ?_⟩
    · rw [hinvA.1, huc0]
      omega
    · rw [hinvA.2.2.1]
      rfl
    · simp
    · simp
  obtain ⟨stB, hB, hinvB⟩ := (walk2_go net0 n1 n2 cs hwf stA hinvA
    (net0.rankOf n2) 0 stA (by omega) (by rw [hinvA.1]; omega) hinv20).1 hle
  obtain ⟨IA1, IA2, IA3, IA4, IA5, IA6, IA7, IA8, IA9, IA10, IA11, IA12, IA13,
    IA14, IA15, IA16, IA17⟩ := hinvA
  obtain ⟨IB1, IB2, IB3, IB4, IB5, IB6, IB7⟩ := hinvB
  refine ⟨stB, ?_, ?_, ?_, ?_, ?_, ?_, ?_, ?_, ?_, ?_, ?_, ?_, ?_⟩
  · rw [IB1, IA11]
  · rw [IB1, IA12]
  · rw [IB1]
    exact IA8
  · rw [IB1]
    exact IA7
  · rw [IB1]
    exact IA9
  · intro k hk
    rw [IB1]
    exact IA6 k hk
  · intro n
    rw [IB1]
    exact IA10 n
  · rw [IB4, IA2]
  · exact IB5
  · rw [IB6, IA4]
    rfl
  · rw [IB7, IA5]
    rfl
  · intro c hc a ha
    have hAT := (axisTouching_lt (hwf.2.2.2.2.2.2.2.2.2.2.2.2.2.2.1 c hc).2.1).1
    have h15 := IA15 c hc hAT a ha
    rw [IB1]
    exact h15
  · unfold buildPhase
    rw [List.range_eq_range', hA]
    dsimp only []
    rw [show stA.net.rankOf n2 = net0.rankOf n2 from (IA10 n2).2.2.2]
    rw [List.range_eq_range', hB]

/-- C4: in every pair merge whose einsum expression needs more than 62
distinct subscript labels (the combined demand of `node1`'s axes and
`node2`'s fresh axes exceeds the 62-character alphabet),
`contract_between_with_copies` fails with the alphabet-exhaustion error
(`RankExceedsAlphabet`, the `StopIteration` of the exhausted subscript
iterator). -/
theorem contract_rank_exceeds_alphabet (backend : String → Nat → Nat → Nat)
    (net : Network) (n1 n2 : Nat) (cs : List Nat) (p : Network × List Nat)
    (hne : n1 ≠ n2)
    (htr : trivialize net cs cs = .ok p)
    (hwf : BuildWf p.1 n1 n2 p.2)
    (hnonempty : p.2 ≠ [])
    (hgt : 62 < exprDemand p.1 n1 n2 p.2) :
    contract_between_with_copies backend net n1 n2 cs
      = .error .rankExceedsAlphabet := by
  unfold contract_between_with_copies
  rw [if_neg hne, htr]
  dsimp only []
  rw [if_neg (by simpa using hnonempty)]
  exact buildPhase_err backend p.1 n1 n2 p.2 hwf hgt

/-- A network whose `node1` (node 0) has 63 axes: 62 dangling and one shared
with the rank-3 copy node 2, which also touches `node2` (node 1). -/
def c4net : Network :=
  { nodes := [(0, ⟨(List.range 62).map (fun k => 10 + k) ++ [72], false, 5, false⟩),
              (1, ⟨[73], false, 6, false⟩),
              (2, ⟨[72, 73, 74], true, 0, false⟩)],
    edges := (List.range 62).map (fun k => (10 + k, ⟨0, k, none, none, 2⟩))
      ++ [(72, ⟨0, 62, some 2, some 0, 2⟩),
          (73, ⟨1, 0, some 2, some 1, 2⟩),
          (74, ⟨2, 2, none, none, 2⟩)],
    nodesSet := [0, 1, 2], nextNodeId := 3, nextEdgeId := 75 }

theorem contract_rank_exceeds_alphabet_witness :
    (0 : Nat) ≠ 1 ∧ trivialize c4net [2] [2] = .ok (c4net, [2]) ∧
    BuildWf c4net 0 1 [2] ∧ ([2] : List Nat) ≠ [] ∧
    62 < exprDemand c4net 0 1 [2] ∧
    contract_between_with_copies (fun _ _ _ => 0) c4net 0 1 [2]
      = .error .rankExceedsAlphabet := by
  refine ⟨by decide, by rfl, by decide, by decide, by decide, ?_⟩
  exact contract_rank_exceeds_alphabet (fun _ _ _ => 0) c4net 0 1 [2]
    (c4net, [2]) (by decide) (by rfl) (by decide) (by decide) (by decide)

theorem getD_map_range (f : Nat → Nat) {r j : Nat} (h : j < r) :
    ((List.range r).map f).getD j 0 = f j := by
  have h2 : j < ((List.range r).map f).length := by simpa using h
  rw [List.getD_eq_get _ _ h2]
  simp

theorem getD_range {r j : Nat} (h : j < r) : (List.range r).getD j 0 = j := by
  have h2 : j < (List.range r).length := by simpa using h
  rw [List.getD_eq_get _ _ h2]
  simp

/-- The walk character bound to a `node2` axis whose edge reaches a shared
copy (other than through `node1` directly) is that copy's `node1` character. -/
theorem classify_of_copy_neighbor (net0 : Network) (n1 n2 : Nat)
    (cs : List Nat) {j c : Nat} (hc : c ∈ cs) (hcn1 : c ≠ n1)
    (hnb : net0.neighborOf n2 (net0.slotOf n2 j) = some c) :
    classify2char net0 n1 n2 cs j = some (axisTouching net0 n1 c) := by
  unfold classify2char
  dsimp only []
  rw [show (if (net0.getEdgeD (net0.slotOf n2 j)).node1 == n2
      then (net0.getEdgeD (net0.slotOf n2 j)).node2
      else some (net0.getEdgeD (net0.slotOf n2 j)).node1) = some c from hnb]
  dsimp only []
  rw [if_neg hcn1, if_pos hc]

/-- The per-copy diagonal-label property claimed by the specification: a
single label borne by every `node1` axis and every `node2` axis whose edge
touches the copy `c`. -/
def diagLabelAt (net0 : Network) (n1 n2 c : Nat) (st : BuildSt) : Prop :=
  ∃ χ ∈ List.range 62,
    (∀ i, i < net0.rankOf n1 →
      net0.neighborOf n1 (net0.slotOf n1 i) = some c →
      st.node1Expr.getD i 0 = χ) ∧
    (∀ j, j < net0.rankOf n2 →
      net0.neighborOf n2 (net0.slotOf n2 j) = some c →
      st.node2Expr.getD j 0 = χ)

instance (net0 : Network) (n1 n2 c : Nat) (st : BuildSt) :
    Decidable (diagLabelAt net0 n1 n2 c st) := by
  unfold diagLabelAt
  infer_instance

/-- A network in which `node1` (node 0) shares two of its axes with the
rank-3 copy node 2, which also touches `node2` (node 1). -/
def cex2net : Network :=
  { nodes := [(0, ⟨[10, 11], false, 5, false⟩),
              (1, ⟨[12], false, 6, false⟩),
              (2, ⟨[10, 11, 12], true, 0, false⟩)],
    edges := [(10, ⟨0, 0, some 2, some 0, 3⟩),
              (11, ⟨0, 1, some 2, some 1, 3⟩),
              (12, ⟨2, 2, some 1, some 0, 3⟩)],
    nodesSet := [0, 1, 2], nextNodeId := 3, nextEdgeId := 20 }

/-- The builder state carried by an extended merge result. -/
def extractBuild : Except Err MergeResult → Option BuildSt
  | .ok (.extended _ _ _ _ st) => some st
  | _ => none

/-- C2 fails on `cex2net`: both axes of `node1` touch the shared copy 2, yet
the built expression is `"ab,a->b"` — the copy's label appears only on the
first of the two touching axes, so no single label covers them both. -/
theorem contract_c2_counterexample :
    cex2net.neighborOf 0 (cex2net.slotOf 0 0) = some 2 ∧
    cex2net.neighborOf 0 (cex2net.slotOf 0 1) = some 2 ∧
    (extractBuild (contract_between_with_copies (fun _ _ _ => 0)
      cex2net 0 1 [2])).isSome ∧
    mkEinsumExpr ((extractBuild (contract_between_with_copies (fun _ _ _ => 0)
      cex2net 0 1 [2])).getD ⟨cex2net, 0, [], [], [], [], []⟩) = "ab,a->b" ∧
    ¬ diagLabelAt cex2net 0 1 2
      ((extractBuild (contract_between_with_copies (fun _ _ _ => 0)
        cex2net 0 1 [2])).getD ⟨cex2net, 0, [], [], [], [], []⟩) := by
  decide

/-- C2 (amended): in every extended pair merge, each remaining shared copy
`c` receives the single label `axisTouching c` — the position of `node1`'s
unique axis touching `c` — which appears on that axis of `node1` and on every
axis of `node2` whose edge touches `c`; labels of distinct copies differ. -/
theorem contract_diagonal_labels (backend : String → Nat → Nat → Nat)
    (net : Network) (n1 n2 : Nat) (cs : List Nat) (p : Network × List Nat)
    (hne : n1 ≠ n2) (htr : trivialize net cs cs = .ok p)
    (hwf : BuildWf p.1 n1 n2 p.2) (hnonempty : p.2 ≠ [])
    (hle : exprDemand p.1 n1 n2 p.2 ≤ 62) :
    ∃ stB, contract_between_with_copies backend net n1 n2 cs
        = buildTail backend stB n1 n2 p.2 ∧
      (∀ c ∈ p.2,
        axisTouching p.1 n1 c < p.1.rankOf n1 ∧
        (∀ i, i < p.1.rankOf n1 →
          p.1.neighborOf n1 (p.1.slotOf n1 i) = some c →
          i = axisTouching p.1 n1 c) ∧
        stB.node1Expr.getD (axisTouching p.1 n1 c) 0 = axisTouching p.1 n1 c ∧
        (∀ j, j < p.1.rankOf n2 →
          p.1.neighborOf n2 (p.1.slotOf n2 j) = some c →
          stB.node2Expr.getD j 0 = axisTouching p.1 n1 c)) ∧
      (∀ c ∈ p.2, ∀ c2 ∈ p.2, c ≠ c2 →
        axisTouching p.1 n1 c ≠ axisTouching p.1 n1 c2) := by
  obtain ⟨stB, hB1, hB2, hB3, hB4, hB5, hB6, hB7, hN1, hN2, hOE, hPlan, hCop,
    hrun⟩ := buildPhase_ok backend p.1 n1 n2 p.2 hwf hle
  have hC3 := hwf.2.2.2.2.2.2.2.2.2.2.2.2.2.2.1
  have hcontract : contract_between_with_copies backend net n1 n2 cs
      = buildTail backend stB n1 n2 p.2 := by
    unfold contract_between_with_copies
    rw [if_neg hne, htr]
    dsimp only []
    rw [if_neg (by simpa using hnonempty)]
    exact hrun
  refine ⟨stB, hcontract, ?_, ?_⟩
  · intro c hc
    have hATl := axisTouching_lt (hC3 c hc).2.1
    have hcn1 : c ≠ n1 := fun h => hwf.2.1 (h ▸ hc)
    refine ⟨hATl.1, ?_, ?_, ?_⟩
    · intro i hi hnb
      exact (axisTouching_eq (hC3 c hc).2.1 hi hnb).symm
    · rw [hN1, getD_range hATl.1]
    · intro j hj hnb
      have hcl := classify_of_copy_neighbor p.1 n1 n2 p.2 hc hcn1 hnb
      rw [hN2, getD_map_range _ hj]
      unfold char2
      rw [hcl]
  · intro c hc c2 hc2 hne2 heq
    have h1 := (axisTouching_lt (hC3 c hc).2.1).2
    have h2 := (axisTouching_lt (hC3 c2 hc2).2.1).2
    rw [heq] at h1
    exact hne2 ((Option.some.injEq .. ▸ (h1.symm.trans h2) :))

/-- A well-formed extended merge: nodes 0 and 1 each share one axis with the
rank-3 copy node 2, whose third axis dangles. -/
def c2wit : Network :=
  { nodes := [(0, ⟨[10], false, 5, false⟩),
              (1, ⟨[11], false, 6, false⟩),
              (2, ⟨[10, 11, 12], true, 0, false⟩)],
    edges := [(10, ⟨0, 0, some 2, some 0, 3⟩),
              (11, ⟨1, 0, some 2, some 1, 3⟩),
              (12, ⟨2, 2, none, none, 3⟩)],
    nodesSet := [0, 1, 2], nextNodeId := 3, nextEdgeId := 20 }

theorem contract_diagonal_labels_witness :
    (0 : Nat) ≠ 1 ∧ trivialize c2wit [2] [2] = .ok (c2wit, [2]) ∧
    BuildWf c2wit 0 1 [2] ∧ ([2] : List Nat) ≠ [] ∧
    exprDemand c2wit 0 1 [2] ≤ 62 ∧
    (∃ stB, contract_between_with_copies (fun _ _ _ => 0) c2wit 0 1 [2]
        = buildTail (fun _ _ _ => 0) stB 0 1 [2] ∧
      (∀ c ∈ ([2] : List Nat),
        axisTouching c2wit 0 c < c2wit.rankOf 0 ∧
        (∀ i, i < c2wit.rankOf 0 →
          c2wit.neighborOf 0 (c2wit.slotOf 0 i) = some c →
          i = axisTouching c2wit 0 c) ∧
        stB.node1Expr.getD (axisTouching c2wit 0 c) 0 = axisTouching c2wit 0 c ∧
        (∀ j, j < c2wit.rankOf 1 →
          c2wit.neighborOf 1 (c2wit.slotOf 1 j) = some c →
          stB.node2Expr.getD j 0 = axisTouching c2wit 0 c)) ∧
      (∀ c ∈ ([2] : List Nat), ∀ c2 ∈ ([2] : List Nat), c ≠ c2 →
        axisTouching c2wit 0 c ≠ axisTouching c2wit 0 c2)) := by
  refine ⟨by decide, by rfl, by decide, by decide, by decide, ?_⟩
  exact contract_diagonal_labels (fun _ _ _ => 0) c2wit 0 1 [2] (c2wit, [2])
    (by decide) (by rfl) (by decide) (by decide) (by decide)

theorem addNode_fold_getEdge (ν base : Nat) :
    ∀ (l : List Nat) (acc : Network) (k : Nat), (∀ i ∈ l, k ≠ base + i) →
      ((l.foldl (fun acc i =>
          acc.setEdge (base + i) ⟨ν, i, none, none, 0⟩) acc).getEdge k)
        = acc.getEdge k := by
  intro l
  induction l with
  | nil =>
    intro acc k h
    rfl
  | cons a rest ih =>
    intro acc k h
    have h2 := ih (acc.setEdge (base + a) ⟨ν, a, none, none, 0⟩) k
      (fun i hi => h i (List.mem_cons_of_mem _ hi))
    rw [show (a :: rest).foldl (fun acc i =>
        acc.setEdge (base + i) ⟨ν, i, none, none, 0⟩) acc
      = rest.foldl (fun acc i => acc.setEdge (base + i) ⟨ν, i, none, none, 0⟩)
          (acc.setEdge (base + a) ⟨ν, a, none, none, 0⟩) from rfl, h2]
    exact getEdge_setEdge_ne _ _ _ _ (h a (List.mem_cons_self _ _))

theorem addNode_fold_frame (ν base : Nat) :
    ∀ (l : List Nat) (acc : Network),
      ((l.foldl (fun acc i =>
          acc.setEdge (base + i) ⟨ν, i, none, none, 0⟩) acc).nodes = acc.nodes ∧
       (l.foldl (fun acc i =>
          acc.setEdge (base + i) ⟨ν, i, none, none, 0⟩) acc).nodesSet = acc.nodesSet ∧
       (l.foldl (fun acc i =>
          acc.setEdge (base + i) ⟨ν, i, none, none, 0⟩) acc).nextNodeId = acc.nextNodeId ∧
       (l.foldl (fun acc i =>
          acc.setEdge (base + i) ⟨ν, i, none, none, 0⟩) acc).nextEdgeId = acc.nextEdgeId) := by
  intro l
  induction l with
  | nil =>
    intro acc
    exact ⟨rfl, rfl, rfl, rfl⟩
  | cons a rest ih =>
    intro acc
    exact ih (acc.setEdge (base + a) ⟨ν, a, none, none, 0⟩)

/-- Full description of `add_node` for the contractor's fused result node. -/
theorem addNode_spec (net : Network) (tensor rank : Nat) :
    (net.addNode tensor rank).2 = net.nextNodeId ∧
    (net.addNode tensor rank).1.getNode net.nextNodeId
      = some ⟨(List.range rank).map (fun i => net.nextEdgeId + i),
          false, tensor, false⟩ ∧
    (∀ n, n ≠ net.nextNodeId →
      (net.addNode tensor rank).1.getNode n = net.getNode n) ∧
    (∀ k, k < net.nextEdgeId →
      (net.addNode tensor rank).1.getEdge k = net.getEdge k) ∧
    (net.addNode tensor rank).1.nodesSet = net.nodesSet ++ [net.nextNodeId] ∧
    (net.addNode tensor rank).1.nextNodeId = net.nextNodeId + 1 ∧
    (net.addNode tensor rank).1.nextEdgeId = net.nextEdgeId + rank := by
  unfold Network.addNode
  dsimp only []
  have hfr := addNode_fold_frame net.nextNodeId net.nextEdgeId (List.range rank)
    { net with nextNodeId := net.nextNodeId + 1,
               nextEdgeId := net.nextEdgeId + rank }
  refine ⟨rfl, ?_, ?_, ?_, ?_, ?_, ?_⟩
  · exact getNode_setNode_self _ _ _
  · intro n hn
    show lookupA (setA ((List.range rank).foldl (fun (acc : Network) (i : Nat) =>
        acc.setEdge (net.nextEdgeId + i)
          ⟨net.nextNodeId, i, none, none, 0⟩)
        { net with nextNodeId := net.nextNodeId + 1,
                   nextEdgeId := net.nextEdgeId + rank }).nodes
        net.nextNodeId
        ⟨(List.range rank).map (fun i => net.nextEdgeId + i),
          false, tensor, false⟩) n
      = lookupA net.nodes n
    rw [lookupA_setA_ne _ _ _ _ hn, hfr.1]
  · intro k hk
    exact addNode_fold_getEdge net.nextNodeId net.nextEdgeId (List.range rank)
      { net with nextNodeId := net.nextNodeId + 1,
                 nextEdgeId := net.nextEdgeId + rank }
      k (fun i hi => by omega)
  · show ((List.range rank).foldl (fun (acc : Network) (i : Nat) =>
        acc.setEdge (net.nextEdgeId + i)
          ⟨net.nextNodeId, i, none, none, 0⟩)
        { net with nextNodeId := net.nextNodeId + 1,
                   nextEdgeId := net.nextEdgeId + rank }).nodesSet
        ++ [net.nextNodeId]
      = net.nodesSet ++ [net.nextNodeId]
    rw [hfr.2.1]
  · show ((List.range rank).foldl (fun (acc : Network) (i : Nat) =>
        acc.setEdge (net.nextEdgeId + i)
          ⟨net.nextNodeId, i, none, none, 0⟩)
        { net with nextNodeId := net.nextNodeId + 1,
                   nextEdgeId := net.nextEdgeId + rank }).nextNodeId
      = net.nextNodeId + 1
    rw [hfr.2.2.1]
  · show ((List.range rank).foldl (fun (acc : Network) (i : Nat) =>
        acc.setEdge (net.nextEdgeId + i)
          ⟨net.nextNodeId, i, none, none, 0⟩)
        { net with nextNodeId := net.nextNodeId + 1,
                   nextEdgeId := net.nextEdgeId + rank }).nextEdgeId
      = net.nextEdgeId + rank
    rw [hfr.2.2.2]

theorem nodup_filterMap_mem {α β : Type} {f : α → Option β} {l : List α}
    (hl : l.Nodup)
    (hinj : ∀ a ∈ l, ∀ a2 ∈ l, ∀ b, f a = some b → f a2 = some b → a = a2) :
    (l.filterMap f).Nodup := by
  induction l with
  | nil => exact List.nodup_nil
  | cons a rest ih =>
    have hl2 := List.nodup_cons.mp hl
    cases hfa : f a with
    | none =>
      rw [List.filterMap_cons_none hfa]
      exact ih hl2.2 (fun a2 h2 a3 h3 b hb2 hb3 =>
        hinj a2 (List.mem_cons_of_mem _ h2) a3 (List.mem_cons_of_mem _ h3) b hb2 hb3)
    | some b =>
      rw [List.filterMap_cons_some hfa]
      refine List.nodup_cons.mpr ⟨?_, ih hl2.2 (fun a2 h2 a3 h3 b2 hb2 hb3 =>
        hinj a2 (List.mem_cons_of_mem _ h2) a3 (List.mem_cons_of_mem _ h3) b2 hb2 hb3)⟩
      intro hmem
      obtain ⟨a2, ha2, hfa2⟩ := List.mem_filterMap.mp hmem
      have : a = a2 := hinj a (List.mem_cons_self _ _) a2
        (List.mem_cons_of_mem _ ha2) b hfa hfa2
      rw [this] at hl2
      exact hl2.1 ha2

theorem third_mem {net0 : Network} {n1 n2 c ce : Nat}
    (h : ce ∈ copyThirdSlots net0 n1 n2 c) :
    ce ∈ (net0.getNodeD c).slots ∧ thirdCond net0 n1 n2 ce = true :=
  ⟨(List.mem_filter.mp h).1, (List.mem_filter.mp h).2⟩

theorem thirdCond_elim {net0 : Network} {n1 n2 ce : Nat}
    (h : thirdCond net0 n1 n2 ce = true) :
    (net0.getEdgeD ce).node1 ≠ n1 ∧ (net0.getEdgeD ce).node2 ≠ some n1 ∧
    (net0.getEdgeD ce).node1 ≠ n2 ∧ (net0.getEdgeD ce).node2 ≠ some n2 := by
  unfold thirdCond at h
  dsimp only [] at h
  simp only [Bool.and_eq_true, Bool.not_eq_true', Bool.or_eq_false_iff,
    beq_eq_false_iff_ne, ne_eq] at h
  exact ⟨h.1.1.1, h.1.1.2, h.1.2, h.2⟩

theorem mem_slots_record (net0 : Network) (c ce : Nat)
    (hOkC : ∀ a ∈ List.range (net0.rankOf c), endpointOkP net0 c a)
    (h : ce ∈ (net0.getNodeD c).slots) :
    ∃ er, net0.getEdge ce = some er ∧
      ((er.node1 = c ∧ er.node2 ≠ some c) ∨
       (er.node2 = some c ∧ er.node1 ≠ c)) := by
  obtain ⟨⟨a, haL⟩, hget⟩ := List.mem_iff_get.mp h
  have hceD : net0.slotOf c a = ce := by
    unfold Network.slotOf
    rw [List.getD_eq_get _ _ haL]
    exact hget
  obtain ⟨er, her, hor⟩ := endpointOkP_elim (hOkC a (List.mem_range.mpr haL))
  rw [hceD] at her
  refine ⟨er, her, ?_⟩
  rcases hor with ⟨h1, -, h3⟩ | ⟨h1, -, h3⟩
  · exact Or.inl ⟨h1, h3⟩
  · exact Or.inr ⟨h1, h3⟩

theorem touches_of_endpoint {er : Edge} {c : Nat}
    (h : (er.node1 = c ∧ er.node2 ≠ some c) ∨
         (er.node2 = some c ∧ er.node1 ≠ c)) :
    er.touches c = true := by
  unfold Edge.touches
  rcases h with ⟨h1, -⟩ | ⟨h1, -⟩ <;> simp [h1]

/-- The three possible shapes of the entries contributed by a `node1` axis. -/
theorem out1Entries_cases (net0 : Network) (n1 n2 : Nat) (cs : List Nat)
    (i : Nat) :
    (∃ m, net0.neighborOf n1 (net0.slotOf n1 i) = some m ∧ m ≠ n2 ∧ m ∈ cs ∧
      out1Entries net0 n1 n2 cs i
        = (copyThirdSlots net0 n1 n2 m).map (fun ce => (ce, m, i))) ∨
    (out1Entries net0 n1 n2 cs i = [(net0.slotOf n1 i, n1, i)] ∧
      (∀ c ∈ cs, net0.neighborOf n1 (net0.slotOf n1 i) ≠ some c) ∧
      net0.neighborOf n1 (net0.slotOf n1 i) ≠ some n2) ∨
    (net0.neighborOf n1 (net0.slotOf n1 i) = some n2 ∧
      out1Entries net0 n1 n2 cs i = []) := by
  unfold out1Entries
  dsimp only []
  rw [show (if (net0.getEdgeD (net0.slotOf n1 i)).node1 == n1
      then (net0.getEdgeD (net0.slotOf n1 i)).node2
      else some (net0.getEdgeD (net0.slotOf n1 i)).node1)
    = net0.neighborOf n1 (net0.slotOf n1 i) from rfl]
  cases hnb : net0.neighborOf n1 (net0.slotOf n1 i) with
  | none =>
    exact Or.inr (Or.inl ⟨rfl, fun c _ h => Option.noConfusion h,
      fun h => Option.noConfusion h⟩)
  | some m =>
    dsimp only []
    by_cases hm2 : m = n2
    · subst hm2
      rw [if_pos rfl]
      exact Or.inr (Or.inr ⟨rfl, rfl⟩)
    · by_cases hmcs : m ∈ cs
      · rw [if_neg hm2, if_pos hmcs]
        exact Or.inl ⟨m, rfl, hm2, hmcs, rfl⟩
      · rw [if_neg hm2, if_neg hmcs]
        refine Or.inr (Or.inl ⟨rfl, ?_, ?_⟩)
        · intro c hc h
          exact hmcs (((Option.some.injEq .. ▸ h :)) ▸ hc)
        · intro h
          exact hm2 ((Option.some.injEq .. ▸ h :))

/-- Where an edge identifier appearing among a `node1` axis's output entries
can come from. -/
theorem part1_fst_cases (net0 : Network) (n1 n2 : Nat) (cs : List Nat)
    {x i : Nat}
    (hx : x ∈ (out1Entries net0 n1 n2 cs i).map (fun e => e.1)) :
    (x = net0.slotOf n1 i ∧
      (∀ c ∈ cs, net0.neighborOf n1 (net0.slotOf n1 i) ≠ some c) ∧
      net0.neighborOf n1 (net0.slotOf n1 i) ≠ some n2) ∨
    (∃ m, m ∈ cs ∧ net0.neighborOf n1 (net0.slotOf n1 i) = some m ∧
      x ∈ copyThirdSlots net0 n1 n2 m) := by
  rcases out1Entries_cases net0 n1 n2 cs i with
    ⟨m, hm, hm2, hmcs, heq⟩ | ⟨heq, hnc, hn2b⟩ | ⟨hnb, heq⟩
  · rw [heq, List.map_map] at hx
    obtain ⟨ce, hce, hfx⟩ := List.mem_map.mp hx
    exact Or.inr ⟨m, hmcs, hm, (show ce = x from hfx) ▸ hce⟩
  · rw [heq] at hx
    have hxe : x = net0.slotOf n1 i := by simpa using hx
    exact Or.inl ⟨hxe, hnc, hn2b⟩
  · rw [heq] at hx
    simp at hx

theorem out2Entry_fst_eq {net0 : Network} {n1 n2 : Nat} {cs : List Nat}
    {j b : Nat}
    (h : (out2Entry net0 n1 n2 cs j).map (fun e => e.1) = some b) :
    unbound2 net0 n1 n2 cs j = true ∧ b = net0.slotOf n2 j := by
  unfold out2Entry at h
  by_cases hu : unbound2 net0 n1 n2 cs j
  · rw [if_pos hu, Option.map_some'] at h
    exact ⟨hu, ((Option.some.injEq .. ▸ h :)).symm⟩
  · rw [if_neg hu] at h
    exact absurd h (by simp)

theorem part2_fst_cases {net0 : Network} {n1 n2 : Nat} {cs : List Nat} {x : Nat}
    (hx : x ∈ ((List.range (net0.rankOf n2)).filterMap
      (out2Entry net0 n1 n2 cs)).map (fun e => e.1)) :
    ∃ j, j < net0.rankOf n2 ∧ unbound2 net0 n1 n2 cs j = true ∧
      x = net0.slotOf n2 j := by
  rw [List.map_filterMap] at hx
  obtain ⟨j, hj, hfj⟩ := List.mem_filterMap.mp hx
  obtain ⟨hu, hb⟩ := out2Entry_fst_eq hfj
  exact ⟨j, List.mem_range.mp hj, hu, hb⟩

/-- An edge emitted by the `node1` walk never coincides with the edge of a
surviving (`fresh`) `node2` axis. -/
theorem part1_part2_disjoint (net0 : Network) (n1 n2 : Nat) (cs : List Nat)
    (hwf : BuildWf net0 n1 n2 cs) {x i : Nat} (hi : i < net0.rankOf n1)
    (hx1 : x ∈ (out1Entries net0 n1 n2 cs i).map (fun e => e.1))
    {j : Nat} (hj : j < net0.rankOf n2)
    (hu : unbound2 net0 n1 n2 cs j = true)
    (hxj : x = net0.slotOf n2 j) : False := by
  obtain ⟨hne, hn1cs, hn2cs, hcsnd, hESB0, hNSB0, hndset, hn1s, hn2s, hOk1,
    hOk2, hOkCall, hCoh, hRec, hC3, hDisj, hCsIn⟩ := hwf
  obtain ⟨er2, her2, hor2⟩ := endpointOkP_elim (hOk2 j (List.mem_range.mpr hj))
  rw [← hxj] at her2
  rcases part1_fst_cases net0 n1 n2 cs hx1 with
    ⟨hxa, hnc, hn2b⟩ | ⟨m, hmcs, hnb, hth⟩
  · obtain ⟨er1, her1, hor1⟩ := endpointOkP_elim (hOk1 i (List.mem_range.mpr hi))
    rw [← hxa] at her1
    rw [her1] at her2
    have hee : er1 = er2 := (Option.some.injEq .. ▸ her2 :)
    rw [← hee] at hor2
    rcases hor1 with ⟨a1, -, a3⟩ | ⟨a1, -, a3⟩ <;>
      rcases hor2 with ⟨b1, -, b3⟩ | ⟨b1, -, b3⟩
    · exact hne (a1.symm.trans b1)
    · refine hn2b ?_
      rw [← hxa, neighborOf_left her1 a1]
      exact b1
    · refine hn2b ?_
      rw [← hxa, neighborOf_right her1 a3, b1]
    · rw [a1] at b1
      exact hne (Option.some.injEq .. ▸ b1 :)
  · obtain ⟨hmem, hthc⟩ := third_mem hth
    obtain ⟨-, -, ht3, ht4⟩ := thirdCond_elim hthc
    have hgd : net0.getEdgeD x = er2 := by simp [Network.getEdgeD, her2]
    rcases hor2 with ⟨b1, -, -⟩ | ⟨b1, -, -⟩
    · exact ht3 (by rw [hgd]; exact b1)
    · exact ht4 (by rw [hgd]; exact b1)

/-- Two distinct `node1` axes contribute disjoint plan-edge sets. -/
theorem part1_pair_disjoint (net0 : Network) (n1 n2 : Nat) (cs : List Nat)
    (hwf : BuildWf net0 n1 n2 cs) {i1 i2 : Nat}
    (h1 : i1 < net0.rankOf n1) (h2 : i2 < net0.rankOf n1) (hne12 : i1 ≠ i2) :
    List.Disjoint ((out1Entries net0 n1 n2 cs i1).map (fun e => e.1))
      ((out1Entries net0 n1 n2 cs i2).map (fun e => e.1)) := by
  obtain ⟨hne, hn1cs, hn2cs, hcsnd, hESB0, hNSB0, hndset, hn1s, hn2s, hOk1,
    hOk2, hOkCall, hCoh, hRec, hC3, hDisj, hCsIn⟩ := hwf
  intro x hx1 hx2
  rcases part1_fst_cases net0 n1 n2 cs hx1 with
    ⟨hxa, -, -⟩ | ⟨m1, hm1cs, hnb1, hth1⟩ <;>
    rcases part1_fst_cases net0 n1 n2 cs hx2 with
      ⟨hxb, -, -⟩ | ⟨m2, hm2cs, hnb2, hth2⟩
  · exact slots_distinct_of_endpointOk hOk1 i1 i2 h1 h2 hne12
      (hxa.symm.trans hxb)
  · obtain ⟨er, her, hor⟩ := endpointOkP_elim (hOk1 i1 (List.mem_range.mpr h1))
    rw [← hxa] at her
    obtain ⟨-, hthc⟩ := third_mem hth2
    obtain ⟨t1, t2, -, -⟩ := thirdCond_elim hthc
    have hgd : net0.getEdgeD x = er := by simp [Network.getEdgeD, her]
    rcases hor with ⟨b1, -, -⟩ | ⟨b1, -, -⟩
    · exact t1 (by rw [hgd]; exact b1)
    · exact t2 (by rw [hgd]; exact b1)
  · obtain ⟨er, her, hor⟩ := endpointOkP_elim (hOk1 i2 (List.mem_range.mpr h2))
    rw [← hxb] at her
    obtain ⟨-, hthc⟩ := third_mem hth1
    obtain ⟨t1, t2, -, -⟩ := thirdCond_elim hthc
    have hgd : net0.getEdgeD x = er := by simp [Network.getEdgeD, her]
    rcases hor with ⟨b1, -, -⟩ | ⟨b1, -, -⟩
    · exact t1 (by rw [hgd]; exact b1)
    · exact t2 (by rw [hgd]; exact b1)
  · by_cases hmm : m1 = m2
    · rw [hmm] at hnb1
      have hlen := (hC3 m2 hm2cs).2.1
      have hf1 : i1 ∈ (List.range (net0.rankOf n1)).filter (fun i2 =>
          net0.neighborOf n1 (net0.slotOf n1 i2) == some m2) :=
        List.mem_filter.mpr ⟨List.mem_range.mpr h1, by simp [hnb1]⟩
      have hf2 : i2 ∈ (List.range (net0.rankOf n1)).filter (fun i2 =>
          net0.neighborOf n1 (net0.slotOf n1 i2) == some m2) :=
        List.mem_filter.mpr ⟨List.mem_range.mpr h2, by simp [hnb2]⟩
      rw [list_len1_mem hlen hf1] at hf2
      exact hne12 ((by simpa using hf2 : i2 = i1)).symm
    · obtain ⟨hmemS1, -⟩ := third_mem hth1
      obtain ⟨hmemS2, -⟩ := third_mem hth2
      obtain ⟨er, her, horc⟩ := mem_slots_record net0 m1 x (hOkCall m1 hm1cs)
        hmemS1
      have hgd : net0.getEdgeD x = er := by simp [Network.getEdgeD, her]
      refine hDisj m2 hm2cs x hmemS2 m1 hm1cs hmm ?_
      rw [hgd]
      exact touches_of_endpoint horc

theorem slots_nodup_of_ok {net0 : Network} {c : Nat}
    (hOk : ∀ a ∈ List.range (net0.rankOf c), endpointOkP net0 c a) :
    (net0.getNodeD c).slots.Nodup := by
  apply nodup_of_getD_distinct
  intro a b ha hb hab
  exact slots_distinct_of_endpointOk hOk a b ha hb hab

/-- The edges listed by one `node1` axis are pairwise distinct. -/
theorem out1Entries_fst_nodup (net0 : Network) (n1 n2 : Nat) (cs : List Nat)
    (hwf : BuildWf net0 n1 n2 cs) (i : Nat) :
    ((out1Entries net0 n1 n2 cs i).map (fun e => e.1)).Nodup := by
  rcases out1Entries_cases net0 n1 n2 cs i with
    ⟨m, hm, hm2, hmcs, heq⟩ | ⟨heq, -, -⟩ | ⟨-, heq⟩
  · rw [heq, List.map_map]
    have hthn : (copyThirdSlots net0 n1 n2 m).Nodup :=
      List.Nodup.filter _ (slots_nodup_of_ok
        (hwf.2.2.2.2.2.2.2.2.2.2.2.1 m hmcs))
    have : (copyThirdSlots net0 n1 n2 m).map
        ((fun (e : Nat × Nat × Nat) => e.1) ∘ (fun ce => (ce, m, i)))
        = copyThirdSlots net0 n1 n2 m := by
      show (copyThirdSlots net0 n1 n2 m).map (fun ce => ce)
        = copyThirdSlots net0 n1 n2 m
      exact List.map_id _
    rw [this]
    exact hthn
  · rw [heq]
    simp only [List.map_cons, List.map_nil]
    exact List.nodup_singleton _
  · rw [heq]
    exact List.nodup_nil

/-- The edges of the full output plan are pairwise distinct. -/
theorem planGhost_fst_nodup (net0 : Network) (n1 n2 : Nat) (cs : List Nat)
    (hwf : BuildWf net0 n1 n2 cs) :
    ((planGhost net0 n1 n2 cs).map (fun e => e.1)).Nodup := by
  unfold planGhost
  rw [List.map_append, List.nodup_append]
  refine ⟨?_, ?_, ?_⟩
  · rw [List.map_flatten, List.map_map, List.nodup_flatten]
    constructor
    · intro l hl
      obtain ⟨i, hi, hli⟩ := List.mem_map.mp hl
      have hli2 : (out1Entries net0 n1 n2 cs i).map (fun e => e.1) = l := hli
      exact hli2 ▸ out1Entries_fst_nodup net0 n1 n2 cs hwf i
    · rw [List.pairwise_map]
      refine List.Pairwise.imp_of_mem ?_ (List.nodup_range (net0.rankOf n1))
      intro i1 i2 hm1 hm2 hne12
      exact part1_pair_disjoint net0 n1 n2 cs hwf (List.mem_range.mp hm1)
        (List.mem_range.mp hm2) hne12
  · rw [List.map_filterMap]
    refine nodup_filterMap_mem (List.nodup_range _) ?_
    intro j1 hj1 j2 hj2 b hb1 hb2
    obtain ⟨hu1, hb1e⟩ := out2Entry_fst_eq hb1
    obtain ⟨hu2, hb2e⟩ := out2Entry_fst_eq hb2
    by_contra hne12
    exact slots_distinct_of_endpointOk hwf.2.2.2.2.2.2.2.2.2.2.1 j1 j2
      (List.mem_range.mp hj1) (List.mem_range.mp hj2) hne12
      (hb1e.symm.trans hb2e)
  · intro x hx1 hx2
    rw [List.map_flatten, List.map_map] at hx1
    obtain ⟨l, hl, hxl⟩ := List.mem_flatten.mp hx1
    obtain ⟨i, hi, hli⟩ := List.mem_map.mp hl
    have hli2 : (out1Entries net0 n1 n2 cs i).map (fun e => e.1) = l := hli
    obtain ⟨j, hj, hu, hxj⟩ := part2_fst_cases hx2
    exact part1_part2_disjoint net0 n1 n2 cs hwf (List.mem_range.mp hi)
      (hli2 ▸ hxl) hj hu hxj

theorem getD_set_at {l : List Nat} {k x : Nat} (hk : k < l.length) :
    (l.set k x).getD k 0 = x := by
  rw [List.getD_eq_getElem?_getD, List.getElem?_set_self hk]
  rfl

theorem getD_set_other {l : List Nat} (k x idx : Nat) (hne : k ≠ idx) :
    (l.set k x).getD idx 0 = l.getD idx 0 := by
  rw [List.getD_eq_getElem?_getD, List.getElem?_set_ne hne,
    ← List.getD_eq_getElem?_getD]

/-- The axis of `node1` whose edge neighbors a shared copy has its slot edge
stored among the copy's slots, and that edge touches `node1`. -/
theorem n1_slot_in_neighbor (net0 : Network) (n1 n2 : Nat) (cs : List Nat)
    (hwf : BuildWf net0 n1 n2 cs) {i c : Nat}
    (hi : i < net0.rankOf n1) (hc : c ∈ cs)
    (hnb : net0.neighborOf n1 (net0.slotOf n1 i) = some c) :
    net0.slotOf n1 i ∈ (net0.getNodeD c).slots ∧
    (net0.getEdgeD (net0.slotOf n1 i)).touches n1 = true := by
  obtain ⟨hne, hn1cs, hn2cs, hcsnd, hESB0, hNSB0, hndset, hn1s, hn2s, hOk1,
    hOk2, hOkCall, hCoh, hRec, hC3, hDisj, hCsIn⟩ := hwf
  obtain ⟨er, her, hor⟩ := endpointOkP_elim (hOk1 i (List.mem_range.mpr hi))
  have hge : net0.getEdgeD (net0.slotOf n1 i) = er := by
    simp [Network.getEdgeD, her]
  have hcoh := hCoh n1 (List.mem_cons_self _ _) c
    (List.mem_cons_of_mem _ (List.mem_cons_of_mem _ hc))
    i (List.mem_range.mpr hi)
  rcases hor with ⟨a1, a2, a3⟩ | ⟨a1, a2, a3⟩
  · have hn2c : er.node2 = some c := by
      rw [neighborOf_left her a1] at hnb
      exact hnb
    have hsome : er.axis2.isSome := by
      have hr := hRec n1 (List.mem_cons_self _ _) i (List.mem_range.mpr hi)
      rw [hge] at hr
      exact hr (by rw [hn2c]; rfl)
    obtain ⟨av, hav⟩ := Option.isSome_iff_exists.mp hsome
    have hco2 := hcoh.2
    rw [hge] at hco2
    have hco3 := hco2 hn2c
    rw [hav] at hco3
    refine ⟨?_, ?_⟩
    · rw [← hco3.2]
      exact getD_mem hco3.1
    · rw [hge]
      unfold Edge.touches
      simp [a1]
  · have hn1c : er.node1 = c := by
      rw [neighborOf_right her a3] at hnb
      exact (Option.some.injEq .. ▸ hnb :)
    have hco1 := hcoh.1
    rw [hge] at hco1
    have hco3 := hco1 hn1c
    refine ⟨?_, ?_⟩
    · rw [← hco3.2]
      exact getD_mem hco3.1
    · rw [hge]
      unfold Edge.touches
      simp [a1]

/-- A slot edge of a shared copy cannot touch both `node1` and `node2`. -/
theorem copy_slot_not_both {net0 : Network} {n1 n2 : Nat} {cs : List Nat}
    (hwf : BuildWf net0 n1 n2 cs) {c s : Nat} (hc : c ∈ cs)
    (hs : s ∈ (net0.getNodeD c).slots) :
    ¬((net0.getEdgeD s).touches n1 = true ∧
      (net0.getEdgeD s).touches n2 = true) := by
  obtain ⟨hne, hn1cs, hn2cs, hcsnd, hESB0, hNSB0, hndset, hn1s, hn2s, hOk1,
    hOk2, hOkCall, hCoh, hRec, hC3, hDisj, hCsIn⟩ := hwf
  obtain ⟨er, her, hor⟩ := mem_slots_record net0 c s (hOkCall c hc) hs
  have hge : net0.getEdgeD s = er := by simp [Network.getEdgeD, her]
  intro hboth
  obtain ⟨h1, h2⟩ := hboth
  rw [hge] at h1 h2
  unfold Edge.touches at h1 h2
  simp only [Bool.or_eq_true, beq_iff_eq] at h1 h2
  have hcn1 : c ≠ n1 := fun h => hn1cs (h ▸ hc)
  have hcn2 : c ≠ n2 := fun h => hn2cs (h ▸ hc)
  rcases hor with ⟨o1, -⟩ | ⟨o1, -⟩
  · rcases h1 with h1a | h1a
    · exact hcn1 (o1.symm.trans h1a)
    · rcases h2 with h2a | h2a
      · exact hcn2 (o1.symm.trans h2a)
      · rw [h1a] at h2a
        exact hne (Option.some.injEq .. ▸ h2a :)
  · rcases h1 with h1a | h1a
    · rcases h2 with h2a | h2a
      · exact hne (h1a.symm.trans h2a)
      · rw [o1] at h2a
        exact hcn2 (Option.some.injEq .. ▸ h2a :)
    · rw [o1] at h1a
      exact hcn1 (Option.some.injEq .. ▸ h1a :)

theorem filter3_length (l : List Nat) (p q : Nat → Bool) :
    (l.filter p).length + (l.filter (fun x => !p x && q x)).length
      + (l.filter (fun x => !p x && !q x)).length = l.length := by
  induction l with
  | nil => rfl
  | cons a rest ih =>
    by_cases hp : p a = true
    · simp [List.filter_cons, hp]
      omega
    · have hp2 : p a = false := by
        cases h : p a
        · rfl
        · exact absurd h hp
      by_cases hq : q a = true
      · simp [List.filter_cons, hp2, hq]
        omega
      · have hq2 : q a = false := by
          cases h : q a
          · rfl
          · exact absurd h hq
        simp [List.filter_cons, hp2, hq2]
        omega

theorem thirdCond_touches (net0 : Network) (n1 n2 s : Nat) :
    thirdCond net0 n1 n2 s
      = (!(net0.getEdgeD s).touches n1 && !(net0.getEdgeD s).touches n2) := by
  unfold thirdCond Edge.touches
  dsimp only []
  have hb : ∀ x y z w : Bool,
      (!(x || y) && !z && !w) = (!(x || y) && !(z || w)) := by decide
  exact hb _ _ _ _

/-- A shared copy exposes at most one third edge: of its three slots, one
touches `node1` and at least one other touches `node2`. -/
theorem thirds_le_one (net0 : Network) (n1 n2 : Nat) (cs : List Nat)
    (hwf : BuildWf net0 n1 n2 cs) {c : Nat} (hc : c ∈ cs) :
    (copyThirdSlots net0 n1 n2 c).length ≤ 1 := by
  have hC3c := hwf.2.2.2.2.2.2.2.2.2.2.2.2.2.2.1 c hc
  obtain ⟨hr3, hlen1, hlenN2⟩ := hC3c
  have hAT := axisTouching_lt hlen1
  obtain ⟨hs0mem, hs0t⟩ := n1_slot_in_neighbor net0 n1 n2 cs hwf hAT.1 hc hAT.2
  have hpart := filter3_length (net0.getNodeD c).slots
    (fun s => (net0.getEdgeD s).touches n1)
    (fun s => (net0.getEdgeD s).touches n2)
  have hthL : copyThirdSlots net0 n1 n2 c
      = (net0.getNodeD c).slots.filter (fun s =>
          !(net0.getEdgeD s).touches n1 && !(net0.getEdgeD s).touches n2) := by
    unfold copyThirdSlots
    exact List.filter_congr (fun s _ => thirdCond_touches net0 n1 n2 s)
  have hlenL : (net0.getNodeD c).slots.length = 3 := hr3
  have hp1 : 0 < ((net0.getNodeD c).slots.filter (fun s =>
      (net0.getEdgeD s).touches n1)).length :=
    List.length_pos.mpr (List.ne_nil_of_mem
      (List.mem_filter.mpr ⟨hs0mem, hs0t⟩))
  have hs2ex : ∃ s2 ∈ (net0.getNodeD c).slots.filter (fun s =>
      (net0.getEdgeD s).touches n2), True := by
    have hpos : 0 < ((net0.getNodeD c).slots.filter (fun s =>
        (net0.getEdgeD s).touches n2)).length := by omega
    obtain ⟨s2, hs2⟩ := List.exists_mem_of_ne_nil _ (List.length_pos.mp hpos)
    exact ⟨s2, hs2, trivial⟩
  obtain ⟨s2, hs2f, -⟩ := hs2ex
  have hs2mem := (List.mem_filter.mp hs2f).1
  have hs2t2 := (List.mem_filter.mp hs2f).2
  have hs2nt1 : (net0.getEdgeD s2).touches n1 = false := by
    cases h : (net0.getEdgeD s2).touches n1
    · rfl
    · exact absurd ⟨h, hs2t2⟩ (copy_slot_not_both hwf hc hs2mem)
  have hp2 : 0 < ((net0.getNodeD c).slots.filter (fun s =>
      !(net0.getEdgeD s).touches n1 && (net0.getEdgeD s).touches n2)).length :=
    List.length_pos.mpr (List.ne_nil_of_mem
      (List.mem_filter.mpr ⟨hs2mem, by rw [hs2nt1, hs2t2]; rfl⟩))
  rw [hthL]
  omega

theorem removeNodeAux_noop (c : Nat) (net : Network) :
    ∀ l : List (Nat × Nat),
      (∀ p ∈ l, (net.getEdgeD p.2).isDangling = true ∨
        (net.getEdgeD p.2).touches c = false) →
      removeNodeAux c net l = (net, []) := by
  intro l
  induction l with
  | nil => intro _; rfl
  | cons p rest ih =>
    intro h
    obtain ⟨i, eid⟩ := p
    unfold removeNodeAux
    rw [if_neg ?_]
    · exact ih (fun p2 hp2 => h p2 (List.mem_cons_of_mem _ hp2))
    · intro hcond
      rcases h (i, eid) (List.mem_cons_self _ _) with hd | ht
      · exact hcond.1 hd
      · rw [ht] at hcond
        exact Bool.false_ne_true hcond.2

/-- `remove_node` on a node all of whose slot edges are dangling or already
retargeted away changes only the node's disabled flag and the node set. -/
theorem removeNode_noop (c : Nat) (net : Network)
    (h : ∀ s ∈ (net.getNodeD c).slots, (net.getEdgeD s).isDangling = true ∨
      (net.getEdgeD s).touches c = false) :
    net.removeNode c
      = ({ net.setNode c { net.getNodeD c with disabled := true } with
          nodesSet := net.nodesSet.erase c }, []) := by
  unfold Network.removeNode
  rw [removeNodeAux_noop c net _ (fun p hp =>
    h p.2 (List.snd_mem_of_mem_enum hp))]
  rfl

/-- Every entry of the output plan is a surviving `node1` axis, an exposed
third edge of a shared copy, or a surviving `node2` axis. -/
theorem plan_entry_shape (net0 : Network) (n1 n2 : Nat) (cs : List Nat)
    {e : Nat × Nat × Nat} (he : e ∈ planGhost net0 n1 n2 cs) :
    (∃ i, i < net0.rankOf n1 ∧ e = (net0.slotOf n1 i, n1, i) ∧
      (∀ c ∈ cs, net0.neighborOf n1 (net0.slotOf n1 i) ≠ some c) ∧
      net0.neighborOf n1 (net0.slotOf n1 i) ≠ some n2) ∨
    (∃ m i, m ∈ cs ∧ i < net0.rankOf n1 ∧
      net0.neighborOf n1 (net0.slotOf n1 i) = some m ∧
      e.1 ∈ copyThirdSlots net0 n1 n2 m ∧ e.2.1 = m ∧ e.2.2 = i) ∨
    (∃ j, j < net0.rankOf n2 ∧ unbound2 net0 n1 n2 cs j = true ∧
      e = (net0.slotOf n2 j, n2, j)) := by
  unfold planGhost at he
  rcases List.mem_append.mp he with h1 | h2
  · obtain ⟨l, hl, hel⟩ := List.mem_flatten.mp h1
    obtain ⟨i, hi, hli⟩ := List.mem_map.mp hl
    rw [← hli] at hel
    rcases out1Entries_cases net0 n1 n2 cs i with
      ⟨m, hm, hm2, hmcs, heq⟩ | ⟨heq, hnc, hn2b⟩ | ⟨-, heq⟩
    · rw [heq] at hel
      obtain ⟨ce, hce, hfe⟩ := List.mem_map.mp hel
      refine Or.inr (Or.inl ⟨m, i, hmcs, List.mem_range.mp hi, hm, ?_, ?_, ?_⟩)
      · rw [← hfe]
        exact hce
      · rw [← hfe]
      · rw [← hfe]
    · rw [heq] at hel
      have he2 : e = (net0.slotOf n1 i, n1, i) := by simpa using hel
      exact Or.inl ⟨i, List.mem_range.mp hi, he2, hnc, hn2b⟩
    · rw [heq] at hel
      simp at hel
  · obtain ⟨j, hj, hfj⟩ := List.mem_filterMap.mp h2
    unfold out2Entry at hfj
    by_cases hu : unbound2 net0 n1 n2 cs j
    · rw [if_pos hu] at hfj
      refine Or.inr (Or.inr ⟨j, List.mem_range.mp hj, hu, ?_⟩)
      exact ((Option.some.injEq .. ▸ hfj :)).symm
    · rw [if_neg hu] at hfj
      cases hfj

theorem updateAxis_left {net : Network} {eid old : Nat} {er : Edge}
    (hge : net.getEdge eid = some er) (h1 : er.node1 = old) (ν k : Nat) :
    net.updateAxis eid old ν k
      = net.setEdge eid ⟨ν, k, er.node2, er.axis2, er.dim⟩ := by
  unfold Network.updateAxis
  dsimp only []
  have hgd : net.getEdgeD eid = er := by simp [Network.getEdgeD, hge]
  rw [hgd, if_pos (show (er.node1 == old) = true by simp [h1])]

theorem updateAxis_right {net : Network} {eid old : Nat} {er : Edge}
    (hge : net.getEdge eid = some er) (h1 : er.node1 ≠ old)
    (h2 : er.node2 = some old) (ν k : Nat) :
    net.updateAxis eid old ν k
      = net.setEdge eid ⟨er.node1, er.axis1, some ν, some k, er.dim⟩ := by
  unfold Network.updateAxis
  dsimp only []
  have hgd : net.getEdgeD eid = er := by simp [Network.getEdgeD, hge]
  rw [hgd, if_neg (show ¬(er.node1 == old) = true by simp [h1]),
    if_pos (show (er.node2 == some old) = true by simp [h2])]

/-- Loop invariant of the rewiring loop: `done` entries are installed on the
new node `ν` at their plan positions, `rest` entries still carry their
pre-merge records, the remaining copies' slots are exposed-or-dangling, and
the node set stays duplicate-free with `ν` present. -/
def RewireInv (net0 : Network) (n1 n2 : Nat) (cs : List Nat) (ν T E0 : Nat)
    (done rest : List (Nat × Nat × Nat)) (net : Network) (csR : List Nat) :
    Prop :=
  (net.getNode ν).isSome ∧
  (net.getNodeD ν).slots.length = done.length + rest.length ∧
  (net.getNodeD ν).tensor = T ∧
  (net.getNodeD ν).isCopy = false ∧
  (net.getNodeD ν).disabled = false ∧
  (∀ idx, idx < done.length →
    (net.getNodeD ν).slots.getD idx 0 = (done.getD idx (0, 0, 0)).1) ∧
  (∀ idx, done.length ≤ idx → idx < done.length + rest.length →
    (net.getNodeD ν).slots.getD idx 0 = E0 + idx) ∧
  (∀ idx, idx < done.length → ∃ er,
    net.getEdge ((done.getD idx (0, 0, 0)).1) = some er ∧
    ((er.node1 = ν ∧ er.axis1 = idx) ∨
     (er.node2 = some ν ∧ er.axis2 = some idx))) ∧
  (∀ e ∈ rest, net.getEdge e.1 = net0.getEdge e.1) ∧
  (∀ c ∈ csR, c ∈ cs) ∧ csR.Nodup ∧
  (∀ c ∈ csR, ∀ s ∈ (net.getNodeD c).slots,
    (s ∈ copyThirdSlots net0 n1 n2 c ∧ net.getEdge s = net0.getEdge s) ∨
    (∃ er, net.getEdge s = some er ∧ er.isDangling = true ∧ er.node1 = c)) ∧
  net.nodesSet.Nodup ∧ ν ∈ net.nodesSet

theorem getD_map_fst {l : List (Nat × Nat × Nat)} {idx : Nat}
    (h : idx < l.length) :
    (l.map (fun e => e.1)).getD idx 0 = (l.getD idx (0, 0, 0)).1 := by
  have h2 : idx < (l.map (fun e => e.1)).length := by simpa using h
  rw [List.getD_eq_get _ _ h2, List.getD_eq_get _ _ h]
  simp

/-- The rewiring loop installs the plan's edges on the new node `ν` in plan
order and keeps the invariant. -/
theorem rewire_go (net0 : Network) (n1 n2 : Nat) (cs : List Nat)
    (hwf : BuildWf net0 n1 n2 cs) (ν T E0 : Nat)
    (hν : ν = net0.nextNodeId) :
    ∀ (rest done : List (Nat × Nat × Nat)) (net : Network) (csR : List Nat),
      planGhost net0 n1 n2 cs = done ++ rest →
      RewireInv net0 n1 n2 cs ν T E0 done rest net csR →
      RewireInv net0 n1 n2 cs ν T E0 (done ++ rest) []
        (rewireAux ν net csR done.length rest).1
        (rewireAux ν net csR done.length rest).2 := by
  have hwf2 := hwf
  obtain ⟨hne, hn1cs, hn2cs, hcsnd, hESB0, hNSB0, hndset0, hn1s, hn2s, hOk1,
    hOk2, hOkCall, hCoh, hRec, hC3, hDisj, hCsIn⟩ := hwf2
  have hcslt : ∀ c ∈ cs, c < ν := by
    intro c hc
    rw [hν]
    have hr3 := (hC3 c hc).1
    exact node_lt_of_getNode_isSome hNSB0
      (getNode_isSome_of_rank_pos (by rw [hr3]; omega))
  intro rest
  induction rest with
  | nil =>
    intro done net csR hsplit hinv
    have hred : rewireAux ν net csR done.length [] = (net, csR) := rfl
    rw [hred, List.append_nil]
    exact hinv
  | cons e rest' ih =>
    intro done net csR hsplit hinv
    obtain ⟨eid, oldNode, oax⟩ := e
    obtain ⟨K1, K2, K3, K4, K5, K6, K7, K8, K9, K10, K11, K12, K13, K14⟩ := hinv
    have heP : (eid, oldNode, oax) ∈ planGhost net0 n1 n2 cs := by
      rw [hsplit]
      exact List.mem_append_right _ (List.mem_cons_self _ _)
    have hshape := plan_entry_shape net0 n1 n2 cs heP
    have hkey : ∃ er0, net0.getEdge eid = some er0 ∧
        ((er0.node1 = oldNode ∧ er0.node2 ≠ some oldNode) ∨
         (er0.node2 = some oldNode ∧ er0.node1 ≠ oldNode)) ∧
        (oldNode ∈ cs → eid ∈ copyThirdSlots net0 n1 n2 oldNode) ∧
        (oldNode = n1 ∨ oldNode = n2 ∨ oldNode ∈ cs) := by
      rcases hshape with ⟨i, hi, heq, -, -⟩ |
        ⟨m, i, hmcs, hi, hnb, hth, hold, -⟩ | ⟨j, hj, hu, heq⟩
      · have htr : eid = net0.slotOf n1 i ∧ oldNode = n1 ∧ oax = i := by
          simpa using heq
        obtain ⟨he1, he2, -⟩ := htr
        subst he2
        obtain ⟨er, her, hor⟩ := endpointOkP_elim
          (hOk1 i (List.mem_range.mpr hi))
        rw [← he1] at her
        refine ⟨er, her, ?_, fun hcs => absurd hcs hn1cs, Or.inl rfl⟩
        rcases hor with ⟨a1, -, a3⟩ | ⟨a1, -, a3⟩
        · exact Or.inl ⟨a1, a3⟩
        · exact Or.inr ⟨a1, a3⟩
      · have hold2 : oldNode = m := hold
        subst hold2
        have hth2 : eid ∈ copyThirdSlots net0 n1 n2 oldNode := hth
        obtain ⟨hthmem, -⟩ := third_mem hth2
        obtain ⟨er, her, hor⟩ := mem_slots_record net0 oldNode eid
          (hOkCall oldNode hmcs) hthmem
        exact ⟨er, her, hor, fun _ => hth2, Or.inr (Or.inr hmcs)⟩
      · have htr : eid = net0.slotOf n2 j ∧ oldNode = n2 ∧ oax = j := by
          simpa using heq
        obtain ⟨he1, he2, -⟩ := htr
        subst he2
        obtain ⟨er, her, hor⟩ := endpointOkP_elim
          (hOk2 j (List.mem_range.mpr hj))
        rw [← he1] at her
        refine ⟨er, her, ?_, fun hcs => absurd hcs hn2cs,
          Or.inr (Or.inl rfl)⟩
        rcases hor with ⟨a1, -, a3⟩ | ⟨a1, -, a3⟩
        · exact Or.inl ⟨a1, a3⟩
        · exact Or.inr ⟨a1, a3⟩
    obtain ⟨er0, her0, horOld, hthird, holdcases⟩ := hkey
    have hold_lt : oldNode < ν := by
      rcases holdcases with h | h | h
      · rw [h, hν]
        exact node_lt_of_getNode_isSome hNSB0 hn1s
      · rw [h, hν]
        exact node_lt_of_getNode_isSome hNSB0 hn2s
      · exact hcslt oldNode h
    have hreceid : net.getEdge eid = some er0 := by
      rw [K9 (eid, oldNode, oax) (List.mem_cons_self _ _)]
      exact her0
    have hupd : ∃ nr, net.updateAxis eid oldNode ν done.length
          = net.setEdge eid nr ∧
        ((nr.node1 = ν ∧ nr.axis1 = done.length) ∨
         (nr.node2 = some ν ∧ nr.axis2 = some done.length)) ∧
        nr.touches oldNode = false := by
      rcases horOld with ⟨o1, o2⟩ | ⟨o1, o2⟩
      · refine ⟨⟨ν, done.length, er0.node2, er0.axis2, er0.dim⟩,
          updateAxis_left hreceid o1 ν done.length,
          Or.inl ⟨rfl, rfl⟩, ?_⟩
        unfold Edge.touches
        simp [Nat.ne_of_gt hold_lt, o2]
      · refine ⟨⟨er0.node1, er0.axis1, some ν, some done.length, er0.dim⟩,
          updateAxis_right hreceid o2 o1 ν done.length,
          Or.inr ⟨rfl, rfl⟩, ?_⟩
        unfold Edge.touches
        simp [o2, Nat.ne_of_gt hold_lt]
    obtain ⟨nr, hupdeq, hnrcase, hnrtouch⟩ := hupd
    set net2 := (net.setEdge eid nr).setSlot ν done.length eid with hnet2def
    have hE2 : ∀ x, x ≠ eid → net2.getEdge x = net.getEdge x := by
      intro x hx
      show ((net.setEdge eid nr).setSlot ν done.length eid).getEdge x
        = net.getEdge x
      rw [getEdge_setSlot]
      exact getEdge_setEdge_ne _ _ _ _ hx
    have hE2self : net2.getEdge eid = some nr := by
      show ((net.setEdge eid nr).setSlot ν done.length eid).getEdge eid
        = some nr
      rw [getEdge_setSlot]
      exact getEdge_setEdge_self _ _ _
    have hgets : net2.getNode ν = some { net.getNodeD ν with
        slots := (net.getNodeD ν).slots.set done.length eid } :=
      getNode_setNode_self _ _ _
    have hnodeD2 : net2.getNodeD ν = { net.getNodeD ν with
        slots := (net.getNodeD ν).slots.set done.length eid } := by
      unfold Network.getNodeD
      rw [hgets]
      rfl
    have hnodeNE : ∀ c, c ≠ ν → net2.getNodeD c = net.getNodeD c := by
      intro c hc
      show ((net.setEdge eid nr).setSlot ν done.length eid).getNodeD c
        = net.getNodeD c
      rw [getNodeD_setSlot_ne _ _ _ _ _ hc]
      rfl
    -- distinctness of plan edges
    have hfstnd := planGhost_fst_nodup net0 n1 n2 cs hwf
    rw [hsplit, List.map_append, List.map_cons] at hfstnd
    obtain ⟨hnd1, hnd2, hdisj⟩ := List.nodup_append.mp hfstnd
    have heidnotin : eid ∉ rest'.map (fun e => e.1) :=
      (List.nodup_cons.mp hnd2).1
    have hdone_ne : ∀ idx, idx < done.length →
        (done.getD idx (0, 0, 0)).1 ≠ eid := by
      intro idx hidx heq
      have hm1 : (done.getD idx (0, 0, 0)).1 ∈ done.map (fun e => e.1) := by
        rw [← getD_map_fst hidx]
        exact getD_mem (by simpa using hidx)
      have hm2 : (done.getD idx (0, 0, 0)).1
          ∈ (eid, oldNode, oax).1 :: rest'.map (fun e => e.1) := by
        rw [heq]
        exact List.mem_cons_self _ _
      exact hdisj hm1 hm2
    have hrest_ne : ∀ e' ∈ rest', e'.1 ≠ eid := by
      intro e' he' heq
      exact heidnotin (heq ▸ List.mem_map_of_mem (fun e => e.1) he')
    -- invariant pieces for net2
    have hlenslots : (net2.getNodeD ν).slots.length
        = done.length + (rest'.length + 1) := by
      rw [hnodeD2]
      show ((net.getNodeD ν).slots.set done.length eid).length = _
      rw [List.length_set, K2]
      rfl
    have hklt : done.length < (net.getNodeD ν).slots.length := by
      rw [K2]
      show done.length < done.length + (rest'.length + 1)
      omega
    have HA1 : (net2.getNode ν).isSome := by
      rw [hgets]
      rfl
    have HA3 : (net2.getNodeD ν).tensor = T := by
      rw [hnodeD2]
      exact K3
    have HA4 : (net2.getNodeD ν).isCopy = false := by
      rw [hnodeD2]
      exact K4
    have HA5 : (net2.getNodeD ν).disabled = false := by
      rw [hnodeD2]
      exact K5
    have HA6 : ∀ idx, idx < done.length + 1 →
        (net2.getNodeD ν).slots.getD idx 0
          = ((done ++ [(eid, oldNode, oax)]).getD idx (0, 0, 0)).1 := by
      intro idx hidx
      rw [hnodeD2]
      show ((net.getNodeD ν).slots.set done.length eid).getD idx 0 = _
      by_cases hcase : idx < done.length
      · rw [getD_set_other _ _ _ (by omega), K6 idx hcase,
          List.getD_append _ _ _ _ hcase]
      · have hidx2 : idx = done.length := by omega
        subst hidx2
        rw [getD_set_at hklt,
          List.getD_append_right _ _ _ _ (Nat.le_refl _)]
        simp
    have HA7 : ∀ idx, done.length + 1 ≤ idx →
        idx < done.length + 1 + rest'.length →
        (net2.getNodeD ν).slots.getD idx 0 = E0 + idx := by
      intro idx h1 h2
      rw [hnodeD2]
      show ((net.getNodeD ν).slots.set done.length eid).getD idx 0 = _
      rw [getD_set_other _ _ _ (by omega)]
      exact K7 idx (by omega) (by show idx < done.length + (rest'.length + 1); omega)
    have HA8 : ∀ idx, idx < done.length + 1 → ∃ er,
        net2.getEdge (((done ++ [(eid, oldNode, oax)]).getD idx (0, 0, 0)).1)
          = some er ∧
        ((er.node1 = ν ∧ er.axis1 = idx) ∨
         (er.node2 = some ν ∧ er.axis2 = some idx)) := by
      intro idx hidx
      by_cases hcase : idx < done.length
      · obtain ⟨er, her, hor⟩ := K8 idx hcase
        refine ⟨er, ?_, hor⟩
        rw [List.getD_append _ _ _ _ hcase, hE2 _ (hdone_ne idx hcase)]
        exact her
      · have hidx2 : idx = done.length := by omega
        subst hidx2
        refine ⟨nr, ?_, hnrcase⟩
        rw [List.getD_append_right _ _ _ _ (Nat.le_refl _)]
        simpa using hE2self
    have HA9 : ∀ e' ∈ rest', net2.getEdge e'.1 = net0.getEdge e'.1 := by
      intro e' he'
      rw [hE2 _ (hrest_ne e' he')]
      exact K9 e' (List.mem_cons_of_mem _ he')
    have HA12 : ∀ c ∈ csR, c ≠ oldNode → ∀ s ∈ (net2.getNodeD c).slots,
        (s ∈ copyThirdSlots net0 n1 n2 c ∧ net2.getEdge s = net0.getEdge s) ∨
        (∃ er, net2.getEdge s = some er ∧ er.isDangling = true ∧
          er.node1 = c) := by
      intro c hc hcne s hs
      have hccs := K10 c hc
      have hnodec : net2.getNodeD c = net.getNodeD c :=
        hnodeNE c (Nat.ne_of_lt (hcslt c hccs))
      rw [hnodec] at hs
      have hgd0 : net0.getEdgeD eid = er0 := by
        simp [Network.getEdgeD, her0]
      rcases K12 c hc s hs with ⟨hsth, hsrec⟩ | ⟨er, herS, hdang, hnd1e⟩
      · have hsne : s ≠ eid := by
          intro hseq
          subst hseq
          rcases holdcases with h | h | h
          · obtain ⟨t1, t2, -, -⟩ := thirdCond_elim (third_mem hsth).2
            rcases horOld with ⟨o1, -⟩ | ⟨o1, -⟩
            · exact t1 (by rw [hgd0, o1]; exact h)
            · exact t2 (by rw [hgd0, o1]; exact congrArg some h)
          · obtain ⟨-, -, t3, t4⟩ := thirdCond_elim (third_mem hsth).2
            rcases horOld with ⟨o1, -⟩ | ⟨o1, -⟩
            · exact t3 (by rw [hgd0, o1]; exact h)
            · exact t4 (by rw [hgd0, o1]; exact congrArg some h)
          · refine hDisj c hccs s (third_mem hsth).1 oldNode h
              (Ne.symm hcne) ?_
            rw [hgd0]
            exact touches_of_endpoint horOld
        exact Or.inl ⟨hsth, by rw [hE2 _ hsne]; exact hsrec⟩
      · have hsne : s ≠ eid := by
          intro hseq
          subst hseq
          rw [hreceid] at herS
          have hee : er0 = er := (Option.some.injEq .. ▸ herS :)
          rw [← hee] at hdang hnd1e
          rcases horOld with ⟨o1, -⟩ | ⟨o1, -⟩
          · exact hcne (hnd1e.symm.trans o1)
          · have hnone : er0.node2 = none := by
              have h2 := hdang
              unfold Edge.isDangling at h2
              exact Option.isNone_iff_eq_none.mp h2
            rw [o1] at hnone
            exact Option.noConfusion hnone
        exact Or.inr ⟨er, by rw [hE2 _ hsne]; exact herS, hdang, hnd1e⟩
    have HA13 : net2.nodesSet.Nodup := K13
    have HA14 : ν ∈ net2.nodesSet := K14
    have hsplit2 : planGhost net0 n1 n2 cs
        = (done ++ [(eid, oldNode, oax)]) ++ rest' := by
      rw [hsplit]
      simp
    by_cases hmem : oldNode ∈ csR
    · -- the entry's old node is a remaining shared copy: it gets removed
      have holdcs := K10 oldNode hmem
      have hthm : eid ∈ copyThirdSlots net0 n1 n2 oldNode := hthird holdcs
      have hnodeold : net2.getNodeD oldNode = net.getNodeD oldNode :=
        hnodeNE oldNode (Nat.ne_of_lt hold_lt)
      have hpre : ∀ s ∈ (net2.getNodeD oldNode).slots,
          (net2.getEdgeD s).isDangling = true ∨
          (net2.getEdgeD s).touches oldNode = false := by
        intro s hs
        rw [hnodeold] at hs
        by_cases hseid : s = eid
        · subst hseid
          right
          have hgd : net2.getEdgeD s = nr := by
            simp [Network.getEdgeD, hE2self]
          rw [hgd]
          exact hnrtouch
        · rcases K12 oldNode hmem s hs with ⟨hsth, -⟩ | ⟨er, herS, hdang, -⟩
          · exfalso
            have hle1 := thirds_le_one net0 n1 n2 cs hwf holdcs
            have hge1 : 0 < (copyThirdSlots net0 n1 n2 oldNode).length :=
              List.length_pos.mpr (List.ne_nil_of_mem hthm)
            have hlen1 : (copyThirdSlots net0 n1 n2 oldNode).length = 1 := by
              omega
            have hsing := list_len1_mem hlen1 hsth
            rw [hsing] at hthm
            exact hseid ((by simpa using hthm : eid = s)).symm
          · left
            have h2 : net2.getEdge s = some er := by
              rw [hE2 s hseid]
              exact herS
            have hgd : net2.getEdgeD s = er := by
              simp [Network.getEdgeD, h2]
            rw [hgd]
            exact hdang
      have hrem := removeNode_noop oldNode net2 hpre
      have hred : rewireAux ν net csR done.length
            ((eid, oldNode, oax) :: rest')
          = rewireAux ν (net2.removeNode oldNode).1 (csR.erase oldNode)
              (done.length + 1) rest' := by
        show (if oldNode ∈ csR then
            rewireAux ν ((((net.updateAxis eid oldNode ν
              done.length).setSlot ν done.length eid).removeNode
                oldNode).1) (csR.erase oldNode) (done.length + 1) rest'
          else rewireAux ν ((net.updateAxis eid oldNode ν
            done.length).setSlot ν done.length eid) csR
              (done.length + 1) rest') = _
        rw [if_pos hmem, hupdeq]
      have hn3 : (net2.removeNode oldNode).1
          = { net2.setNode oldNode
                { net2.getNodeD oldNode with disabled := true } with
              nodesSet := net2.nodesSet.erase oldNode } := by
        rw [hrem]
      have hn3edge : ∀ x, ({ net2.setNode oldNode
            { net2.getNodeD oldNode with disabled := true } with
          nodesSet := net2.nodesSet.erase oldNode } : Network).getEdge x
          = net2.getEdge x := fun x => rfl
      have hn3node : ∀ m, m ≠ oldNode → ({ net2.setNode oldNode
            { net2.getNodeD oldNode with disabled := true } with
          nodesSet := net2.nodesSet.erase oldNode } : Network).getNodeD m
          = net2.getNodeD m := by
        intro m hm
        show (lookupA (setA net2.nodes oldNode _) m).getD defaultNode = _
        rw [lookupA_setA_ne _ _ _ _ hm]
        rfl
      have hn3getnode : ({ net2.setNode oldNode
            { net2.getNodeD oldNode with disabled := true } with
          nodesSet := net2.nodesSet.erase oldNode } : Network).getNode ν
          = net2.getNode ν := by
        show lookupA (setA net2.nodes oldNode _) ν = _
        exact lookupA_setA_ne _ _ _ _ (Nat.ne_of_gt hold_lt)
      have hinv3 : RewireInv net0 n1 n2 cs ν T E0
          (done ++ [(eid, oldNode, oax)]) rest'
          (net2.removeNode oldNode).1 (csR.erase oldNode) := by
        rw [hn3]
        refine ⟨?_, ?_, ?_, ?_, ?_, ?_, ?_, ?_, ?_, ?_, ?_, ?_, ?_, ?_⟩
        · rw [hn3getnode]
          exact HA1
        · rw [hn3node ν (Nat.ne_of_gt hold_lt), hlenslots]
          simp
          omega
        · rw [hn3node ν (Nat.ne_of_gt hold_lt)]
          exact HA3
        · rw [hn3node ν (Nat.ne_of_gt hold_lt)]
          exact HA4
        · rw [hn3node ν (Nat.ne_of_gt hold_lt)]
          exact HA5
        · intro idx hidx
          rw [hn3node ν (Nat.ne_of_gt hold_lt)]
          exact HA6 idx (by simpa using hidx)
        · intro idx h1 h2
          rw [hn3node ν (Nat.ne_of_gt hold_lt)]
          exact HA7 idx (by simpa using h1) (by simp at h2; omega)
        · intro idx hidx
          obtain ⟨er, her, hor⟩ := HA8 idx (by simpa using hidx)
          exact ⟨er, by rw [hn3edge]; exact her, hor⟩
        · intro e' he'
          rw [hn3edge]
          exact HA9 e' he'
        · intro c hc
          exact K10 c (List.mem_of_mem_erase hc)
        · exact K11.erase _
        · intro c hc s hs
          have hc2 : c ∈ csR := List.mem_of_mem_erase hc
          have hcne : c ≠ oldNode := by
            intro heq
            rw [heq] at hc
            exact K11.not_mem_erase hc
          rw [hn3node c hcne] at hs
          rcases HA12 c hc2 hcne s hs with ⟨ha, hb⟩ | ⟨er, ha, hb, hcc⟩
          · exact Or.inl ⟨ha, by rw [hn3edge]; exact hb⟩
          · exact Or.inr ⟨er, by rw [hn3edge]; exact ha, hb, hcc⟩
        · show (net2.nodesSet.erase oldNode).Nodup
          exact HA13.erase _
        · show ν ∈ net2.nodesSet.erase oldNode
          exact (List.mem_erase_of_ne (Nat.ne_of_gt hold_lt)).mpr HA14
      have hstep := ih (done ++ [(eid, oldNode, oax)])
        (net2.removeNode oldNode).1 (csR.erase oldNode) hsplit2 hinv3
      rw [show (done ++ [(eid, oldNode, oax)]).length = done.length + 1
        from by simp] at hstep
      rw [show (done ++ [(eid, oldNode, oax)]) ++ rest'
        = done ++ (eid, oldNode, oax) :: rest' from by simp] at hstep
      rw [hred]
      exact hstep
    · -- ordinary entry: no copy removal
      have hred : rewireAux ν net csR done.length
            ((eid, oldNode, oax) :: rest')
          = rewireAux ν net2 csR (done.length + 1) rest' := by
        show (if oldNode ∈ csR then
            rewireAux ν ((((net.updateAxis eid oldNode ν
              done.length).setSlot ν done.length eid).removeNode
                oldNode).1) (csR.erase oldNode) (done.length + 1) rest'
          else rewireAux ν ((net.updateAxis eid oldNode ν
            done.length).setSlot ν done.length eid) csR
              (done.length + 1) rest') = _
        rw [if_neg hmem, hupdeq]
      have hinv2 : RewireInv net0 n1 n2 cs ν T E0
          (done ++ [(eid, oldNode, oax)]) rest' net2 csR := by
        refine ⟨HA1, ?_, HA3, HA4, HA5, ?_, ?_, ?_, HA9, K10, K11, ?_,
          HA13, HA14⟩
        · rw [hlenslots]
          simp
          omega
        · intro idx hidx
          exact HA6 idx (by simpa using hidx)
        · intro idx h1 h2
          exact HA7 idx (by simpa using h1) (by simp at h2; omega)
        · intro idx hidx
          exact HA8 idx (by simpa using hidx)
        · intro c hc s hs
          have hcne : c ≠ oldNode := by
            intro heq
            rw [heq] at hc
            exact hmem hc
          exact HA12 c hc hcne s hs
      have hstep := ih (done ++ [(eid, oldNode, oax)]) net2 csR
        hsplit2 hinv2
      rw [show (done ++ [(eid, oldNode, oax)]).length = done.length + 1
        from by simp] at hstep
      rw [show (done ++ [(eid, oldNode, oax)]) ++ rest'
        = done ++ (eid, oldNode, oax) :: rest' from by simp] at hstep
      rw [hred]
      exact hstep

theorem plan_fst_lt (net0 : Network) (n1 n2 : Nat) (cs : List Nat)
    (hwf : BuildWf net0 n1 n2 cs) :
    ∀ e ∈ planGhost net0 n1 n2 cs, e.1 < net0.nextEdgeId := by
  have hwf2 := hwf
  obtain ⟨hne, hn1cs, hn2cs, hcsnd, hESB0, hNSB0, hndset0, hn1s, hn2s, hOk1,
    hOk2, hOkCall, hCoh, hRec, hC3, hDisj, hCsIn⟩ := hwf2
  intro e he
  rcases plan_entry_shape net0 n1 n2 cs he with ⟨i, hi, heq, -, -⟩ |
    ⟨m, i, hmcs, -, -, hth, -, -⟩ | ⟨j, hj, -, heq⟩
  · obtain ⟨er, her, -⟩ := endpointOkP_elim (hOk1 i (List.mem_range.mpr hi))
    rw [heq]
    exact getEdge_lt_of_bound hESB0 her
  · obtain ⟨hthm, -⟩ := third_mem hth
    obtain ⟨er, her, -⟩ := mem_slots_record net0 m e.1 (hOkCall m hmcs) hthm
    exact getEdge_lt_of_bound hESB0 her
  · obtain ⟨er, her, -⟩ := endpointOkP_elim (hOk2 j (List.mem_range.mpr hj))
    rw [heq]
    exact getEdge_lt_of_bound hESB0 her

/-- Full characterization of the extended branch: the build phase succeeds,
the result node carries the backend tensor, every plan edge is rewired to its
plan position on the new node, and `node1` and `node2` leave the node set
disabled. -/
theorem buildTail_extended (backend : String → Nat → Nat → Nat)
    (net0 : Network) (n1 n2 : Nat) (cs : List Nat)
    (hwf : BuildWf net0 n1 n2 cs)
    (hset : ∀ x ∈ net0.nodesSet, x < net0.nextNodeId)
    (hle : exprDemand net0 n1 n2 cs ≤ 62) :
    ∃ netC expr stB,
      buildPhase backend net0 n1 n2 cs
        = .ok (.extended netC net0.nextNodeId expr
            (planGhost net0 n1 n2 cs) stB) ∧
      expr = mkEinsumExpr stB ∧
      stB.node1Expr = List.range (net0.rankOf n1) ∧
      stB.node2Expr = (List.range (net0.rankOf n2)).map (char2 net0 n1 n2 cs) ∧
      stB.outputExpr = exprGhost1 net0 n1 n2 cs ++ exprGhost2 net0 n1 n2 cs ∧
      (netC.getNodeD net0.nextNodeId).tensor
        = backend expr (net0.getNodeD n1).tensor (net0.getNodeD n2).tensor ∧
      net0.nextNodeId ∈ netC.nodesSet ∧
      n1 ∉ netC.nodesSet ∧ n2 ∉ netC.nodesSet ∧
      (netC.getNodeD n1).disabled = true ∧
      (netC.getNodeD n2).disabled = true ∧
      (∀ k, k < (planGhost net0 n1 n2 cs).length →
        netC.slotOf net0.nextNodeId k
          = ((planGhost net0 n1 n2 cs).getD k (0, 0, 0)).1 ∧
        ∃ er, netC.getEdge (((planGhost net0 n1 n2 cs).getD k (0, 0, 0)).1)
            = some er ∧
          ((er.node1 = net0.nextNodeId ∧ er.axis1 = k) ∨
           (er.node2 = some net0.nextNodeId ∧ er.axis2 = some k))) := by
  have hwf2 := hwf
  obtain ⟨hne, hn1cs, hn2cs, hcsnd, hESB0, hNSB0, hndset0, hn1s, hn2s, hOk1,
    hOk2, hOkCall, hCoh, hRec, hC3, hDisj, hCsIn⟩ := hwf2
  obtain ⟨stB, C01, C02, C03, C04, C05, C06, C07, C08, C09, C10, C11, C12,
    C13⟩ := buildPhase_ok backend net0 n1 n2 cs hwf hle
  have hcslt : ∀ c ∈ cs, c < net0.nextNodeId := by
    intro c hc
    have hr3 := (hC3 c hc).1
    exact node_lt_of_getNode_isSome hNSB0
      (getNode_isSome_of_rank_pos (by rw [hr3]; omega))
  have hn1lt : n1 < net0.nextNodeId := node_lt_of_getNode_isSome hNSB0 hn1s
  have hn2lt : n2 < net0.nextNodeId := node_lt_of_getNode_isSome hNSB0 hn2s
  set expr := mkEinsumExpr stB with hexpr
  set newT := backend expr (stB.net.getNodeD n1).tensor
    (stB.net.getNodeD n2).tensor with hnewT
  set p := stB.net.addNode newT stB.outputEdges.length with hp
  set q := rewireAux p.2 p.1 cs 0 stB.outputEdges with hqdef
  set netA := { q.1 with nodesSet := (q.1.nodesSet.erase n1).erase n2 }
    with hnetA
  set netB := netA.setNode n1 { netA.getNodeD n1 with disabled := true }
    with hnetB
  set netC := netB.setNode n2 { netB.getNodeD n2 with disabled := true }
    with hnetC
  have hbt : buildTail backend stB n1 n2 cs
      = .ok (.extended netC p.2 expr stB.outputEdges stB) := rfl
  obtain ⟨A1, A2, A3, A4, A5, A6, A7⟩ :=
    addNode_spec stB.net newT stB.outputEdges.length
  rw [C02] at A1 A2 A3 A5
  have hrank : stB.outputEdges.length = (planGhost net0 n1 n2 cs).length := by
    rw [C11]
  -- initial rewire invariant
  have hD : p.1.getNodeD net0.nextNodeId
      = ⟨(List.range stB.outputEdges.length).map
          (fun i => stB.net.nextEdgeId + i), false, newT, false⟩ := by
    unfold Network.getNodeD
    rw [A2]
    rfl
  have hinit : RewireInv net0 n1 n2 cs net0.nextNodeId newT
      stB.net.nextEdgeId [] (planGhost net0 n1 n2 cs) p.1 cs := by
    refine ⟨?_, ?_, ?_, ?_, ?_, ?_, ?_, ?_, ?_, fun c hc => hc, hcsnd, ?_,
      ?_, ?_⟩
    · rw [A2]
      rfl
    · rw [hD]
      show ((List.range stB.outputEdges.length).map
        (fun i => stB.net.nextEdgeId + i)).length = _
      simp [hrank]
    · rw [hD]
    · rw [hD]
    · rw [hD]
    · intro idx hidx
      simp at hidx
    · intro idx h1 h2
      rw [hD]
      show ((List.range stB.outputEdges.length).map
        (fun i => stB.net.nextEdgeId + i)).getD idx 0 = _
      rw [getD_map_range _ (by rw [hrank]; simpa using h2)]
    · intro idx hidx
      simp at hidx
    · intro e he
      have hlt := plan_fst_lt net0 n1 n2 cs hwf e he
      rw [A4 e.1 (by omega), C06 e.1 hlt]
    · intro c hc s hs
      have hnodec : p.1.getNodeD c = stB.net.getNodeD c := by
        unfold Network.getNodeD
        rw [A3 c (Nat.ne_of_lt (hcslt c hc))]
      rw [hnodec] at hs
      obtain ⟨⟨a, ha⟩, hget⟩ := List.mem_iff_get.mp hs
      have hsa : stB.net.slotOf c a = s := by
        unfold Network.slotOf
        rw [List.getD_eq_get _ _ ha]
        exact hget
      have hrankc : stB.net.rankOf c = net0.rankOf c := (C07 c).2.2.2
      have ha2 : a < net0.rankOf c := by
        have : stB.net.rankOf c = (stB.net.getNodeD c).slots.length := rfl
        omega
      rcases C12 c hc a ha2 with ⟨hslot, hthird⟩ | ⟨er, herB, hdang, hnd1⟩
      · have hs' : s = net0.slotOf c a := by
          rw [← hslot]
          exact hsa.symm
        refine Or.inl ⟨by rw [hs']; exact hthird, ?_⟩
        obtain ⟨hthm, -⟩ := third_mem (hs' ▸ hthird :
          s ∈ copyThirdSlots net0 n1 n2 c)
        obtain ⟨er2, her2, -⟩ := mem_slots_record net0 c s (hOkCall c hc) hthm
        have hlt := getEdge_lt_of_bound hESB0 her2
        rw [A4 s (by omega), C06 s hlt]
      · rw [hsa] at herB
        have hlt := getEdge_lt_of_bound C04 herB
        refine Or.inr ⟨er, ?_, hdang, hnd1⟩
        rw [A4 s hlt]
        exact herB
    · rw [A5, C01]
      refine List.nodup_append.mpr ⟨hndset0, List.nodup_singleton _, ?_⟩
      intro x hx1 hx2
      have hxlt := hset x hx1
      have hxeq : x = net0.nextNodeId := by simpa using hx2
      omega
    · rw [A5, C01]
      exact List.mem_append_right _ (List.mem_cons_self _ _)
  have hq2 : rewireAux p.2 p.1 cs 0 stB.outputEdges
      = rewireAux net0.nextNodeId p.1 cs
          (List.length ([] : List (Nat × Nat × Nat)))
          (planGhost net0 n1 n2 cs) := by
    rw [A1, C11]
    rfl
  have hfin := rewire_go net0 n1 n2 cs hwf net0.nextNodeId newT
    stB.net.nextEdgeId rfl (planGhost net0 n1 n2 cs) [] p.1 cs
    (by simp) hinit
  rw [← hq2, ← hqdef] at hfin
  rw [List.nil_append] at hfin
  obtain ⟨F1, F2, F3, F4, F5, F6, F7, F8, F9, F10, F11, F12, F13, F14⟩ := hfin
  -- transport through the erases and disables
  have hCnodeν : netC.getNodeD net0.nextNodeId = q.1.getNodeD net0.nextNodeId := by
    rw [hnetC]
    unfold Network.getNodeD
    rw [getNode_setNode_ne _ _ _ _ (Nat.ne_of_gt hn2lt)]
    rw [hnetB]
    rw [getNode_setNode_ne _ _ _ _ (Nat.ne_of_gt hn1lt)]
    rfl
  have hCedge : ∀ x, netC.getEdge x = q.1.getEdge x := fun x => rfl
  have hCset : netC.nodesSet = (q.1.nodesSet.erase n1).erase n2 := rfl
  have hCn1 : netC.getNodeD n1
      = { netA.getNodeD n1 with disabled := true } := by
    rw [hnetC]
    unfold Network.getNodeD
    rw [getNode_setNode_ne _ _ _ _ hne]
    rw [hnetB, getNode_setNode_self]
    rfl
  have hCn2 : netC.getNodeD n2
      = { netB.getNodeD n2 with disabled := true } := by
    rw [hnetC]
    unfold Network.getNodeD
    rw [getNode_setNode_self]
    rfl
  refine ⟨netC, expr, stB, ?_, rfl, C08, C09, C10, ?_, ?_, ?_, ?_, ?_, ?_, ?_⟩
  · rw [C13, hbt, A1, C11]
  · rw [hCnodeν, F3]
    rw [hnewT, (C07 n1).1, (C07 n2).1]
  · rw [hCset]
    exact (List.mem_erase_of_ne (Nat.ne_of_gt hn2lt)).mpr
      ((List.mem_erase_of_ne (Nat.ne_of_gt hn1lt)).mpr F14)
  · rw [hCset]
    intro h
    exact F13.not_mem_erase (List.mem_of_mem_erase h)
  · rw [hCset]
    exact (F13.erase n1).not_mem_erase
  · rw [hCn1]
  · rw [hCn2]
  · intro k hk
    constructor
    · show (netC.getNodeD net0.nextNodeId).slots.getD k 0 = _
      rw [hCnodeν]
      exact F6 k hk
    · obtain ⟨er, her, hor⟩ := F8 k hk
      exact ⟨er, by rw [hCedge]; exact her, hor⟩

/-- C6: after every successful non-trivial pair merge (`shared_copies` still
non-empty after trivialization), `contract_between_with_copies` adds the
backend's result tensor as a new node of the node set, rewires every edge of
the output-edge plan onto the new node at its plan position, and removes
`node1` and `node2` from the node set, marking both disabled. -/
theorem contract_extended_result (backend : String → Nat → Nat → Nat)
    (net : Network) (n1 n2 : Nat) (cs : List Nat) (p : Network × List Nat)
    (hne : n1 ≠ n2)
    (htr : trivialize net cs cs = .ok p)
    (hwf : BuildWf p.1 n1 n2 p.2)
    (hnonempty : p.2 ≠ [])
    (hset : ∀ x ∈ p.1.nodesSet, x < p.1.nextNodeId)
    (hle : exprDemand p.1 n1 n2 p.2 ≤ 62) :
    ∃ netC expr stB,
      contract_between_with_copies backend net n1 n2 cs
        = .ok (.extended netC p.1.nextNodeId expr
            (planGhost p.1 n1 n2 p.2) stB) ∧
      (netC.getNodeD p.1.nextNodeId).tensor
        = backend expr (p.1.getNodeD n1).tensor (p.1.getNodeD n2).tensor ∧
      p.1.nextNodeId ∈ netC.nodesSet ∧
      n1 ∉ netC.nodesSet ∧ n2 ∉ netC.nodesSet ∧
      (netC.getNodeD n1).disabled = true ∧
      (netC.getNodeD n2).disabled = true ∧
      (∀ k, k < (planGhost p.1 n1 n2 p.2).length →
        netC.slotOf p.1.nextNodeId k
          = ((planGhost p.1 n1 n2 p.2).getD k (0, 0, 0)).1 ∧
        ∃ er, netC.getEdge (((planGhost p.1 n1 n2 p.2).getD k (0, 0, 0)).1)
            = some er ∧
          ((er.node1 = p.1.nextNodeId ∧ er.axis1 = k) ∨
           (er.node2 = some p.1.nextNodeId ∧ er.axis2 = some k))) := by
  obtain ⟨netC, expr, stB, hphase, -, -, -, -, htensor, hνm, hn1no, hn2no,
    hd1, hd2, hplan⟩ := buildTail_extended backend p.1 n1 n2 p.2 hwf hset hle
  refine ⟨netC, expr, stB, ?_, htensor, hνm, hn1no, hn2no, hd1, hd2, hplan⟩
  unfold contract_between_with_copies
  rw [if_neg hne, htr]
  dsimp only []
  rw [if_neg (by simpa using hnonempty)]
  exact hphase

/-- A pair-merge scenario with a shared rank-3 copy exposing one third edge:
`node1` (0) has a copy axis and a dangling survivor, `node2` (1) likewise,
and the copy's third edge 14 is dangling. -/
def c6net : Network :=
  { nodes := [(0, ⟨[10, 12], false, 5, false⟩),
              (1, ⟨[11, 13], false, 6, false⟩),
              (2, ⟨[10, 11, 14], true, 0, false⟩)],
    edges := [(10, ⟨0, 0, some 2, some 0, 2⟩),
              (11, ⟨1, 0, some 2, some 1, 2⟩),
              (12, ⟨0, 1, none, none, 2⟩),
              (13, ⟨1, 1, none, none, 2⟩),
              (14, ⟨2, 2, none, none, 2⟩)],
    nodesSet := [0, 1, 2], nextNodeId := 3, nextEdgeId := 20 }

theorem contract_extended_result_witness :
    (0 : Nat) ≠ 1 ∧ trivialize c6net [2] [2] = .ok (c6net, [2]) ∧
    BuildWf c6net 0 1 [2] ∧ ([2] : List Nat) ≠ [] ∧
    (∀ x ∈ c6net.nodesSet, x < c6net.nextNodeId) ∧
    exprDemand c6net 0 1 [2] ≤ 62 ∧
    (∃ netC expr stB,
      contract_between_with_copies (fun _ _ _ => 7) c6net 0 1 [2]
        = .ok (.extended netC c6net.nextNodeId expr
            (planGhost c6net 0 1 [2]) stB) ∧
      (netC.getNodeD c6net.nextNodeId).tensor
        = (fun (_ : String) (_ _ : Nat) => 7) expr
            (c6net.getNodeD 0).tensor (c6net.getNodeD 1).tensor ∧
      c6net.nextNodeId ∈ netC.nodesSet ∧
      0 ∉ netC.nodesSet ∧ 1 ∉ netC.nodesSet ∧
      (netC.getNodeD 0).disabled = true ∧
      (netC.getNodeD 1).disabled = true ∧
      (∀ k, k < (planGhost c6net 0 1 [2]).length →
        netC.slotOf c6net.nextNodeId k
          = ((planGhost c6net 0 1 [2]).getD k (0, 0, 0)).1 ∧
        ∃ er, netC.getEdge (((planGhost c6net 0 1 [2]).getD k (0, 0, 0)).1)
            = some er ∧
          ((er.node1 = c6net.nextNodeId ∧ er.axis1 = k) ∨
           (er.node2 = some c6net.nextNodeId ∧ er.axis2 = some k)))) :=
  ⟨by decide, by rfl, by decide, by decide, by decide, by decide,
   contract_extended_result (fun _ _ _ => 7) c6net 0 1 [2] (c6net, [2])
     (by decide) (by rfl) (by decide) (by decide) (by decide) (by decide)⟩

/-- The same scenario as `c6net`, used against the plan-ordering claim: the
plan's first entry is the copy's exposed third edge. -/
def cex5net : Network :=
  { nodes := [(0, ⟨[10, 12], false, 5, false⟩),
              (1, ⟨[11, 13], false, 6, false⟩),
              (2, ⟨[10, 11, 14], true, 0, false⟩)],
    edges := [(10, ⟨0, 0, some 2, some 0, 2⟩),
              (11, ⟨1, 0, some 2, some 1, 2⟩),
              (12, ⟨0, 1, none, none, 2⟩),
              (13, ⟨1, 1, none, none, 2⟩),
              (14, ⟨2, 2, none, none, 2⟩)],
    nodesSet := [0, 1, 2], nextNodeId := 3, nextEdgeId := 20 }

/-- The output-edge plan carried by an extended merge result. -/
def extractPlan : Except Err MergeResult → Option (List (Nat × Nat × Nat))
  | .ok (.extended _ _ _ plan _) => some plan
  | _ => none

/-- C5 fails on `cex5net`: the merge succeeds and its three-entry output-edge
plan opens with an entry whose recorded old node is the shared copy 2 — not
`node1` (0) or `node2` (1) — so the plan does not merely list surviving axes
of `node1` followed by surviving axes of `node2`. -/
theorem contract_c5_counterexample :
    (extractPlan (contract_between_with_copies (fun _ _ _ => 7)
      cex5net 0 1 [2])).isSome = true ∧
    ((extractPlan (contract_between_with_copies (fun _ _ _ => 7)
      cex5net 0 1 [2])).getD []).length = 3 ∧
    (((extractPlan (contract_between_with_copies (fun _ _ _ => 7)
      cex5net 0 1 [2])).getD []).getD 0 (0, 0, 0)).2.1 ≠ 0 ∧
    (((extractPlan (contract_between_with_copies (fun _ _ _ => 7)
      cex5net 0 1 [2])).getD []).getD 0 (0, 0, 0)).2.1 ≠ 1 :=
  ⟨by decide, by decide, by decide, by decide⟩

/-- C5 (amended): the output-edge plan of an extended pair merge is the
`node1` walk's entries in `node1` axis order — each axis contributing its own
surviving edge, nothing for an axis shared with `node2`, and the exposed
third edges of a touched copy — followed by `node2`'s surviving axes in
`node2` axis order; the edge at plan position `k` becomes axis `k` of the
fused node. -/
theorem contract_plan_order (backend : String → Nat → Nat → Nat)
    (net : Network) (n1 n2 : Nat) (cs : List Nat) (p : Network × List Nat)
    (hne : n1 ≠ n2)
    (htr : trivialize net cs cs = .ok p)
    (hwf : BuildWf p.1 n1 n2 p.2)
    (hnonempty : p.2 ≠ [])
    (hset : ∀ x ∈ p.1.nodesSet, x < p.1.nextNodeId)
    (hle : exprDemand p.1 n1 n2 p.2 ≤ 62) :
    ∃ netC expr stB plan,
      contract_between_with_copies backend net n1 n2 cs
        = .ok (.extended netC p.1.nextNodeId expr plan stB) ∧
      plan = ((List.range (p.1.rankOf n1)).map
          (out1Entries p.1 n1 n2 p.2)).flatten
        ++ (List.range (p.1.rankOf n2)).filterMap (out2Entry p.1 n1 n2 p.2) ∧
      stB.outputExpr = exprGhost1 p.1 n1 n2 p.2 ++ exprGhost2 p.1 n1 n2 p.2 ∧
      (∀ e ∈ plan,
        (∃ i, i < p.1.rankOf n1 ∧ e = (p.1.slotOf n1 i, n1, i)) ∨
        (∃ m i, m ∈ p.2 ∧ i < p.1.rankOf n1 ∧
          p.1.neighborOf n1 (p.1.slotOf n1 i) = some m ∧
          e.1 ∈ copyThirdSlots p.1 n1 n2 m ∧ e.2.1 = m ∧ e.2.2 = i) ∨
        (∃ j, j < p.1.rankOf n2 ∧ unbound2 p.1 n1 n2 p.2 j = true ∧
          e = (p.1.slotOf n2 j, n2, j))) ∧
      (∀ k, k < plan.length →
        netC.slotOf p.1.nextNodeId k = (plan.getD k (0, 0, 0)).1) := by
  obtain ⟨netC, expr, stB, hphase, -, -, -, hout, -, -, -, -, -, -,
    hplan⟩ := buildTail_extended backend p.1 n1 n2 p.2 hwf hset hle
  refine ⟨netC, expr, stB, planGhost p.1 n1 n2 p.2, ?_, rfl, hout, ?_, ?_⟩
  · unfold contract_between_with_copies
    rw [if_neg hne, htr]
    dsimp only []
    rw [if_neg (by simpa using hnonempty)]
    exact hphase
  · intro e he
    rcases plan_entry_shape p.1 n1 n2 p.2 he with ⟨i, hi, heq, -, -⟩ |
      ⟨m, i, hm, hi, hnb, hth, h1, h2⟩ | ⟨j, hj, hu, heq⟩
    · exact Or.inl ⟨i, hi, heq⟩
    · exact Or.inr (Or.inl ⟨m, i, hm, hi, hnb, hth, h1, h2⟩)
    · exact Or.inr (Or.inr ⟨j, hj, hu, heq⟩)
  · intro k hk
    exact (hplan k hk).1

theorem contract_plan_order_witness :
    (0 : Nat) ≠ 1 ∧ trivialize cex5net [2] [2] = .ok (cex5net, [2]) ∧
    BuildWf cex5net 0 1 [2] ∧ ([2] : List Nat) ≠ [] ∧
    (∀ x ∈ cex5net.nodesSet, x < cex5net.nextNodeId) ∧
    exprDemand cex5net 0 1 [2] ≤ 62 ∧
    (∃ netC expr stB plan,
      contract_between_with_copies (fun _ _ _ => 7) cex5net 0 1 [2]
        = .ok (.extended netC cex5net.nextNodeId expr plan stB) ∧
      plan = ((List.range (cex5net.rankOf 0)).map
          (out1Entries cex5net 0 1 [2])).flatten
        ++ (List.range (cex5net.rankOf 1)).filterMap
            (out2Entry cex5net 0 1 [2]) ∧
      stB.outputExpr = exprGhost1 cex5net 0 1 [2]
        ++ exprGhost2 cex5net 0 1 [2] ∧
      (∀ e ∈ plan,
        (∃ i, i < cex5net.rankOf 0 ∧ e = (cex5net.slotOf 0 i, 0, i)) ∨
        (∃ m i, m ∈ [2] ∧ i < cex5net.rankOf 0 ∧
          cex5net.neighborOf 0 (cex5net.slotOf 0 i) = some m ∧
          e.1 ∈ copyThirdSlots cex5net 0 1 m ∧ e.2.1 = m ∧ e.2.2 = i) ∨
        (∃ j, j < cex5net.rankOf 1 ∧ unbound2 cex5net 0 1 [2] j = true ∧
          e = (cex5net.slotOf 1 j, 1, j))) ∧
      (∀ k, k < plan.length →
        netC.slotOf cex5net.nextNodeId k = (plan.getD k (0, 0, 0)).1)) :=
  ⟨by decide, by rfl, by decide, by decide, by decide, by decide,
   contract_plan_order (fun _ _ _ => 7) cex5net 0 1 [2] (cex5net, [2])
     (by decide) (by rfl) (by decide) (by decide) (by decide) (by decide)⟩

end TN
